import Mathlib

/-! ArmA3-GhostHunter: BattlEye RCON codec and UDP session engine.

Shallow embedding of `battleye/battleye.go`, `udp/udp.go`, the reassembler
`concatPackets` of `main.go` and the encoders of `remotecall/remotecall.go`.

Conventions of the embedding:

* a Go `byte` is a `Nat`; every place where the Go code converts to `byte` or does
  `byte` arithmetic carries an explicit `% 256`;
* a Go `uint32` is a `Nat`; the CRC register is kept below `2 ^ 32`;
* a Go `string` is the list of its bytes;
* a Go `[]byte` argument is a `Slice`: the backing array from the start of the slice up
  to its capacity, together with the visible length.  Index and slice expressions follow
  the Go rules (an index is checked against the length, the upper bound of a slice
  expression against the capacity) and a failed check is a run-time panic;
* a method with a pointer receiver returns the receiver after the call next to its
  result;
* a channel is the list of the values sent on it so far, and a `select` case takes the
  received value as an argument.
-/

namespace battleye

/-! ## Go slices -/

/-- A Go byte slice: `buf` is the backing array from the first element of the slice to
its capacity, `len` the number of visible elements. -/
structure Slice where
  buf : List Nat
  len : Nat
  wf : len ≤ buf.length

/-- The visible bytes of a slice. -/
def Slice.bytes (s : Slice) : List Nat := s.buf.take s.len

/-- Capacity `cap(s)`. -/
def Slice.cap (s : Slice) : Nat := s.buf.length

/-- A slice showing `data`, with `spare` lying behind it in the backing array. -/
def Slice.ofData (data spare : List Nat) : Slice :=
  ⟨data ++ spare, data.length, by simp⟩

/-- Index expression `s[i]`: panics (`none`) unless `i < len(s)`. -/
def Slice.index (s : Slice) (i : Nat) : Option Nat :=
  if i < s.len then s.buf[i]? else none

/-- Slice expression `s[lo:hi]`: panics (`none`) unless `lo ≤ hi ≤ cap(s)`. -/
def Slice.slice (s : Slice) (lo hi : Nat) : Option Slice :=
  if h : lo ≤ hi ∧ hi ≤ s.buf.length then
    some ⟨s.buf.drop lo, hi - lo, by simp [List.length_drop]; omega⟩
  else none

/-- Slice expression `s[lo:]`, that is `s[lo:len(s)]`. -/
def Slice.sliceFrom (s : Slice) (lo : Nat) : Option Slice := s.slice lo s.len

/-- Slice expression `s[:hi]`, that is `s[0:hi]`. -/
def Slice.sliceTo (s : Slice) (hi : Nat) : Option Slice := s.slice 0 hi

/-! ## `hash/crc32` (Go standard library, generic implementation) -/

/-- The IEEE polynomial, reversed: `crc32.IEEE`. -/
def IEEE : Nat := 0xedb88320

/-- One iteration of the inner loop of `simplePopulateTable`. -/
def tableStep (poly crc : Nat) : Nat :=
  if crc % 2 = 1 then (crc >>> 1) ^^^ poly else crc >>> 1

/-- Entry `i` of the table built by `simplePopulateTable(poly, t)`. -/
def simpleMakeTable (poly i : Nat) : Nat := (tableStep poly)^[8] i

/-- Entry `i` of `crc32.IEEETable`. -/
def IEEETable (i : Nat) : Nat := simpleMakeTable IEEE i

/-- Complement `^crc` of a `uint32`. -/
def not32 (crc : Nat) : Nat := crc ^^^ 0xffffffff

/-- `simpleUpdate(crc, tab, p)`: `crc = ^crc; for v in p { crc = tab[byte(crc)^v] ^ (crc >> 8) }; return ^crc`. -/
def simpleUpdate (crc : Nat) (tab : Nat → Nat) (p : List Nat) : Nat :=
  not32 (p.foldl (fun crc v => tab ((crc % 256) ^^^ (v % 256)) ^^^ (crc >>> 8)) (not32 crc))

/-- The `digest` of `hash/crc32`: the running checksum. -/
structure digest where
  crc : Nat
deriving DecidableEq, Repr

/-- `crc32.NewIEEE()`. -/
def NewIEEE : digest := ⟨0⟩

/-- `(*digest).Write(p)`. -/
def digest.Write (d : digest) (p : List Nat) : digest := ⟨simpleUpdate d.crc IEEETable p⟩

/-- `(*digest).Sum32()`. -/
def digest.Sum32 (d : digest) : Nat := d.crc

/-! ## Packets -/

/-- The errors built with `fmt.Errorf` in `battleye.go`, with the values they print. -/
inductive BEError where
  | headerLength (length : Nat)
  | headerMagic (magic : List Nat)
  | headerSpacer (spacer : Nat)
  | headerPacketType (packetType : Nat)
  | noLoginResponse
  | packetLength (length : Nat)
deriving DecidableEq, Repr

/-- How a call of an `Unmarshal` method ends: `nil`, an error value, or a run-time panic. -/
inductive Outcome where
  | ok
  | err (e : BEError)
  | panic
deriving DecidableEq, Repr

structure BEHeader where
  MagicBytes : List Nat
  Crc : List Nat
  Spacer : Nat
  PacketType : Nat
deriving DecidableEq, Repr

def NewBEHeader : BEHeader :=
  { MagicBytes := [0x42, 0x45], Crc := [0x0, 0x0, 0x0, 0x0], Spacer := 0xFF, PacketType := 0x00 }

/-- `rawBytes[lo:hi][0]`, the idiom the decoders use to read one byte. -/
def byteAt (rawBytes : Slice) (lo hi : Nat) : Option Nat :=
  (rawBytes.slice lo hi).bind (fun s => s.index 0)

def BEHeader.Unmarshal (n : BEHeader) (rawBytes : Slice) : BEHeader × Outcome :=
  let length := rawBytes.len
  if length < 8 then (n, .err (.headerLength length)) else
  match rawBytes.sliceTo 2 with
  | none => (n, .panic)
  | some magic =>
    let n := { n with MagicBytes := magic.bytes }
    if n.MagicBytes ≠ [0x42, 0x45] then (n, .err (.headerMagic n.MagicBytes)) else
    match rawBytes.slice 2 6 with
    | none => (n, .panic)
    | some crc =>
      let n := { n with Crc := crc.bytes }
      match byteAt rawBytes 6 7 with
      | none => (n, .panic)
      | some spacer =>
        let n := { n with Spacer := spacer }
        if n.Spacer ≠ 0xFF then (n, .err (.headerSpacer n.Spacer)) else
        match byteAt rawBytes 7 8 with
        | none => (n, .panic)
        | some packetType =>
          let n := { n with PacketType := packetType }
          if ¬ (n.PacketType = 0x00 ∨ n.PacketType = 0x01 ∨ n.PacketType = 0x02) then
            (n, .err (.headerPacketType n.PacketType))
          else (n, .ok)

def BEHeader.Marshal (b : BEHeader) : Except BEError (List Nat) :=
  let buf : List Nat := []
  let length := 0
  let buf := buf ++ b.MagicBytes
  let length := length + b.MagicBytes.length
  let buf := buf ++ b.Crc
  let length := length + b.Crc.length
  let buf := buf ++ [b.Spacer]
  let length := length + 1
  let buf := buf ++ [b.PacketType]
  let length := length + 1
  if length ≠ 8 then .error (.headerLength length) else .ok buf

/-- The four result bytes shared by `getHash` and `CRC32`:
`byte(raw & 0x000000ff), byte(raw & 0x0000ff00 >> 8), byte(raw & 0x00ff0000 >> 16), byte(raw & 0xff000000 >> 24)`
(in Go `&` and `>>` have the same precedence and associate to the left). -/
def sumBytes (raw : Nat) : List Nat :=
  [(raw &&& 0x000000ff) % 256, ((raw &&& 0x0000ff00) >>> 8) % 256,
   ((raw &&& 0x00ff0000) >>> 16) % 256, ((raw &&& 0xff000000) >>> 24) % 256]

def getHash (bytes : List (List Nat)) : Except BEError (List Nat) :=
  let hash := bytes.foldl (fun hash x => hash.Write x) NewIEEE
  let raw := hash.Sum32
  .ok (sumBytes raw)

def CRC32 (bytes : List (List Nat)) : Except BEError (List Nat) :=
  let hash := bytes.foldl (fun hash x => hash.Write x) NewIEEE
  let raw := hash.Sum32
  .ok (sumBytes raw)

structure BEClientLogin where
  Header : BEHeader
  Password : List Nat
deriving DecidableEq, Repr

/-- The password of a fresh login packet, the bytes of `"default"`. -/
def defaultPassword : List Nat := [0x64, 0x65, 0x66, 0x61, 0x75, 0x6c, 0x74]

def NewBEClientLogin : BEClientLogin :=
  { Header := { NewBEHeader with PacketType := 0 }, Password := defaultPassword }

def BEClientLogin.Unmarshal (b : BEClientLogin) (rawBytes : Slice) : BEClientLogin × Outcome :=
  match rawBytes.sliceTo 8 with
  | none => (b, .panic)
  | some head =>
    match b.Header.Unmarshal head with
    | (h, .ok) =>
      let b := { b with Header := h }
      match rawBytes.sliceFrom 8 with
      | none => (b, .panic)
      | some rest => ({ b with Password := rest.bytes }, .ok)
    | (h, out) => ({ b with Header := h }, out)

def BEClientLogin.Marshal (b : BEClientLogin) : BEClientLogin × Except BEError (List Nat) :=
  match getHash [[b.Header.Spacer, b.Header.PacketType], b.Password] with
  | .error err => (b, .error err)
  | .ok hash =>
    let b := { b with Header := { b.Header with Crc := hash } }
    match b.Header.Marshal with
    | .error err => (b, .error err)
    | .ok wb =>
      let buf := wb
      let length := wb.length
      let buf := buf ++ b.Password
      let length := length + b.Password.length
      if length ≠ 8 + b.Password.length then (b, .error (.packetLength length))
      else (b, .ok buf)

structure BEServerLogin where
  Header : BEHeader
  LoginResponse : Nat
deriving DecidableEq, Repr

def NewBEServerLogin : BEServerLogin :=
  { Header := { NewBEHeader with PacketType := 0 }, LoginResponse := 0 }

def BEServerLogin.Unmarshal (b : BEServerLogin) (rawBytes : Slice) : BEServerLogin × Outcome :=
  if rawBytes.len < 9 then (b, .err .noLoginResponse) else
  match rawBytes.sliceTo 8 with
  | none => (b, .panic)
  | some head =>
    match b.Header.Unmarshal head with
    | (h, .ok) =>
      let b := { b with Header := h }
      match byteAt rawBytes 8 9 with
      | none => (b, .panic)
      | some r => ({ b with LoginResponse := r }, .ok)
    | (h, out) => ({ b with Header := h }, out)

def BEServerLogin.Marshal (b : BEServerLogin) : BEServerLogin × Except BEError (List Nat) :=
  match getHash [[b.Header.Spacer, b.Header.PacketType], [b.LoginResponse]] with
  | .error err => (b, .error err)
  | .ok hash =>
    let b := { b with Header := { b.Header with Crc := hash } }
    match b.Header.Marshal with
    | .error err => (b, .error err)
    | .ok wb =>
      let buf := wb
      let length := wb.length
      let buf := buf ++ [b.LoginResponse]
      let length := length + 1
      if length ≠ 8 + 1 then (b, .error (.packetLength length))
      else (b, .ok buf)

structure BEClientCommand where
  Header : BEHeader
  Sequence : Nat
  Command : List Nat
  Retries : Nat
deriving DecidableEq, Repr

def NewBEClientCommand : BEClientCommand :=
  { Header := { NewBEHeader with PacketType := 1 }, Sequence := 0, Command := [], Retries := 0 }

def BEClientCommand.Unmarshal (b : BEClientCommand) (rawBytes : Slice) :
    BEClientCommand × Outcome :=
  match rawBytes.sliceTo 8 with
  | none => (b, .panic)
  | some head =>
    match b.Header.Unmarshal head with
    | (h, .ok) =>
      let b := { b with Header := h }
      match byteAt rawBytes 8 9 with
      | none => (b, .panic)
      | some sq =>
        let b := { b with Sequence := sq }
        match rawBytes.sliceFrom 9 with
        | none => (b, .panic)
        | some rest => ({ b with Command := rest.bytes }, .ok)
    | (h, out) => ({ b with Header := h }, out)

def BEClientCommand.Marshal (b : BEClientCommand) :
    BEClientCommand × Except BEError (List Nat) :=
  match getHash [[b.Header.Spacer, b.Header.PacketType, b.Sequence], b.Command] with
  | .error err => (b, .error err)
  | .ok hash =>
    let b := { b with Header := { b.Header with Crc := hash } }
    match b.Header.Marshal with
    | .error err => (b, .error err)
    | .ok wb =>
      let buf := wb
      let length := wb.length
      let buf := buf ++ [b.Sequence]
      let length := length + 1
      let buf := buf ++ b.Command
      let length := length + b.Command.length
      if length ≠ 9 + b.Command.length then (b, .error (.packetLength length))
      else (b, .ok buf)

structure BEOptionalHeader where
  MagicByte : Nat
  NumberOfPackets : Nat
  Index : Nat
deriving DecidableEq, Repr

structure BEServerCommand where
  Header : BEHeader
  Sequence : Nat
  OptionalHeader : Option BEOptionalHeader
  Response : List Nat
deriving DecidableEq, Repr

def NewBEServerCommand : BEServerCommand :=
  { Header := { NewBEHeader with PacketType := 1 }, Sequence := 0, OptionalHeader := none,
    Response := [] }

def BEServerCommand.Unmarshal (b : BEServerCommand) (rawBytes : Slice) :
    BEServerCommand × Outcome :=
  match rawBytes.sliceTo 8 with
  | none => (b, .panic)
  | some head =>
    match b.Header.Unmarshal head with
    | (h, .ok) =>
      let b := { b with Header := h }
      match byteAt rawBytes 8 9 with
      | none => (b, .panic)
      | some sq =>
        let b := { b with Sequence := sq }
        if rawBytes.len ≥ 10 then
          match byteAt rawBytes 9 10 with
          | none => (b, .panic)
          | some m =>
            if m = 0x00 then
              -- optional header
              let o : BEOptionalHeader := { MagicByte := 0, NumberOfPackets := 0, Index := 0 }
              let o := { o with MagicByte := 0x00 }
              let b := { b with OptionalHeader := some o }
              match byteAt rawBytes 10 11 with
              | none => (b, .panic)
              | some np =>
                let o := { o with NumberOfPackets := np }
                let b := { b with OptionalHeader := some o }
                match byteAt rawBytes 11 12 with
                | none => (b, .panic)
                | some ix =>
                  let o := { o with Index := ix }
                  let b := { b with OptionalHeader := some o }
                  match rawBytes.sliceFrom 12 with
                  | none => (b, .panic)
                  | some rest => ({ b with Response := rest.bytes }, .ok)
            else
              match rawBytes.sliceFrom 9 with
              | none => (b, .panic)
              | some rest => ({ b with Response := rest.bytes }, .ok)
        else (b, .ok)
    | (h, out) => ({ b with Header := h }, out)

structure BEClientMessage where
  Header : BEHeader
  Sequence : Nat
deriving DecidableEq, Repr

def NewBEClientMessage : BEClientMessage :=
  { Header := { NewBEHeader with PacketType := 2 }, Sequence := 0 }

def BEClientMessage.Unmarshal (b : BEClientMessage) (rawBytes : Slice) :
    BEClientMessage × Outcome :=
  match rawBytes.sliceTo 8 with
  | none => (b, .panic)
  | some head =>
    match b.Header.Unmarshal head with
    | (h, .ok) =>
      let b := { b with Header := h }
      match byteAt rawBytes 8 9 with
      | none => (b, .panic)
      | some sq => ({ b with Sequence := sq }, .ok)
    | (h, out) => ({ b with Header := h }, out)

def BEClientMessage.Marshal (b : BEClientMessage) :
    BEClientMessage × Except BEError (List Nat) :=
  match getHash [[b.Header.Spacer, b.Header.PacketType, b.Sequence]] with
  | .error err => (b, .error err)
  | .ok hash =>
    let b := { b with Header := { b.Header with Crc := hash } }
    match b.Header.Marshal with
    | .error err => (b, .error err)
    | .ok wb =>
      let buf := wb
      let length := wb.length
      let buf := buf ++ [b.Sequence]
      let length := length + 1
      if length ≠ 9 then (b, .error (.packetLength length))
      else (b, .ok buf)

structure BEServerMessage where
  Header : BEHeader
  Sequence : Nat
  Message : List Nat
deriving DecidableEq, Repr

def NewBEServerMessage : BEServerMessage :=
  { Header := { NewBEHeader with PacketType := 2 }, Sequence := 0, Message := [] }

def BEServerMessage.Unmarshal (b : BEServerMessage) (rawBytes : Slice) :
    BEServerMessage × Outcome :=
  match rawBytes.sliceTo 8 with
  | none => (b, .panic)
  | some head =>
    match b.Header.Unmarshal head with
    | (h, .ok) =>
      let b := { b with Header := h }
      match byteAt rawBytes 8 9 with
      | none => (b, .panic)
      | some sq =>
        let b := { b with Sequence := sq }
        match rawBytes.sliceFrom 9 with
        | none => (b, .panic)
        | some rest => ({ b with Message := rest.bytes }, .ok)
    | (h, out) => ({ b with Header := h }, out)

def BEServerMessage.Marshal (b : BEServerMessage) :
    BEServerMessage × Except BEError (List Nat) :=
  match getHash [[b.Header.Spacer, b.Header.PacketType, b.Sequence], b.Message] with
  | .error err => (b, .error err)
  | .ok hash =>
    let b := { b with Header := { b.Header with Crc := hash } }
    match b.Header.Marshal with
    | .error err => (b, .error err)
    | .ok wb =>
      let buf := wb
      let length := wb.length
      let buf := buf ++ [b.Sequence]
      let length := length + 1
      let buf := buf ++ b.Message
      let length := length + b.Message.length
      if length ≠ 9 + b.Message.length then (b, .error (.packetLength length))
      else (b, .ok buf)

/-! ## The specification's vocabulary -/

/-- One shift of the reflected CRC register: the low bit is shifted out and, when it was
set, the reflected polynomial `0xEDB88320` is added. -/
def specShift (crc : Nat) : Nat :=
  if crc % 2 = 1 then (crc / 2) ^^^ 0xEDB88320 else crc / 2

/-- CRC-32/IEEE as the specification states it: reflected polynomial `0xEDB88320`, initial
value `0xFFFFFFFF`, final XOR `0xFFFFFFFF`, one byte at a time, bit by bit. -/
def crc32IEEE (data : List Nat) : Nat :=
  (data.foldl (fun crc b => specShift^[8] (crc ^^^ (b % 256))) 0xFFFFFFFF) ^^^ 0xFFFFFFFF

/-- The four bytes of a 32-bit value, least significant first. -/
def littleEndian32 (x : Nat) : List Nat :=
  [x % 256, x / 256 % 256, x / 65536 % 256, x / 16777216 % 256]

/-- The reference layout of a frame with the given magic and the given bytes from offset 6
on: magic, little-endian CRC-32/IEEE of the body, body. -/
def referenceFrame (magic body : List Nat) : List Nat :=
  magic ++ littleEndian32 (crc32IEEE body) ++ body

/-- The frame as the specification patches it at send time: the sequence `c` written at
offset 8, then bytes 2..5 replaced by the little-endian CRC-32/IEEE of everything from
offset 6 on. -/
def patchSequence (bytes : List Nat) (c : Nat) : List Nat :=
  (bytes.set 8 c).take 2 ++ littleEndian32 (crc32IEEE ((bytes.set 8 c).drop 6)) ++
    (bytes.set 8 c).drop 6

/-! ## Datagrams used as examples -/

/-- A server message as it arrives: sequence 5, text `hi`, nothing behind it in the buffer. -/
def messageDatagram : Slice :=
  Slice.ofData [0x42, 0x45, 162, 2, 206, 57, 0xFF, 0x02, 0x05, 0x68, 0x69] []

/-- A login response with code `0x01`. -/
def loginAcceptedDatagram : Slice :=
  Slice.ofData [0x42, 0x45, 105, 221, 222, 54, 0xFF, 0x00, 0x01] []

/-- A login response with code `0x00`. -/
def loginRejectedDatagram : Slice :=
  Slice.ofData [0x42, 0x45, 255, 237, 217, 65, 0xFF, 0x00, 0x00] []

/-- A login response cut off after the header. -/
def truncatedLoginDatagram : Slice :=
  Slice.ofData [0x42, 0x45, 0, 0, 0, 0, 0xFF, 0x00] []

end battleye

namespace udp

open battleye

/-! ## `udp/udp.go`

A channel is modelled by the list of the values sent on it so far, in order; the value
a `select` case receives is an argument of the function that models the case.  Time is a
`Nat` counting nanoseconds.  The socket is modelled by its read deadline and the list of
the datagrams written to it so far, in order. -/

/-- The values of the interface `battleye.BEPacket`: the packet types that have both
`Unmarshal` and `Marshal`. -/
inductive BEPacket where
  | ClientLogin (p : BEClientLogin)
  | ServerLogin (p : BEServerLogin)
  | ClientCommand (p : BEClientCommand)
  | ClientMessage (p : BEClientMessage)
  | ServerMessage (p : BEServerMessage)
deriving DecidableEq, Repr

/-- Dynamic dispatch of `p.Marshal()`. -/
def BEPacket.Marshal : BEPacket → BEPacket × Except BEError (List Nat)
  | .ClientLogin p => (.ClientLogin p.Marshal.1, p.Marshal.2)
  | .ServerLogin p => (.ServerLogin p.Marshal.1, p.Marshal.2)
  | .ClientCommand p => (.ClientCommand p.Marshal.1, p.Marshal.2)
  | .ClientMessage p => (.ClientMessage p.Marshal.1, p.Marshal.2)
  | .ServerMessage p => (.ServerMessage p.Marshal.1, p.Marshal.2)

/-- The error values sent on `u.Err`. -/
inductive UDPError where
  | net (code : Nat)
  | notOnline
  | loggedIn
  | invalidPassword
  | sendTimeout (frame : List Nat)
  | tooManyFailed
deriving DecidableEq, Repr

/-- One second, as a `time.Duration`. -/
def Second : Nat := 1000000000

/-- The socket `u.con`. -/
structure UDPConn where
  readDeadline : Nat
  written : List (List Nat)
  closed : Bool
deriving DecidableEq, Repr

structure UDPClient where
  con : UDPConn
  Out : List BEPacket
  CmdIn : List BEServerCommand
  MsgIn : List BEServerMessage
  Err : List UDPError
  chk : List BEServerCommand
  cmdCounter : Nat
  online : Bool
  heartbeat : Nat
deriving DecidableEq, Repr

/-- `u.con.Write(b)`. -/
def UDPClient.Write (u : UDPClient) (b : List Nat) : UDPClient :=
  { u with con := { u.con with written := u.con.written ++ [b] } }

/-- `NewUDPClient(cfg)`: empty channels, every other field at its zero value. -/
def NewUDPClient : UDPClient :=
  { con := { readDeadline := 0, written := [], closed := false },
    Out := [], CmdIn := [], MsgIn := [], Err := [], chk := [],
    cmdCounter := 0, online := false, heartbeat := 0 }

/-- The head of the `Reconnect` loop of `Listen` ("reset counters"), at clock `now`. -/
def Listen.reset (u : UDPClient) (now : Nat) : UDPClient :=
  { u with cmdCounter := 0, heartbeat := now, online := true }

/-- How one pass through the inner `for` of `Listen` ends. -/
inductive Control where
  | next
  | reconnect
  | done
  | panic
deriving DecidableEq, Repr

/-- One pass through the inner loop of `Listen`, from `ReadFromUDP` on.  `rawBytes` is
`buf[:n]` (a slice of the 4096-byte array `buf`), `fromServer` is
`addr.String() == u.server.String()`, `err` the error of the read and `now` the clock. -/
def Listen.receive (u : UDPClient) (header : BEHeader) (now : Nat) (rawBytes : Slice)
    (fromServer : Bool) (err : Option UDPError) : UDPClient × BEHeader × Control :=
  let u := { u with con := { u.con with readDeadline := now + 45 * Second } }
  let online := u.online
  let err := if online = false then some UDPError.notOnline else err
  if err ≠ none ∨ online = false then
    ({ u with Err := u.Err ++ err.toList, con := { u.con with closed := true } }, header,
      .reconnect)
  else
    if fromServer then
      match header.Unmarshal rawBytes with
      | (header, .panic) => (u, header, .panic)
      | (header, .err _) => (u, header, .next)
      | (header, .ok) =>
        match rawBytes.slice 6 rawBytes.len with
        | none => (u, header, .panic)
        | some body =>
          match CRC32 [body.bytes] with
          | .error _ => (u, header, .next)
          | .ok crcCheck =>
            if crcCheck ≠ header.Crc then (u, header, .next)
            else if header.PacketType = 0 then
              -- BE login packet
              match NewBEServerLogin.Unmarshal rawBytes with
              | (_, .panic) => (u, header, .panic)
              | (_, .err _) => (u, header, .next)
              | (packet, .ok) =>
                if packet.LoginResponse = 1 then
                  ({ u with online := true, Err := u.Err ++ [UDPError.loggedIn] }, header, .next)
                else
                  ({ u with Err := u.Err ++ [UDPError.invalidPassword] }, header, .done)
            else if header.PacketType = 1 then
              -- BE command packet
              match NewBEServerCommand.Unmarshal rawBytes with
              | (_, .panic) => (u, header, .panic)
              | (_, .err _) => (u, header, .next)
              | (packet, .ok) =>
                ({ u with CmdIn := u.CmdIn ++ [packet], chk := u.chk ++ [packet] }, header, .next)
            else if header.PacketType = 2 then
              -- BE server message
              match NewBEServerMessage.Unmarshal rawBytes with
              | (_, .panic) => (u, header, .panic)
              | (_, .err _) => (u, header, .next)
              | (packet, .ok) =>
                let response := { NewBEClientMessage with Sequence := packet.Sequence }
                ({ u with MsgIn := u.MsgIn ++ [packet], Out := u.Out ++ [BEPacket.ClientMessage response] },
                  header, .next)
            else (u, header, .next)
    else (u, header, .next)

/-- The local variables of `ProcessPendingPackets`.  The two 256-element slices `pending`
and `pendingRetries` are functions of the index; the loops over them range over the indices
0..255.  A `nil` entry of `pending` is `none`. -/
structure Pending where
  pending : Nat → Option (List Nat)
  pendingRetries : Nat → Nat
  beat : BEClientCommand
  fails : Nat

/-- The locals of `ProcessPendingPackets` when its loop is entered. -/
def Pending.init : Pending :=
  { pending := fun _ => none, pendingRetries := fun _ => 0,
    beat := { NewBEClientCommand with Command := [] }, fails := 0 }

/-- The assignment `bytes[i] = v`; `none` is the index-out-of-range panic. -/
def setByte (bytes : List Nat) (i v : Nat) : Option (List Nat) :=
  if i < bytes.length then some (bytes.set i v) else none

/-- The `select` case `p := <-u.Out` of `ProcessPendingPackets`; `none` is a run-time panic. -/
def ProcessPendingPackets.caseOut (u : UDPClient) (w : Pending) (p : BEPacket) :
    Option (UDPClient × Pending) :=
  match (p.Marshal).2 with
  | .error _ => some (u, w)
  | .ok bytes =>
    -- check packet type
    match bytes[7]? with
    | none => none
    | some t =>
      if t = 0x01 then
        -- modify command sequence
        let u := if u.cmdCounter > 255 then { u with cmdCounter := 0 } else u
        match setByte bytes 8 u.cmdCounter with
        | none => none
        | some bytes =>
          let u := { u with cmdCounter := (u.cmdCounter + 1) % 256 }
          -- recalculate crc32
          match CRC32 [bytes.drop 6] with
          | .error _ => none
          | .ok newCRC =>
            match newCRC[0]?, newCRC[1]?, newCRC[2]?, newCRC[3]?, bytes[8]? with
            | some c0, some c1, some c2, some c3, some sq =>
              let bytes := (((bytes.set 2 c0).set 3 c1).set 4 c2).set 5 c3
              -- add new packet to list of pending packets
              some (u, { w with pending := Function.update w.pending sq (some bytes) })
            | _, _, _, _, _ => none
      else some (u.Write bytes, w)

/-- The `select` case `x := <-u.chk`: the body of the loop over `pending`, at index `k`;
`none` is the index-out-of-range panic of `(*v)[8]`. -/
def ProcessPendingPackets.chkSlot (x : BEServerCommand) (w : Pending) (k : Nat) :
    Option Pending :=
  match w.pending k with
  | none => some w
  | some v =>
    match v[8]? with
    | none => none
    | some sq =>
      if sq = x.Sequence then some { w with pending := Function.update w.pending k none }
      else some w

/-- The `select` case `x := <-u.chk` of `ProcessPendingPackets`; `none` is a run-time
panic. -/
def ProcessPendingPackets.caseChk (u : UDPClient) (w : Pending) (x : BEServerCommand) :
    Option (UDPClient × Pending) :=
  ((List.range 256).foldlM (ProcessPendingPackets.chkSlot x) w).map (fun w => (u, w))

/-- The `select` case `<-ticker`: the body of the loop over `pending`, at index `k`. -/
def ProcessPendingPackets.tickSlot (s : UDPClient × Pending) (k : Nat) : UDPClient × Pending :=
  let u := s.1
  let w := s.2
  match w.pending k with
  | none => (u, w)
  | some v =>
    if w.pendingRetries k < 5 then
      let w := { w with pendingRetries := Function.update w.pendingRetries k (w.pendingRetries k + 1) }
      (u.Write v, w)
    else
      let u := { u with Err := u.Err ++ [UDPError.sendTimeout v] }
      let w := { w with fails := w.fails + 1 }
      let w := { w with pendingRetries := Function.update w.pendingRetries k 0 }
      let w := { w with pending := Function.update w.pending k none }
      if w.fails ≥ 5 then
        let w := { w with fails := 0 }
        let u := { u with Err := u.Err ++ [UDPError.tooManyFailed] }
        ({ u with online := false }, w)
      else (u, w)

/-- The `select` case `<-ticker` of `ProcessPendingPackets`, at clock `now`. -/
def ProcessPendingPackets.caseTick (u : UDPClient) (w : Pending) (now : Nat) :
    UDPClient × Pending :=
  -- process all pending packets
  let s := (List.range 256).foldl ProcessPendingPackets.tickSlot (u, w)
  let u := s.1
  let w := s.2
  if u.online then
    -- send a heartbeat if no other commands have been issued since 30 seconds
    let diff := now - u.heartbeat
    if diff ≥ 30 * Second then
      ({ u with heartbeat := now, Out := u.Out ++ [BEPacket.ClientCommand w.beat] }, w)
    else (u, w)
  else (u, w)

/-- What the `select` of `ProcessPendingPackets` can receive. -/
inductive Input where
  | out (p : BEPacket)
  | chk (x : BEServerCommand)
  | tick (now : Nat)

/-- One pass through the loop of `ProcessPendingPackets`; `none` is a run-time panic. -/
def ProcessPendingPackets.step (s : UDPClient × Pending) : Input → Option (UDPClient × Pending)
  | .out p => ProcessPendingPackets.caseOut s.1 s.2 p
  | .chk x => ProcessPendingPackets.caseChk s.1 s.2 x
  | .tick now => some (ProcessPendingPackets.caseTick s.1 s.2 now)

/-- The loop of `ProcessPendingPackets` over a sequence of received values. -/
def ProcessPendingPackets.run (s : UDPClient × Pending) : List Input → Option (UDPClient × Pending)
  | [] => some s
  | i :: is => (ProcessPendingPackets.step s i).bind (fun s => ProcessPendingPackets.run s is)

/-- The header of a packet. -/
def BEPacket.Header : BEPacket → BEHeader
  | .ClientLogin p => p.Header
  | .ServerLogin p => p.Header
  | .ClientCommand p => p.Header
  | .ClientMessage p => p.Header
  | .ServerMessage p => p.Header

/-- The packet type that the constructor of each variant sets. -/
def BEPacket.constructorType : BEPacket → Nat
  | .ClientLogin _ => 0
  | .ServerLogin _ => 0
  | .ClientCommand _ => 1
  | .ClientMessage _ => 2
  | .ServerMessage _ => 2

/-- A packet whose header is the one its constructor built; the CRC field is left free,
`Marshal` overwrites it. -/
def BEPacket.Constructed (p : BEPacket) : Prop :=
  p.Header.MagicBytes = [0x42, 0x45] ∧ p.Header.Spacer = 0xFF ∧
    p.Header.PacketType = p.constructorType

instance (p : BEPacket) : Decidable p.Constructed := by
  unfold BEPacket.Constructed; infer_instance

/-- Whether the received value is a command packet. -/
def Input.isCommand : Input → Bool
  | .out (.ClientCommand _) => true
  | _ => false

/-- The packets among the received values are constructor-built. -/
def Input.Constructed : Input → Prop
  | .out p => p.Constructed
  | _ => True

instance (i : Input) : Decidable i.Constructed := by
  cases i <;> unfold Input.Constructed <;> infer_instance

/-! ### Vocabulary for the claims about the writer -/

/-- Every frame in the table has a byte at offset 8. -/
def Pending.Indexable (w : Pending) : Prop :=
  ∀ k f, w.pending k = some f → 8 < f.length

/-- The frame a tick writes to the socket for slot `k`, if any. -/
def slotSend (w : Pending) (k : Nat) : Option (List Nat) :=
  if w.pendingRetries k < 5 then w.pending k else none

/-- What is left in a slot holding `v` after the reply notification `x`. -/
def slotAfterChk (x : BEServerCommand) (v : Option (List Nat)) : Option (List Nat) :=
  match v with
  | none => none
  | some f => if f[8]? = some x.Sequence then none else some f

/-- The frame of the empty command with sequence byte `i`. -/
def beatFrame (i : Nat) : List Nat := referenceFrame [0x42, 0x45] [0xFF, 0x01, i]

/-- One acknowledged command: dequeue it, transmit it on the next tick, receive the reply. -/
def ackedCommand (i : Nat) : List Input :=
  [.out (.ClientCommand NewBEClientCommand), .tick 0,
    .chk { NewBEServerCommand with Sequence := i }]

/-- The state between two acknowledged commands: nothing is pending. -/
def Idle (i : Nat) (s : UDPClient × Pending) : Prop :=
  s.1.cmdCounter = i ∧ (∀ k, s.2.pending k = none) ∧ (∀ k, i ≤ k → s.2.pendingRetries k = 0) ∧
    (∀ k, s.2.pendingRetries k ≤ 1) ∧ s.1.con.written = (List.range i).map beatFrame

/-- The command dequeued first in the wrap-around run; it is given sequence 255. -/
def wrapFirst : BEClientCommand := { NewBEClientCommand with Command := [0x61] }

/-- The command dequeued second in the wrap-around run; it is given sequence 0. -/
def wrapSecond : BEClientCommand := { NewBEClientCommand with Command := [0x62] }

/-- 255 acknowledged commands, then two commands dequeued before the same tick. -/
def wrapRun : List Input :=
  (List.range 255).flatMap ackedCommand ++
    [.out (.ClientCommand wrapFirst), .out (.ClientCommand wrapSecond), .tick 0]

/-- A table holding the frame of `wrapSecond` in slot 0 and that of `wrapFirst` in slot 255. -/
def wrapTable : Pending :=
  { Pending.init with
    pending := fun k =>
      if k = 0 then some (referenceFrame [0x42, 0x45] [0xFF, 0x01, 0, 0x62])
      else if k = 255 then some (referenceFrame [0x42, 0x45] [0xFF, 0x01, 255, 0x61])
      else none }

/-- Whether the received value is a tick. -/
def Input.isTick : Input → Bool
  | .tick _ => true
  | _ => false

/-- The state of the writer `n` ticks after the frame `f` entered slot `c` of a table that
was empty, the socket having carried `wr` and `Err` having carried `er` before. -/
def AfterTicks (c : Nat) (f : List Nat) (wr : List (List Nat)) (er : List UDPError) (n : Nat)
    (s : UDPClient × Pending) : Prop :=
  s.1.con.written = wr ++ List.replicate (min n 5) f ∧
    s.1.Err = er ++ (if 6 ≤ n then [UDPError.sendTimeout f] else []) ∧
    (n < 6 → s.2.pending c = some f ∧ (∀ j, j ≠ c → s.2.pending j = none) ∧
      s.2.pendingRetries c = n ∧ s.2.fails = 0) ∧
    (6 ≤ n → ∀ j, s.2.pending j = none)

/-- What the dequeue case keeps true of the table, seen from slot `k` and a command frame
`f` with sequence byte `k`: every frame in the table carries the index of its slot at
offset 8, and the counter is a byte. -/
def SlotInv (k : Nat) (f : List Nat) (s : UDPClient × Pending) : Prop :=
  k < 256 ∧ f[7]? = some 1 ∧ f[8]? = some k ∧
    (∀ j g, s.2.pending j = some g → g[8]? = some j) ∧ s.1.cmdCounter < 256

/-- A writer that has given out sequence 0 and holds `wrapTable`. -/
def retryStart : UDPClient × Pending := ({ NewUDPClient with cmdCounter := 1 }, wrapTable)

/-- Seven ticks, with a message ACK, the reply to sequence 255 and a new command (it is
given sequence 1) in between. -/
def retryRun : List Input :=
  [.tick Second, .out (.ClientMessage NewBEClientMessage), .tick (2 * Second),
    .chk { NewBEServerCommand with Sequence := 255 },
    .out (.ClientCommand NewBEClientCommand), .tick (3 * Second), .tick (4 * Second),
    .tick (5 * Second), .tick (6 * Second), .tick (7 * Second)]

/-- A command that is never acknowledged: it is dequeued and six ticks follow. -/
def timedOutCommand : List Input :=
  .out (.ClientCommand NewBEClientCommand) :: List.replicate 6 (.tick 0)

/-- Five commands that time out, each but the last followed by a command that is
acknowledged. -/
def failuresBetweenAcks : List Input :=
  timedOutCommand ++ ackedCommand 1 ++ timedOutCommand ++ ackedCommand 3 ++ timedOutCommand ++
    ackedCommand 5 ++ timedOutCommand ++ ackedCommand 7 ++ timedOutCommand

/-- The writer between two commands: the counter is `i`, nothing is pending, the slots from
`i` on have not been used yet, and `fails` is `n`. -/
def Quiet (i n : Nat) (s : UDPClient × Pending) : Prop :=
  s.1.cmdCounter = i ∧ (∀ k, s.2.pending k = none) ∧
    (∀ k, i ≤ k → s.2.pendingRetries k = 0) ∧ s.2.fails = n

/-- Whether an error is a send timeout. -/
def UDPError.isSendTimeout : UDPError → Bool
  | .sendTimeout _ => true
  | _ => false

/-- The account of the counter `fails` between a state `s` of the writer and a later state
`t`: the counter is below 5; it has grown by the number of send timeouts, less 5 for every
"too many failed send attempts" sent; the online flag is as it was when no such error was
sent and `false` when one was. -/
def Ledger (s t : UDPClient × Pending) : Prop :=
  t.2.fails < 5 ∧
    s.1.Err.count UDPError.tooManyFailed ≤ t.1.Err.count UDPError.tooManyFailed ∧
    t.2.fails + 5 * t.1.Err.count UDPError.tooManyFailed +
        s.1.Err.countP UDPError.isSendTimeout =
      s.2.fails + 5 * s.1.Err.count UDPError.tooManyFailed +
        t.1.Err.countP UDPError.isSendTimeout ∧
    (t.1.Err.count UDPError.tooManyFailed = s.1.Err.count UDPError.tooManyFailed →
      t.1.online = s.1.online) ∧
    (s.1.Err.count UDPError.tooManyFailed < t.1.Err.count UDPError.tooManyFailed →
      t.1.online = false)

/-- Every frame in the table is a command frame with the index of its slot as sequence byte
and a matching CRC, and no retry count exceeds 5. -/
def Pending.WellFormed (w : Pending) : Prop :=
  (∀ k f, w.pending k = some f →
      k < 256 ∧ 9 ≤ f.length ∧ f[7]? = some 0x01 ∧ f[8]? = some k ∧
        (f.drop 2).take 4 = littleEndian32 (crc32IEEE (f.drop 6))) ∧
    ∀ k, w.pendingRetries k ≤ 5

/-- The frame the dequeue case stores for the command `p` when the counter is `c`: the
marshalled packet with `c` written at offset 8 and the CRC recomputed. -/
def commandFrame (c : Nat) (p : BEClientCommand) : List Nat :=
  referenceFrame [0x42, 0x45] ([0xFF, 0x01, c] ++ p.Command)

/-- A writer whose counter stands at 255 with nothing pending, as after 255 acknowledged
commands. -/
def wrapStart : UDPClient × Pending :=
  ({ Listen.reset NewUDPClient 0 with cmdCounter := 255 }, Pending.init)

/-- The command `wrapFirst` is dequeued (sequence 0) and transmitted by one tick; before the
next tick 256 commands `wrapSecond` are dequeued, so that the last of them is given sequence
0 again; then eight ticks follow.  No reply arrives. -/
def overwriteRun : List Input :=
  [.out (.ClientCommand wrapFirst), .tick 0] ++
    List.replicate 256 (.out (.ClientCommand wrapSecond)) ++ List.replicate 8 (.tick 0)

end udp

namespace main

open battleye

/-! ## `main.go`: `concatPackets`

A Go `string` is the list of its bytes.  `int` has 64 bits. -/

/-- How a piece of code ends: with a value, with a run-time panic, or not at all. -/
inductive Run (α : Type) where
  | ok (a : α)
  | panic
  | hang
deriving DecidableEq, Repr

/-- Sequencing of two pieces of code. -/
def Run.bind {α β : Type} (r : Run α) (f : α → Run β) : Run β :=
  match r with
  | .ok a => f a
  | .panic => .panic
  | .hang => .hang

/-- An indexing that may panic. -/
def Run.ofOption {α : Type} : Option α → Run α
  | some a => .ok a
  | none => .panic

/-- `strconv.Itoa`. -/
def Itoa (i : Int) : List Nat :=
  if i < 0 then 0x2D :: (Nat.toDigits 10 i.natAbs).map Char.toNat
  else (Nat.toDigits 10 i.natAbs).map Char.toNat

/-- `strconv.Atoi` with its error dropped, as in `i, _ := strconv.Atoi(s)`: an optional sign
and decimal digits; 0 on a syntax error, the nearest `int` when out of range. -/
def Atoi (s : List Nat) : Int :=
  let neg := s.head? = some 0x2D
  let ds := if s.head? = some 0x2D ∨ s.head? = some 0x2B then s.tail else s
  if ds = [] ∨ ds.any (fun c => c < 0x30 ∨ 0x39 < c) then 0
  else
    let un : Nat := ds.foldl (fun n c => n * 10 + (c - 0x30)) 0
    if neg then (if un > 2 ^ 63 then -(2 ^ 63) else -(un : Int))
    else (if un ≥ 2 ^ 63 then 2 ^ 63 - 1 else (un : Int))

/-- The conversion `byte(i)` of an `int`. -/
def toByte (i : Int) : Nat := (i % 256).toNat

/-- The buffer `packetbuffer` as the two `make` calls leave it: 256 slots of 100 empty
strings each. -/
def packetbuffer : List (List (List Nat)) := List.replicate 256 (List.replicate 100 [])

/-- The assignment `slot[i] = v`; `none` is the index-out-of-range panic. -/
def setString (slot : List (List Nat)) (i : Nat) (v : List Nat) : Option (List (List Nat)) :=
  if i < slot.length then some (slot.set i v) else none

/-- The loop `for i := byte(1); i <= n; i++ { body }`.  For `n = 255` the condition holds
for every byte, so after the pass over 1..255 the loop goes on for ever unless the body
panics; the bodies used here do the same at an index they have passed once. -/
def byteLoop {σ : Type} (n : Nat) (body : σ → Nat → Option σ) (s : σ) : Run σ :=
  match (List.range' 1 (min n 255)).foldlM body s with
  | none => .panic
  | some s' => if n < 255 then .ok s' else .hang

/-- The body of `if p.OptionalHeader != nil` on the slot `packetbuffer[p.Sequence]`: the
slot afterwards and what was sent on `out`. -/
def concatPackets.fragment (slot : List (List Nat)) (h : BEOptionalHeader)
    (response : List Nat) : Run (List (List Nat) × List (List Nat)) :=
  (Run.ofOption slot[0]?).bind fun e0 =>
  (Run.ofOption (if e0 = [] then setString slot 0 [0x30] else some slot)).bind fun slot =>
  (Run.ofOption (setString slot ((h.Index + 1) % 256) response)).bind fun slot =>
  -- increment packet counter
  (Run.ofOption slot[0]?).bind fun e0 =>
  let ctr := (toByte (Atoi e0) + 1) % 256
  if ctr ≥ h.NumberOfPackets then
    -- we do not need to wait any longer because
    -- apparently all packets have arrived
    (byteLoop h.NumberOfPackets (fun result i => (slot[i]?).map (fun v => result ++ v)) []).bind
      fun result =>
    (byteLoop h.NumberOfPackets (fun slot i => setString slot i []) slot).bind fun slot =>
    let ctr := 0
    (Run.ofOption (setString slot 0 (Itoa ctr))).bind fun slot => .ok (slot, [result])
  else
    (Run.ofOption (setString slot 0 (Itoa ctr))).bind fun slot => .ok (slot, [])

/-- The `select` case `p := <-c` of `concatPackets`, on the buffer and the values sent on
`out` so far. -/
def concatPackets.step (s : List (List (List Nat)) × List (List Nat)) (p : BEServerCommand) :
    Run (List (List (List Nat)) × List (List Nat)) :=
  match p.OptionalHeader with
  | some h =>
    (Run.ofOption s.1[p.Sequence]?).bind fun slot =>
    (concatPackets.fragment slot h p.Response).bind fun r =>
    .ok (s.1.set p.Sequence r.1, s.2 ++ r.2)
  | none => .ok (s.1, s.2 ++ [p.Response])

/-- The loop of `concatPackets` over the values received on `c`. -/
def concatPackets.run (s : List (List (List Nat)) × List (List Nat)) :
    List BEServerCommand → Run (List (List (List Nat)) × List (List Nat))
  | [] => .ok s
  | p :: ps => (concatPackets.step s p).bind (fun s => concatPackets.run s ps)

/-! ### Vocabulary for the claims about reassembly -/

/-- Fragment `i` of `total` for sequence `seq`, carrying `payload`. -/
def fragmentOf (seq total i : Nat) (payload : List Nat) : BEServerCommand :=
  { NewBEServerCommand with
    Sequence := seq,
    OptionalHeader := some { MagicByte := 0x00, NumberOfPackets := total, Index := i },
    Response := payload }

/-- The fragments of the message `payloads` for sequence `seq`, in the arrival order
`order` (a list of fragment indices). -/
def fragmentsOf (seq : Nat) (payloads : List (List Nat)) (order : List Nat) :
    List BEServerCommand :=
  order.map (fun i => fragmentOf seq payloads.length i ((payloads[i]?).getD []))

/-- A slot of 100 strings in which the fragments of `payloads` with index in `seen` have
been stored, one count per arrival: the count in element 0, fragment `i` in element
`i + 1`, the other elements empty. -/
def Collected (payloads : List (List Nat)) (seen : List Nat) (slot : List (List Nat)) : Prop :=
  ∃ c body, slot = c :: body ∧ body.length = 99 ∧
    toByte (Atoi (if c = [] then [0x30] else c)) = seen.length ∧
    ∀ i, i < 99 → body[i]? = some (if i ∈ seen then (payloads[i]?).getD [] else [])

/-- The two fragments `A`, `B` of a message for sequence 5, the first delivered twice. -/
def duplicatedFragments : List BEServerCommand :=
  fragmentsOf 5 [[0x41], [0x42]] [0, 0, 1]

/-- An interleaving of `xs` and `ys`: each choice takes the next element of `xs` (`true`)
or of `ys` (`false`); when the choices or one of the lists run out the rest follows. -/
def interleave {α : Type} : List Bool → List α → List α → List α
  | [], xs, ys => xs ++ ys
  | true :: cs, x :: xs, ys => x :: interleave cs xs ys
  | true :: _, [], ys => ys
  | false :: cs, xs, y :: ys => y :: interleave cs xs ys
  | false :: _, xs, [] => xs

end main

namespace remotecall

/-! ## `remotecall/remotecall.go`: the encoders

A `uint16` is a `Nat`.  The `Marshal` methods do not assign to their receiver, so they
return their results only. -/

/-- The error values returned by the `Marshal` methods, with the length they report. -/
inductive RCError where
  | headerLength (length : Nat)
  | packetLength (length : Nat)
deriving DecidableEq, Repr

structure RCHeader where
  MagicBytes : List Nat
  Version : Nat
  Spacer : Nat
deriving DecidableEq, Repr

def NewRCHeader : RCHeader := { MagicBytes := [0x52, 0x43], Version := 0x01, Spacer := 0xFF }

def RCHeader.Marshal (b : RCHeader) : Except RCError (List Nat) :=
  let buf : List Nat := []
  let length := 0
  let n := b.MagicBytes.length
  let buf := buf ++ b.MagicBytes
  let length := length + n
  let buf := buf ++ [b.Version]
  let length := length + 1
  let buf := buf ++ [b.Spacer]
  let length := length + 1
  if length ≠ 4 then .error (.headerLength length) else .ok buf

structure RCClientHandshake where
  Header : RCHeader
  PacketType : Nat
  Password : List Nat
deriving DecidableEq, Repr

def NewRCClientHandshake : RCClientHandshake :=
  { Header := NewRCHeader, PacketType := 0x00,
    Password := [0x64, 0x65, 0x66, 0x61, 0x75, 0x6C, 0x74] }

def RCClientHandshake.Marshal (b : RCClientHandshake) : Except RCError (List Nat) :=
  let buf : List Nat := []
  let length := 0
  match b.Header.Marshal with
  | .error err => .error err
  | .ok wb =>
    let n := wb.length
    let buf := buf ++ wb
    let length := length + n
    let buf := buf ++ [b.PacketType]
    let length := length + 1
    let n := b.Password.length
    let buf := buf ++ b.Password
    let length := length + n
    if length ≠ 4 + b.Password.length then .error (.packetLength length) else .ok buf

structure RCServerHandshake where
  Header : RCHeader
  PacketType : Nat
  Result : Nat
deriving DecidableEq, Repr

def NewRCServerHandshake : RCServerHandshake :=
  { Header := NewRCHeader, PacketType := 0x01, Result := 0x00 }

def RCServerHandshake.Marshal (b : RCServerHandshake) : Except RCError (List Nat) :=
  let buf : List Nat := []
  let length := 0
  match b.Header.Marshal with
  | .error err => .error err
  | .ok wb =>
    let n := wb.length
    let buf := buf ++ wb
    let length := length + n
    let buf := buf ++ [b.PacketType]
    let length := length + 1
    let buf := buf ++ [b.Result]
    let length := length + 1
    if length ≠ 6 then .error (.packetLength length) else .ok buf

structure RCClientQuery where
  Header : RCHeader
  PacketType : Nat
  Content : List Nat
deriving DecidableEq, Repr

def NewRCClientQuery : RCClientQuery :=
  { Header := NewRCHeader, PacketType := 0x10, Content := [] }

def RCClientQuery.Marshal (b : RCClientQuery) : Except RCError (List Nat) :=
  let buf : List Nat := []
  let length := 0
  match b.Header.Marshal with
  | .error err => .error err
  | .ok wb =>
    let n := wb.length
    let buf := buf ++ wb
    let length := length + n
    let buf := buf ++ [b.PacketType]
    let length := length + 1
    let n := b.Content.length
    let buf := buf ++ b.Content
    let length := length + n
    if length ≠ 4 + b.Content.length then .error (.packetLength length) else .ok buf

structure RCServerQuery where
  Header : RCHeader
  PacketType : Nat
  QueryID : Nat
deriving DecidableEq, Repr

def NewRCServerQuery : RCServerQuery :=
  { Header := NewRCHeader, PacketType := 0x11, QueryID := 0 }

/-- `binary.LittleEndian.PutUint16(tmp, v)` on a fresh two-byte slice. -/
def PutUint16 (v : Nat) : List Nat := [v % 256, v / 256 % 256]

set_option linter.unusedVariables false in
def RCServerQuery.Marshal (b : RCServerQuery) : Except RCError (List Nat) :=
  let buf : List Nat := []
  let length := 0
  match b.Header.Marshal with
  | .error err => .error err
  | .ok wb =>
    let n := wb.length
    let buf := buf ++ wb
    let length := length + n
    let buf := buf ++ [b.PacketType]
    let length := length + 1
    let tmp := PutUint16 b.QueryID
    let length := length + n
    if length ≠ 7 then .error (.packetLength length) else .ok buf

structure RCServerQueryResult where
  Header : RCHeader
  PacketType : Nat
  QueryID : Nat
  Content : List Nat
deriving DecidableEq, Repr

def NewRCServerQueryResult : RCServerQueryResult :=
  { Header := NewRCHeader, PacketType := 0x12, QueryID := 0, Content := [] }

set_option linter.unusedVariables false in
def RCServerQueryResult.Marshal (b : RCServerQueryResult) : Except RCError (List Nat) :=
  let buf : List Nat := []
  let length := 0
  match b.Header.Marshal with
  | .error err => .error err
  | .ok wb =>
    let n := wb.length
    let buf := buf ++ wb
    let length := length + n
    let buf := buf ++ [b.PacketType]
    let length := length + 1
    let tmp := PutUint16 b.QueryID
    let length := length + n
    let n := b.Content.length
    let buf := buf ++ b.Content
    let length := length + n
    if length ≠ 7 + b.Content.length then .error (.packetLength length) else .ok buf

end remotecall

/-! # Theorems -/

namespace battleye

/-! ## Slices -/

theorem Slice.slice_eq (s : Slice) (lo hi : Nat) (h : lo ≤ hi ∧ hi ≤ s.buf.length) :
    s.slice lo hi = some ⟨s.buf.drop lo, hi - lo, by simp [List.length_drop]; omega⟩ := by
  unfold Slice.slice; rw [dif_pos h]

theorem Slice.slice_none (s : Slice) (lo hi : Nat) (h : ¬ (lo ≤ hi ∧ hi ≤ s.buf.length)) :
    s.slice lo hi = none := by
  unfold Slice.slice; rw [dif_neg h]

theorem Slice.slice_bytes (s t : Slice) (lo hi : Nat) (h : s.slice lo hi = some t) :
    t.bytes = (s.buf.drop lo).take (hi - lo) ∧ t.len = hi - lo ∧ lo ≤ hi ∧ hi ≤ s.buf.length := by
  unfold Slice.slice at h
  split at h
  · rename_i hc
    cases h
    exact ⟨rfl, rfl, hc.1, hc.2⟩
  · cases h

theorem byteAt_eq (s : Slice) (i : Nat) (h : i < s.buf.length) :
    byteAt s i (i + 1) = s.buf[i]? := by
  unfold byteAt
  rw [Slice.slice_eq s i (i + 1) ⟨by omega, by omega⟩]
  simp [Slice.index]

theorem byteAt_none (s : Slice) (i : Nat) (h : s.buf.length ≤ i) :
    byteAt s i (i + 1) = none := by
  unfold byteAt
  rw [Slice.slice_none s i (i + 1) (by omega)]
  rfl

theorem Slice.bytes_getElem? (s : Slice) (i : Nat) (h : i < s.len) :
    s.bytes[i]? = s.buf[i]? := by
  unfold Slice.bytes
  rw [List.getElem?_take_of_lt h]

theorem Slice.bytes_length (s : Slice) : s.bytes.length = s.len := by
  unfold Slice.bytes
  simp [List.length_take]
  exact s.wf

/-- Closed form of the header decoder on an input of at least 8 bytes. -/
theorem BEHeader.Unmarshal_of_len (n : BEHeader) (b : Slice) (h : 8 ≤ b.len) :
    ∃ sp ty, b.bytes[6]? = some sp ∧ b.bytes[7]? = some ty ∧
    n.Unmarshal b =
      if b.bytes.take 2 ≠ [0x42, 0x45] then
        ({ n with MagicBytes := b.bytes.take 2 }, .err (.headerMagic (b.bytes.take 2)))
      else if sp ≠ 0xFF then
        ({ MagicBytes := b.bytes.take 2, Crc := (b.bytes.drop 2).take 4, Spacer := sp,
           PacketType := n.PacketType }, .err (.headerSpacer sp))
      else if ¬ (ty = 0x00 ∨ ty = 0x01 ∨ ty = 0x02) then
        ({ MagicBytes := b.bytes.take 2, Crc := (b.bytes.drop 2).take 4, Spacer := sp,
           PacketType := ty }, .err (.headerPacketType ty))
      else
        ({ MagicBytes := b.bytes.take 2, Crc := (b.bytes.drop 2).take 4, Spacer := sp,
           PacketType := ty }, .ok) := by
  have hwf := b.wf
  have h6 : (6 : Nat) < b.buf.length := by omega
  have h7 : (7 : Nat) < b.buf.length := by omega
  refine ⟨b.buf[6], b.buf[7], ?_, ?_, ?_⟩
  · rw [Slice.bytes_getElem? b 6 (by omega)]; exact List.getElem?_eq_getElem h6
  · rw [Slice.bytes_getElem? b 7 (by omega)]; exact List.getElem?_eq_getElem h7
  · have hm : b.bytes.take 2 = b.buf.take 2 := by
      unfold Slice.bytes; rw [List.take_take]; congr 1; omega
    have hc : (b.bytes.drop 2).take 4 = (b.buf.drop 2).take 4 := by
      unfold Slice.bytes
      rw [List.drop_take, List.take_take]; congr 1; omega
    rw [hm, hc]
    unfold BEHeader.Unmarshal
    simp only [Slice.sliceTo]
    rw [if_neg (by omega), Slice.slice_eq b 0 2 ⟨by omega, by omega⟩,
      Slice.slice_eq b 2 6 ⟨by omega, by omega⟩, byteAt_eq b 6 h6, byteAt_eq b 7 h7]
    simp only [List.getElem?_eq_getElem h6, List.getElem?_eq_getElem h7, Slice.bytes,
      List.drop_zero, Nat.sub_zero]



/-! ## CRC-32 -/

theorem tableStep_eq (c : Nat) : tableStep IEEE c = specShift c := by
  simp [tableStep, specShift, IEEE, Nat.shiftRight_succ]

theorem xor_cancel_mid (x y p : Nat) : (x ^^^ p) ^^^ (y ^^^ p) = x ^^^ y := by
  rw [Nat.xor_assoc, Nat.xor_comm y p, ← Nat.xor_assoc p, Nat.xor_self, Nat.zero_xor]

theorem specShift_xor (a b : Nat) : specShift (a ^^^ b) = specShift a ^^^ specShift b := by
  have hx : ((a ^^^ b) % 2 = 1) ↔ ¬ ((a % 2 = 1) ↔ (b % 2 = 1)) := Nat.xor_mod_two_eq_one
  unfold specShift
  rw [Nat.xor_div_two]
  by_cases ha : a % 2 = 1 <;> by_cases hb : b % 2 = 1
  · have h : ¬ (a ^^^ b) % 2 = 1 := by rw [hx]; simp [ha, hb]
    rw [if_neg h, if_pos ha, if_pos hb, xor_cancel_mid]
  · have h : (a ^^^ b) % 2 = 1 := by rw [hx]; simp [ha, hb]
    rw [if_pos h, if_pos ha, if_neg hb, Nat.xor_assoc, Nat.xor_assoc, Nat.xor_comm (b / 2)]
  · have h : (a ^^^ b) % 2 = 1 := by rw [hx]; simp [ha, hb]
    rw [if_pos h, if_neg ha, if_pos hb, Nat.xor_assoc]
  · have h : ¬ (a ^^^ b) % 2 = 1 := by rw [hx]; simp [ha, hb]
    rw [if_neg h, if_neg ha, if_neg hb]

theorem specShift_iter_xor (k a b : Nat) :
    specShift^[k] (a ^^^ b) = specShift^[k] a ^^^ specShift^[k] b := by
  induction k generalizing a b with
  | zero => rfl
  | succ k ih => simp only [Function.iterate_succ, Function.comp, specShift_xor, ih]

theorem specShift_iter_shl (k h : Nat) : specShift^[k] (h * 2 ^ k) = h := by
  induction k with
  | zero => simp
  | succ k ih =>
    rw [Function.iterate_succ, Function.comp]
    have : specShift (h * 2 ^ (k+1)) = h * 2 ^ k := by
      unfold specShift
      have h1 : h * 2 ^ (k+1) = 2 * (h * 2 ^ k) := by ring
      rw [h1]; simp
    rw [this, ih]

theorem table_lookup (crc v : Nat) :
    IEEETable ((crc % 256) ^^^ v) ^^^ (crc >>> 8) = specShift^[8] (crc ^^^ v) := by
  have hT : ∀ i, IEEETable i = specShift^[8] i := by
    intro i
    have : tableStep IEEE = specShift := funext tableStep_eq
    simp [IEEETable, simpleMakeTable, this]
  have hsplit : crc ^^^ v = ((crc % 256) ^^^ v) ^^^ ((crc >>> 8) * 2 ^ 8) := by
    apply Nat.eq_of_testBit_eq; intro i
    simp only [Nat.testBit_xor]
    have h256 : (256:Nat) = 2 ^ 8 := by norm_num
    rw [h256, Nat.testBit_mod_two_pow, Nat.mul_comm _ (2 ^ 8), Nat.testBit_mul_pow_two,
      Nat.testBit_shiftRight]
    by_cases hi : i < 8
    · have : ¬ 8 ≤ i := by omega
      simp [hi, this]
    · have h8 : 8 ≤ i := by omega
      have : 8 + (i - 8) = i := by omega
      simp [hi, h8, this, Bool.xor_comm]
  rw [hT, specShift_iter_xor]
  conv_rhs => rw [hsplit, specShift_iter_xor, specShift_iter_xor, specShift_iter_shl]

theorem not32_not32 (c : Nat) : not32 (not32 c) = c := by
  unfold not32; rw [Nat.xor_assoc, Nat.xor_self, Nat.xor_zero]

theorem simpleUpdate_append (c : Nat) (tab : Nat → Nat) (p q : List Nat) :
    simpleUpdate (simpleUpdate c tab p) tab q = simpleUpdate c tab (p ++ q) := by
  simp [simpleUpdate, not32_not32, List.foldl_append]

theorem write_foldl (bs : List (List Nat)) (d : digest) :
    (bs.foldl (fun hash x => hash.Write x) d) = d.Write bs.flatten := by
  induction bs generalizing d with
  | nil => simp [digest.Write, simpleUpdate, not32_not32]
  | cons b bs ih =>
    rw [List.foldl_cons, ih, List.flatten_cons]
    simp [digest.Write, simpleUpdate_append]

theorem simpleUpdate_eq_spec (data : List Nat) :
    simpleUpdate 0 IEEETable data = crc32IEEE data := by
  unfold simpleUpdate crc32IEEE not32
  simp only [table_lookup]
  rfl

theorem specShift_lt (c : Nat) (h : c < 2 ^ 32) : specShift c < 2 ^ 32 := by
  unfold specShift
  split
  · apply Nat.xor_lt_two_pow <;> omega
  · omega

theorem specShift_iter_lt (k c : Nat) (h : c < 2 ^ 32) : specShift^[k] c < 2 ^ 32 := by
  induction k generalizing c with
  | zero => simpa using h
  | succ k ih => rw [Function.iterate_succ, Function.comp]; exact ih _ (specShift_lt c h)

theorem crc32IEEE_lt (data : List Nat) : crc32IEEE data < 2 ^ 32 := by
  unfold crc32IEEE
  have key : ∀ (l : List Nat) (c : Nat), c < 2 ^ 32 →
      l.foldl (fun crc b => specShift^[8] (crc ^^^ (b % 256))) c < 2 ^ 32 := by
    intro l
    induction l with
    | nil => intro c h; simpa using h
    | cons b l ih =>
      intro c h
      rw [List.foldl_cons]
      apply ih
      apply specShift_iter_lt
      apply Nat.xor_lt_two_pow h
      have : b % 256 < 256 := Nat.mod_lt _ (by norm_num)
      omega
  apply Nat.xor_lt_two_pow (key data _ (by norm_num)) (by norm_num)

theorem shiftRight_and (a b k : Nat) : (a &&& b) >>> k = (a >>> k) &&& (b >>> k) := by
  apply Nat.eq_of_testBit_eq; intro i
  simp [Nat.testBit_shiftRight, Nat.testBit_and]

theorem sumBytes_eq (raw : Nat) :
    sumBytes raw = [raw % 256, raw / 256 % 256, raw / 65536 % 256, raw / 16777216 % 256] := by
  have e0 : raw &&& 0xff = raw % 256 := Nat.and_pow_two_sub_one_eq_mod raw 8
  have e1 : (raw &&& 0xff00) >>> 8 = raw / 256 % 256 := by
    rw [shiftRight_and]
    have : (0xff00 : Nat) >>> 8 = 2 ^ 8 - 1 := by decide
    rw [this, Nat.and_pow_two_sub_one_eq_mod, Nat.shiftRight_eq_div_pow]
  have e2 : (raw &&& 0xff0000) >>> 16 = raw / 65536 % 256 := by
    rw [shiftRight_and]
    have : (0xff0000 : Nat) >>> 16 = 2 ^ 8 - 1 := by decide
    rw [this, Nat.and_pow_two_sub_one_eq_mod, Nat.shiftRight_eq_div_pow]
  have e3 : (raw &&& 0xff000000) >>> 24 = raw / 16777216 % 256 := by
    rw [shiftRight_and]
    have : (0xff000000 : Nat) >>> 24 = 2 ^ 8 - 1 := by decide
    rw [this, Nat.and_pow_two_sub_one_eq_mod, Nat.shiftRight_eq_div_pow]
  unfold sumBytes
  rw [e0, e1, e2, e3]
  simp

theorem CRC32_eq (bs : List (List Nat)) :
    CRC32 bs = .ok (sumBytes (crc32IEEE bs.flatten)) := by
  show Except.ok (sumBytes (digest.Sum32 (bs.foldl (fun hash x => hash.Write x) NewIEEE))) = _
  rw [write_foldl]
  simp [digest.Write, digest.Sum32, NewIEEE, simpleUpdate_eq_spec]

theorem getHash_eq (bs : List (List Nat)) :
    getHash bs = .ok (sumBytes (crc32IEEE bs.flatten)) := by
  show Except.ok (sumBytes (digest.Sum32 (bs.foldl (fun hash x => hash.Write x) NewIEEE))) = _
  rw [write_foldl]
  simp [digest.Write, digest.Sum32, NewIEEE, simpleUpdate_eq_spec]


set_option maxRecDepth 100000 in
/-- The check value of CRC-32/IEEE: the checksum of the ASCII digits `123456789` is
`0xCBF43926`, for the bitwise definition and for the table-driven `hash/crc32` alike. -/
theorem crc32IEEE_check_value :
    crc32IEEE [0x31, 0x32, 0x33, 0x34, 0x35, 0x36, 0x37, 0x38, 0x39] = 0xCBF43926 ∧
    (NewIEEE.Write [0x31, 0x32, 0x33, 0x34, 0x35, 0x36, 0x37, 0x38, 0x39]).Sum32 = 0xCBF43926 := by
  decide

/-! ## CRC-32 detects a change of one byte -/

theorem specShift_eq_zero (d : Nat) (hd : d < 2 ^ 32) (h : specShift d = 0) : d = 0 := by
  unfold specShift at h
  split at h
  · exfalso
    have h31 : (d / 2 ^^^ 0xEDB88320).testBit 31 = true := by
      rw [Nat.testBit_xor]
      have h1 : (d / 2).testBit 31 = false := Nat.testBit_lt_two_pow (by omega)
      have h2 : Nat.testBit 0xEDB88320 31 = true := by decide
      rw [h1, h2]; rfl
    rw [h] at h31
    simp at h31
  · omega

theorem specShift_inj (a b : Nat) (ha : a < 2 ^ 32) (hb : b < 2 ^ 32)
    (h : specShift a = specShift b) : a = b := by
  have hx : specShift (a ^^^ b) = 0 := by rw [specShift_xor, h, Nat.xor_self]
  have h0 := specShift_eq_zero _ (Nat.xor_lt_two_pow ha hb) hx
  have : a ^^^ b ^^^ b = 0 ^^^ b := by rw [h0]
  rwa [Nat.xor_assoc, Nat.xor_self, Nat.xor_zero, Nat.zero_xor] at this

theorem specShift_iter_inj (k a b : Nat) (ha : a < 2 ^ 32) (hb : b < 2 ^ 32)
    (h : specShift^[k] a = specShift^[k] b) : a = b := by
  induction k generalizing a b with
  | zero => simpa using h
  | succ k ih =>
    rw [Function.iterate_succ, Function.comp, Function.comp] at h
    exact specShift_inj a b ha hb (ih _ _ (specShift_lt a ha) (specShift_lt b hb) h)

/-- The CRC register after the bytes `l`, from register `c`. -/
theorem crcFold_lt (l : List Nat) (c : Nat) (hc : c < 2 ^ 32) :
    l.foldl (fun crc b => specShift^[8] (crc ^^^ (b % 256))) c < 2 ^ 32 := by
  induction l generalizing c with
  | nil => simpa using hc
  | cons b l ih =>
    rw [List.foldl_cons]
    apply ih
    apply specShift_iter_lt
    apply Nat.xor_lt_two_pow hc
    have : b % 256 < 256 := Nat.mod_lt _ (by norm_num)
    omega

theorem xor_left_cancel (a b c : Nat) (h : a ^^^ b = a ^^^ c) : b = c := by
  have : a ^^^ (a ^^^ b) = a ^^^ (a ^^^ c) := by rw [h]
  rwa [← Nat.xor_assoc, ← Nat.xor_assoc, Nat.xor_self, Nat.zero_xor, Nat.zero_xor] at this

theorem xor_right_cancel (a b c : Nat) (h : a ^^^ c = b ^^^ c) : a = b := by
  rw [Nat.xor_comm a, Nat.xor_comm b] at h
  exact xor_left_cancel c a b h

theorem crcFold_ne (l : List Nat) (c d : Nat) (hc : c < 2 ^ 32) (hd : d < 2 ^ 32)
    (h : c ≠ d) :
    l.foldl (fun crc b => specShift^[8] (crc ^^^ (b % 256))) c ≠
      l.foldl (fun crc b => specShift^[8] (crc ^^^ (b % 256))) d := by
  induction l generalizing c d with
  | nil => simpa using h
  | cons b l ih =>
    rw [List.foldl_cons, List.foldl_cons]
    have hb : b % 256 < 2 ^ 32 := by
      have : b % 256 < 256 := Nat.mod_lt _ (by norm_num)
      omega
    have hc2 := Nat.xor_lt_two_pow hc hb
    have hd2 := Nat.xor_lt_two_pow hd hb
    apply ih _ _ (specShift_iter_lt 8 _ hc2) (specShift_iter_lt 8 _ hd2)
    intro heq
    exact h (xor_right_cancel _ _ _ (specShift_iter_inj 8 _ _ hc2 hd2 heq))

theorem crc32IEEE_change_one (pre post : List Nat) (b v : Nat) (hv : v % 256 ≠ b % 256) :
    crc32IEEE (pre ++ v :: post) ≠ crc32IEEE (pre ++ b :: post) := by
  unfold crc32IEEE
  intro h
  have h2 := xor_right_cancel _ _ _ h
  rw [List.foldl_append, List.foldl_append, List.foldl_cons, List.foldl_cons] at h2
  have hpre := crcFold_lt pre 0xFFFFFFFF (by norm_num)
  have hvb : v % 256 < 2 ^ 32 := by
    have : v % 256 < 256 := Nat.mod_lt _ (by norm_num)
    omega
  have hbb : b % 256 < 2 ^ 32 := by
    have : b % 256 < 256 := Nat.mod_lt _ (by norm_num)
    omega
  have hx1 := Nat.xor_lt_two_pow hpre hvb
  have hx2 := Nat.xor_lt_two_pow hpre hbb
  refine crcFold_ne post _ _ (specShift_iter_lt 8 _ hx1) (specShift_iter_lt 8 _ hx2) ?_ h2
  intro heq
  exact hv (xor_left_cancel _ _ _ (specShift_iter_inj 8 _ _ hx1 hx2 heq))

theorem crc32IEEE_set_ne (body : List Nat) (j v : Nat) (hj : j < body.length)
    (hv : v % 256 ≠ body[j] % 256) :
    crc32IEEE (body.set j v) ≠ crc32IEEE body := by
  have h1 : body.set j v = body.take j ++ v :: body.drop (j + 1) := by
    rw [List.set_eq_take_append_cons_drop, if_pos hj]
  have h2 : body = body.take j ++ body[j] :: body.drop (j + 1) := by
    conv_lhs => rw [← List.take_append_drop j body, List.drop_eq_getElem_cons hj]
  rw [h1]
  conv_rhs => rw [h2]
  exact crc32IEEE_change_one _ _ _ _ hv

theorem flip_bit_mod (b k : Nat) (hk : k < 8) : (b ^^^ 2 ^ k) % 256 ≠ b % 256 := by
  intro h
  have h1 : ((b ^^^ 2 ^ k) % 2 ^ 8).testBit k = (b % 2 ^ 8).testBit k := by
    have e : (256 : Nat) = 2 ^ 8 := by norm_num
    rw [e] at h; rw [h]
  rw [Nat.testBit_mod_two_pow, Nat.testBit_mod_two_pow, Nat.testBit_xor,
    Nat.testBit_two_pow_self] at h1
  simp [hk] at h1

theorem littleEndian32_inj (x y : Nat) (hx : x < 2 ^ 32) (hy : y < 2 ^ 32)
    (h : littleEndian32 x = littleEndian32 y) : x = y := by
  unfold littleEndian32 at h
  simp only [List.cons.injEq, and_true] at h
  omega

/-! ## Encoders -/

theorem getHash_le (bs : List (List Nat)) :
    getHash bs = .ok (littleEndian32 (crc32IEEE bs.flatten)) := by
  rw [getHash_eq, sumBytes_eq]; rfl

theorem CRC32_le (bs : List (List Nat)) :
    CRC32 bs = .ok (littleEndian32 (crc32IEEE bs.flatten)) := by
  rw [CRC32_eq, sumBytes_eq]; rfl

theorem clientLogin_Marshal_eq (b : BEClientLogin) (h : b.Header.MagicBytes.length = 2) :
    b.Marshal = ({ b with Header := { b.Header with Crc := littleEndian32 (crc32IEEE
        ([b.Header.Spacer, b.Header.PacketType] ++ b.Password)) } },
      .ok (referenceFrame b.Header.MagicBytes
        ([b.Header.Spacer, b.Header.PacketType] ++ b.Password))) := by
  unfold BEClientLogin.Marshal
  rw [getHash_le]
  simp [BEHeader.Marshal, h, littleEndian32, referenceFrame]

theorem serverLogin_Marshal_eq (b : BEServerLogin) (h : b.Header.MagicBytes.length = 2) :
    b.Marshal = ({ b with Header := { b.Header with Crc := littleEndian32 (crc32IEEE
        ([b.Header.Spacer, b.Header.PacketType] ++ [b.LoginResponse])) } },
      .ok (referenceFrame b.Header.MagicBytes
        ([b.Header.Spacer, b.Header.PacketType] ++ [b.LoginResponse]))) := by
  unfold BEServerLogin.Marshal
  rw [getHash_le]
  simp [BEHeader.Marshal, h, littleEndian32, referenceFrame]

theorem clientCommand_Marshal_eq (b : BEClientCommand) (h : b.Header.MagicBytes.length = 2) :
    b.Marshal = ({ b with Header := { b.Header with Crc := littleEndian32 (crc32IEEE
        ([b.Header.Spacer, b.Header.PacketType, b.Sequence] ++ b.Command)) } },
      .ok (referenceFrame b.Header.MagicBytes
        ([b.Header.Spacer, b.Header.PacketType, b.Sequence] ++ b.Command))) := by
  unfold BEClientCommand.Marshal
  rw [getHash_le]
  simp [BEHeader.Marshal, h, littleEndian32, referenceFrame]

theorem clientMessage_Marshal_eq (b : BEClientMessage) (h : b.Header.MagicBytes.length = 2) :
    b.Marshal = ({ b with Header := { b.Header with Crc := littleEndian32 (crc32IEEE
        [b.Header.Spacer, b.Header.PacketType, b.Sequence]) } },
      .ok (referenceFrame b.Header.MagicBytes
        [b.Header.Spacer, b.Header.PacketType, b.Sequence])) := by
  unfold BEClientMessage.Marshal
  rw [getHash_le]
  simp [BEHeader.Marshal, h, littleEndian32, referenceFrame]

theorem serverMessage_Marshal_eq (b : BEServerMessage) (h : b.Header.MagicBytes.length = 2) :
    b.Marshal = ({ b with Header := { b.Header with Crc := littleEndian32 (crc32IEEE
        ([b.Header.Spacer, b.Header.PacketType, b.Sequence] ++ b.Message)) } },
      .ok (referenceFrame b.Header.MagicBytes
        ([b.Header.Spacer, b.Header.PacketType, b.Sequence] ++ b.Message))) := by
  unfold BEServerMessage.Marshal
  rw [getHash_le]
  simp [BEHeader.Marshal, h, littleEndian32, referenceFrame]

theorem referenceFrame_length (magic body : List Nat) :
    (referenceFrame magic body).length = magic.length + 4 + body.length := by
  simp [referenceFrame, littleEndian32]
  omega

theorem referenceFrame_drop (magic body : List Nat) (h : magic.length = 2) :
    (referenceFrame magic body).drop 6 = body := by
  match magic, h with
  | [a, b], _ => simp [referenceFrame, littleEndian32]

theorem referenceFrame_crc (magic body : List Nat) (h : magic.length = 2) :
    ((referenceFrame magic body).drop 2).take 4 = littleEndian32 (crc32IEEE body) := by
  match magic, h with
  | [a, b], _ => simp [referenceFrame, littleEndian32]

/-! ## Decoding an encoded frame -/

theorem header_of_frame (n : BEHeader) (c0 c1 c2 c3 ty : Nat) (rest spare : List Nat)
    (hty : ty = 0 ∨ ty = 1 ∨ ty = 2) :
    ∃ head,
      (Slice.ofData (0x42 :: 0x45 :: c0 :: c1 :: c2 :: c3 :: 0xFF :: ty :: rest) spare).sliceTo 8
        = some head ∧
      n.Unmarshal head = ({ MagicBytes := [0x42, 0x45], Crc := [c0, c1, c2, c3], Spacer := 0xFF,
                            PacketType := ty }, .ok) := by
  refine ⟨_, Slice.slice_eq _ 0 8 ⟨by omega, by simp [Slice.ofData]⟩, ?_⟩
  unfold BEHeader.Unmarshal
  simp [Slice.ofData, Slice.sliceTo, Slice.slice, byteAt, Slice.index, Slice.bytes]
  rcases hty with h | h | h <;> simp [h]

theorem clientLogin_roundtrip (pw spare : List Nat) :
    NewBEClientLogin.Unmarshal
        (Slice.ofData (referenceFrame [0x42, 0x45] ([0xFF, 0] ++ pw)) spare) =
      ({ Header := { MagicBytes := [0x42, 0x45],
                     Crc := littleEndian32 (crc32IEEE ([0xFF, 0] ++ pw)),
                     Spacer := 0xFF, PacketType := 0 },
         Password := pw }, .ok) := by
  simp only [referenceFrame, littleEndian32, List.cons_append, List.nil_append]
  obtain ⟨head, h1, h2⟩ := header_of_frame NewBEClientLogin.Header
    (crc32IEEE (255 :: 0 :: pw) % 256) (crc32IEEE (255 :: 0 :: pw) / 256 % 256)
    (crc32IEEE (255 :: 0 :: pw) / 65536 % 256) (crc32IEEE (255 :: 0 :: pw) / 16777216 % 256)
    0 pw spare (by simp)
  unfold BEClientLogin.Unmarshal
  rw [h1]
  simp only [h2]
  simp [Slice.ofData, Slice.sliceFrom, Slice.slice, Slice.bytes, NewBEClientLogin]

theorem serverLogin_roundtrip (r : Nat) (spare : List Nat) :
    NewBEServerLogin.Unmarshal
        (Slice.ofData (referenceFrame [0x42, 0x45] ([0xFF, 0] ++ [r])) spare) =
      ({ Header := { MagicBytes := [0x42, 0x45],
                     Crc := littleEndian32 (crc32IEEE ([0xFF, 0] ++ [r])),
                     Spacer := 0xFF, PacketType := 0 },
         LoginResponse := r }, .ok) := by
  simp only [referenceFrame, littleEndian32, List.cons_append, List.nil_append]
  obtain ⟨head, h1, h2⟩ := header_of_frame NewBEServerLogin.Header
    (crc32IEEE [255, 0, r] % 256) (crc32IEEE [255, 0, r] / 256 % 256)
    (crc32IEEE [255, 0, r] / 65536 % 256) (crc32IEEE [255, 0, r] / 16777216 % 256)
    0 [r] spare (by simp)
  unfold BEServerLogin.Unmarshal
  rw [if_neg (by simp [Slice.ofData]), h1]
  simp only [h2]
  simp [Slice.ofData, Slice.slice, byteAt, Slice.index, NewBEServerLogin]

theorem clientCommand_roundtrip (sq : Nat) (cmd spare : List Nat) :
    NewBEClientCommand.Unmarshal
        (Slice.ofData (referenceFrame [0x42, 0x45] ([0xFF, 1, sq] ++ cmd)) spare) =
      ({ Header := { MagicBytes := [0x42, 0x45],
                     Crc := littleEndian32 (crc32IEEE ([0xFF, 1, sq] ++ cmd)),
                     Spacer := 0xFF, PacketType := 1 },
         Sequence := sq, Command := cmd, Retries := 0 }, .ok) := by
  simp only [referenceFrame, littleEndian32, List.cons_append, List.nil_append]
  obtain ⟨head, h1, h2⟩ := header_of_frame NewBEClientCommand.Header
    (crc32IEEE (255 :: 1 :: sq :: cmd) % 256) (crc32IEEE (255 :: 1 :: sq :: cmd) / 256 % 256)
    (crc32IEEE (255 :: 1 :: sq :: cmd) / 65536 % 256)
    (crc32IEEE (255 :: 1 :: sq :: cmd) / 16777216 % 256) 1 (sq :: cmd) spare (by simp)
  unfold BEClientCommand.Unmarshal
  rw [h1]
  simp only [h2]
  simp [Slice.ofData, Slice.sliceFrom, Slice.slice, byteAt, Slice.index, Slice.bytes,
    NewBEClientCommand]

theorem clientMessage_roundtrip (sq : Nat) (spare : List Nat) :
    NewBEClientMessage.Unmarshal
        (Slice.ofData (referenceFrame [0x42, 0x45] [0xFF, 2, sq]) spare) =
      ({ Header := { MagicBytes := [0x42, 0x45],
                     Crc := littleEndian32 (crc32IEEE [0xFF, 2, sq]),
                     Spacer := 0xFF, PacketType := 2 },
         Sequence := sq }, .ok) := by
  simp only [referenceFrame, littleEndian32, List.cons_append, List.nil_append]
  obtain ⟨head, h1, h2⟩ := header_of_frame NewBEClientMessage.Header
    (crc32IEEE [255, 2, sq] % 256) (crc32IEEE [255, 2, sq] / 256 % 256)
    (crc32IEEE [255, 2, sq] / 65536 % 256) (crc32IEEE [255, 2, sq] / 16777216 % 256)
    2 [sq] spare (by simp)
  unfold BEClientMessage.Unmarshal
  rw [h1]
  simp only [h2]
  simp [Slice.ofData, Slice.slice, byteAt, Slice.index, NewBEClientMessage]

theorem serverMessage_roundtrip (sq : Nat) (msg spare : List Nat) :
    NewBEServerMessage.Unmarshal
        (Slice.ofData (referenceFrame [0x42, 0x45] ([0xFF, 2, sq] ++ msg)) spare) =
      ({ Header := { MagicBytes := [0x42, 0x45],
                     Crc := littleEndian32 (crc32IEEE ([0xFF, 2, sq] ++ msg)),
                     Spacer := 0xFF, PacketType := 2 },
         Sequence := sq, Message := msg }, .ok) := by
  simp only [referenceFrame, littleEndian32, List.cons_append, List.nil_append]
  obtain ⟨head, h1, h2⟩ := header_of_frame NewBEServerMessage.Header
    (crc32IEEE (255 :: 2 :: sq :: msg) % 256) (crc32IEEE (255 :: 2 :: sq :: msg) / 256 % 256)
    (crc32IEEE (255 :: 2 :: sq :: msg) / 65536 % 256)
    (crc32IEEE (255 :: 2 :: sq :: msg) / 16777216 % 256) 2 (sq :: msg) spare (by simp)
  unfold BEServerMessage.Unmarshal
  rw [h1]
  simp only [h2]
  simp [Slice.ofData, Slice.sliceFrom, Slice.slice, byteAt, Slice.index, Slice.bytes,
    NewBEServerMessage]

/-! ## Header decoding -/

theorem BEHeader.Unmarshal_short (n : BEHeader) (b : Slice) (h : b.len < 8) :
    n.Unmarshal b = (n, .err (.headerLength b.len)) := by
  unfold BEHeader.Unmarshal; simp [h]

theorem BEHeader.Unmarshal_no_panic (n : BEHeader) (b : Slice) :
    (n.Unmarshal b).2 ≠ .panic := by
  by_cases h : 8 ≤ b.len
  · obtain ⟨sp, ty, -, -, hU⟩ := BEHeader.Unmarshal_of_len n b h
    rw [hU]
    split_ifs <;> simp
  · rw [BEHeader.Unmarshal_short n b (by omega)]; simp

theorem BEHeader.Unmarshal_ok (n : BEHeader) (b : Slice) (h : (n.Unmarshal b).2 = .ok) :
    8 ≤ b.len ∧ b.bytes.take 2 = [0x42, 0x45] ∧
      (n.Unmarshal b).1.Crc = (b.bytes.drop 2).take 4 ∧
      b.bytes[7]? = some (n.Unmarshal b).1.PacketType := by
  by_cases hl : 8 ≤ b.len
  · obtain ⟨sp, ty, -, hty, hU⟩ := BEHeader.Unmarshal_of_len n b hl
    rw [hU] at h ⊢
    split_ifs at h ⊢ with h1 h2 h3; simp at h
    simp at h1
    exact ⟨hl, h1, rfl, hty⟩
  · rw [BEHeader.Unmarshal_short n b (by omega)] at h; simp at h

theorem Slice.slice_from6 (b : Slice) (h : 6 ≤ b.len) :
    ∃ body, b.slice 6 b.len = some body ∧ body.bytes = b.bytes.drop 6 := by
  have hwf := b.wf
  refine ⟨_, Slice.slice_eq b 6 b.len ⟨h, hwf⟩, ?_⟩
  simp only [Slice.bytes]
  rw [List.drop_take]

/-! ## Claims about the codec -/

/-- C1. Codec round trip: for each of the five encodable variants built by its constructor
and given any password, response code, sequence byte, command or message bytes, `Marshal`
succeeds, and `Unmarshal` of the returned bytes (whatever lies behind them in the backing
array) into a fresh packet of the same variant succeeds and yields the packet as `Marshal`
left it: the same payload fields and the header with magic `BE`, spacer `0xFF`, the same
packet type and the CRC that `Marshal` computed (bytes 2..5 of the output). -/
theorem codec_round_trip (password command message spare : List Nat)
    (response sequence : Nat) :
    (∃ out, ({ NewBEClientLogin with Password := password }).Marshal.2 = .ok out ∧
      NewBEClientLogin.Unmarshal (Slice.ofData out spare) =
        (({ NewBEClientLogin with Password := password }).Marshal.1, .ok) ∧
      ({ NewBEClientLogin with Password := password }).Marshal.1 =
        { Header := { MagicBytes := [0x42, 0x45], Crc := (out.drop 2).take 4, Spacer := 0xFF,
                      PacketType := 0 },
          Password := password }) ∧
    (∃ out, ({ NewBEServerLogin with LoginResponse := response }).Marshal.2 = .ok out ∧
      NewBEServerLogin.Unmarshal (Slice.ofData out spare) =
        (({ NewBEServerLogin with LoginResponse := response }).Marshal.1, .ok) ∧
      ({ NewBEServerLogin with LoginResponse := response }).Marshal.1 =
        { Header := { MagicBytes := [0x42, 0x45], Crc := (out.drop 2).take 4, Spacer := 0xFF,
                      PacketType := 0 },
          LoginResponse := response }) ∧
    (∃ out, ({ NewBEClientCommand with Sequence := sequence, Command := command }).Marshal.2
        = .ok out ∧
      NewBEClientCommand.Unmarshal (Slice.ofData out spare) =
        (({ NewBEClientCommand with Sequence := sequence, Command := command }).Marshal.1, .ok) ∧
      ({ NewBEClientCommand with Sequence := sequence, Command := command }).Marshal.1 =
        { Header := { MagicBytes := [0x42, 0x45], Crc := (out.drop 2).take 4, Spacer := 0xFF,
                      PacketType := 1 },
          Sequence := sequence, Command := command, Retries := 0 }) ∧
    (∃ out, ({ NewBEClientMessage with Sequence := sequence }).Marshal.2 = .ok out ∧
      NewBEClientMessage.Unmarshal (Slice.ofData out spare) =
        (({ NewBEClientMessage with Sequence := sequence }).Marshal.1, .ok) ∧
      ({ NewBEClientMessage with Sequence := sequence }).Marshal.1 =
        { Header := { MagicBytes := [0x42, 0x45], Crc := (out.drop 2).take 4, Spacer := 0xFF,
                      PacketType := 2 },
          Sequence := sequence }) ∧
    (∃ out, ({ NewBEServerMessage with Sequence := sequence, Message := message }).Marshal.2
        = .ok out ∧
      NewBEServerMessage.Unmarshal (Slice.ofData out spare) =
        (({ NewBEServerMessage with Sequence := sequence, Message := message }).Marshal.1, .ok) ∧
      ({ NewBEServerMessage with Sequence := sequence, Message := message }).Marshal.1 =
        { Header := { MagicBytes := [0x42, 0x45], Crc := (out.drop 2).take 4, Spacer := 0xFF,
                      PacketType := 2 },
          Sequence := sequence, Message := message }) := by
  refine ⟨?_, ?_, ?_, ?_, ?_⟩
  · rw [clientLogin_Marshal_eq { NewBEClientLogin with Password := password } rfl]
    refine ⟨_, rfl, ?_, ?_⟩
    · exact clientLogin_roundtrip password spare
    · simp [referenceFrame, littleEndian32, NewBEClientLogin, NewBEHeader]
  · rw [serverLogin_Marshal_eq { NewBEServerLogin with LoginResponse := response } rfl]
    refine ⟨_, rfl, ?_, ?_⟩
    · exact serverLogin_roundtrip response spare
    · simp [referenceFrame, littleEndian32, NewBEServerLogin, NewBEHeader]
  · rw [clientCommand_Marshal_eq
      { NewBEClientCommand with Sequence := sequence, Command := command } rfl]
    refine ⟨_, rfl, ?_, ?_⟩
    · exact clientCommand_roundtrip sequence command spare
    · simp [referenceFrame, littleEndian32, NewBEClientCommand, NewBEHeader]
  · rw [clientMessage_Marshal_eq { NewBEClientMessage with Sequence := sequence } rfl]
    refine ⟨_, rfl, ?_, ?_⟩
    · exact clientMessage_roundtrip sequence spare
    · simp [referenceFrame, littleEndian32, NewBEClientMessage, NewBEHeader]
  · rw [serverMessage_Marshal_eq
      { NewBEServerMessage with Sequence := sequence, Message := message } rfl]
    refine ⟨_, rfl, ?_, ?_⟩
    · exact serverMessage_roundtrip sequence message spare
    · simp [referenceFrame, littleEndian32, NewBEServerMessage, NewBEHeader]

/-- C2. Reference encoding with correct CRC: for every packet of the five encodable variants
whose header magic is 2 bytes long, `Marshal` succeeds and returns exactly
magic ++ crc ++ body, where body is `[Spacer, PacketType]` followed by the payload
(password; response byte; sequence and command; sequence; sequence and message), body is
what the output holds from offset 6 to the end, and crc (bytes 2..5) is the 4-byte
little-endian CRC-32/IEEE of the output from offset 6 to the end; a command frame is
`9 + len(Command)` bytes long. -/
theorem marshal_reference_encoding (c : BEClientCommand) (l : BEClientLogin)
    (r : BEServerLogin) (a : BEClientMessage) (m : BEServerMessage)
    (hc : c.Header.MagicBytes.length = 2) (hl : l.Header.MagicBytes.length = 2)
    (hr : r.Header.MagicBytes.length = 2) (ha : a.Header.MagicBytes.length = 2)
    (hm : m.Header.MagicBytes.length = 2) :
    (∃ out, c.Marshal.2 = .ok out ∧
      out = c.Header.MagicBytes ++ littleEndian32 (crc32IEEE (out.drop 6)) ++
        [c.Header.Spacer, c.Header.PacketType, c.Sequence] ++ c.Command ∧
      (out.drop 2).take 4 = littleEndian32 (crc32IEEE (out.drop 6)) ∧
      out.length = 9 + c.Command.length) ∧
    (∃ out, l.Marshal.2 = .ok out ∧
      out = l.Header.MagicBytes ++ littleEndian32 (crc32IEEE (out.drop 6)) ++
        [l.Header.Spacer, l.Header.PacketType] ++ l.Password ∧
      (out.drop 2).take 4 = littleEndian32 (crc32IEEE (out.drop 6))) ∧
    (∃ out, r.Marshal.2 = .ok out ∧
      out = r.Header.MagicBytes ++ littleEndian32 (crc32IEEE (out.drop 6)) ++
        [r.Header.Spacer, r.Header.PacketType] ++ [r.LoginResponse] ∧
      (out.drop 2).take 4 = littleEndian32 (crc32IEEE (out.drop 6))) ∧
    (∃ out, a.Marshal.2 = .ok out ∧
      out = a.Header.MagicBytes ++ littleEndian32 (crc32IEEE (out.drop 6)) ++
        [a.Header.Spacer, a.Header.PacketType] ++ [a.Sequence] ∧
      (out.drop 2).take 4 = littleEndian32 (crc32IEEE (out.drop 6))) ∧
    (∃ out, m.Marshal.2 = .ok out ∧
      out = m.Header.MagicBytes ++ littleEndian32 (crc32IEEE (out.drop 6)) ++
        [m.Header.Spacer, m.Header.PacketType] ++ ([m.Sequence] ++ m.Message) ∧
      (out.drop 2).take 4 = littleEndian32 (crc32IEEE (out.drop 6))) := by
  refine ⟨?_, ?_, ?_, ?_, ?_⟩
  · rw [clientCommand_Marshal_eq c hc]
    refine ⟨_, rfl, ?_, ?_, ?_⟩
    · rw [referenceFrame_drop _ _ hc]; simp [referenceFrame]
    · rw [referenceFrame_crc _ _ hc, referenceFrame_drop _ _ hc]
    · rw [referenceFrame_length, hc]; simp; omega
  · rw [clientLogin_Marshal_eq l hl]
    refine ⟨_, rfl, ?_, ?_⟩
    · rw [referenceFrame_drop _ _ hl]; simp [referenceFrame]
    · rw [referenceFrame_crc _ _ hl, referenceFrame_drop _ _ hl]
  · rw [serverLogin_Marshal_eq r hr]
    refine ⟨_, rfl, ?_, ?_⟩
    · rw [referenceFrame_drop _ _ hr]; simp [referenceFrame]
    · rw [referenceFrame_crc _ _ hr, referenceFrame_drop _ _ hr]
  · rw [clientMessage_Marshal_eq a ha]
    refine ⟨_, rfl, ?_, ?_⟩
    · rw [referenceFrame_drop _ _ ha]; simp [referenceFrame]
    · rw [referenceFrame_crc _ _ ha, referenceFrame_drop _ _ ha]
  · rw [serverMessage_Marshal_eq m hm]
    refine ⟨_, rfl, ?_, ?_⟩
    · rw [referenceFrame_drop _ _ hm]; simp [referenceFrame]
    · rw [referenceFrame_crc _ _ hm, referenceFrame_drop _ _ hm]

/-- Witness of `marshal_reference_encoding` at the packets the constructors return. -/
theorem marshal_reference_encoding_witness :
    (NewBEClientCommand.Header.MagicBytes.length = 2 ∧
      NewBEClientLogin.Header.MagicBytes.length = 2 ∧
      NewBEServerLogin.Header.MagicBytes.length = 2 ∧
      NewBEClientMessage.Header.MagicBytes.length = 2 ∧
      NewBEServerMessage.Header.MagicBytes.length = 2) ∧
    ((∃ out, NewBEClientCommand.Marshal.2 = .ok out ∧
      out = NewBEClientCommand.Header.MagicBytes ++ littleEndian32 (crc32IEEE (out.drop 6)) ++
        [NewBEClientCommand.Header.Spacer, NewBEClientCommand.Header.PacketType,
          NewBEClientCommand.Sequence] ++ NewBEClientCommand.Command ∧
      (out.drop 2).take 4 = littleEndian32 (crc32IEEE (out.drop 6)) ∧
      out.length = 9 + NewBEClientCommand.Command.length) ∧
    (∃ out, NewBEClientLogin.Marshal.2 = .ok out ∧
      out = NewBEClientLogin.Header.MagicBytes ++ littleEndian32 (crc32IEEE (out.drop 6)) ++
        [NewBEClientLogin.Header.Spacer, NewBEClientLogin.Header.PacketType] ++
        NewBEClientLogin.Password ∧
      (out.drop 2).take 4 = littleEndian32 (crc32IEEE (out.drop 6))) ∧
    (∃ out, NewBEServerLogin.Marshal.2 = .ok out ∧
      out = NewBEServerLogin.Header.MagicBytes ++ littleEndian32 (crc32IEEE (out.drop 6)) ++
        [NewBEServerLogin.Header.Spacer, NewBEServerLogin.Header.PacketType] ++
        [NewBEServerLogin.LoginResponse] ∧
      (out.drop 2).take 4 = littleEndian32 (crc32IEEE (out.drop 6))) ∧
    (∃ out, NewBEClientMessage.Marshal.2 = .ok out ∧
      out = NewBEClientMessage.Header.MagicBytes ++ littleEndian32 (crc32IEEE (out.drop 6)) ++
        [NewBEClientMessage.Header.Spacer, NewBEClientMessage.Header.PacketType] ++
        [NewBEClientMessage.Sequence] ∧
      (out.drop 2).take 4 = littleEndian32 (crc32IEEE (out.drop 6))) ∧
    (∃ out, NewBEServerMessage.Marshal.2 = .ok out ∧
      out = NewBEServerMessage.Header.MagicBytes ++ littleEndian32 (crc32IEEE (out.drop 6)) ++
        [NewBEServerMessage.Header.Spacer, NewBEServerMessage.Header.PacketType] ++
        ([NewBEServerMessage.Sequence] ++ NewBEServerMessage.Message) ∧
      (out.drop 2).take 4 = littleEndian32 (crc32IEEE (out.drop 6)))) :=
  ⟨⟨rfl, rfl, rfl, rfl, rfl⟩,
    marshal_reference_encoding NewBEClientCommand NewBEClientLogin NewBEServerLogin
      NewBEClientMessage NewBEServerMessage rfl rfl rfl rfl rfl⟩

/-- C3. CRC helper serialisation: for every list of byte slices, `CRC32` and `getHash` both
return exactly the 4 bytes `[c0, c1, c2, c3]` with
`c0 + 256*c1 + 65536*c2 + 16777216*c3` equal to the CRC-32/IEEE (reflected polynomial
`0xEDB88320`, initial `0xFFFFFFFF`, final XOR `0xFFFFFFFF`) of the concatenation of the
slices, byte `i` being `(crc >> 8*i) & 0xFF`; the result depends only on the concatenation,
not on how it is split into slices. -/
theorem crc_helpers_little_endian (bs : List (List Nat)) :
    ∃ c0 c1 c2 c3 : Nat,
      CRC32 bs = .ok [c0, c1, c2, c3] ∧ getHash bs = .ok [c0, c1, c2, c3] ∧
      c0 + 256 * c1 + 65536 * c2 + 16777216 * c3 = crc32IEEE bs.flatten ∧
      c0 = (crc32IEEE bs.flatten >>> (8 * 0)) &&& 0xFF ∧
      c1 = (crc32IEEE bs.flatten >>> (8 * 1)) &&& 0xFF ∧
      c2 = (crc32IEEE bs.flatten >>> (8 * 2)) &&& 0xFF ∧
      c3 = (crc32IEEE bs.flatten >>> (8 * 3)) &&& 0xFF ∧
      ∀ bs2 : List (List Nat), bs2.flatten = bs.flatten →
        CRC32 bs2 = CRC32 bs ∧ getHash bs2 = getHash bs := by
  have hlt := crc32IEEE_lt bs.flatten
  have hand : ∀ x : Nat, x &&& 0xFF = x % 256 := fun x => Nat.and_pow_two_sub_one_eq_mod x 8
  refine ⟨_, _, _, _, by rw [CRC32_eq, sumBytes_eq], by rw [getHash_eq, sumBytes_eq], ?_, ?_, ?_, ?_, ?_, ?_⟩
  · omega
  · simp [hand]
  · simp [hand, Nat.shiftRight_eq_div_pow]
  · simp [hand, Nat.shiftRight_eq_div_pow]
  · simp [hand, Nat.shiftRight_eq_div_pow]
  · intro bs2 h
    rw [CRC32_eq, CRC32_eq, getHash_eq, getHash_eq, h]
    exact ⟨rfl, rfl⟩

/-- C4. Header decode accepts exactly the well-formed headers: `BEHeader.Unmarshal(b)`
returns no error if and only if `len(b) >= 8`, `b[0..2]` is `BE`, `b[6] = 0xFF` and `b[7]` is
one of `0x00`, `0x01`, `0x02`; on success the header fields are `MagicBytes = b[0..2]`,
`Crc = b[2..6]`, `Spacer = b[6]`, `PacketType = b[7]`; and whenever it does not succeed it
returns an error, so a frame whose magic, spacer or type is out of set yields an error. -/
theorem header_unmarshal_accepts_iff (n : BEHeader) (b : Slice) :
    ((n.Unmarshal b).2 = .ok ↔
      (8 ≤ b.len ∧ b.bytes.take 2 = [0x42, 0x45] ∧ b.bytes[6]? = some 0xFF ∧
        (b.bytes[7]? = some 0x00 ∨ b.bytes[7]? = some 0x01 ∨ b.bytes[7]? = some 0x02))) ∧
    ((n.Unmarshal b).2 = .ok →
      (n.Unmarshal b).1.MagicBytes = b.bytes.take 2 ∧
      (n.Unmarshal b).1.Crc = (b.bytes.drop 2).take 4 ∧
      some (n.Unmarshal b).1.Spacer = b.bytes[6]? ∧
      some (n.Unmarshal b).1.PacketType = b.bytes[7]?) ∧
    ((n.Unmarshal b).2 ≠ .ok → ∃ e, (n.Unmarshal b).2 = .err e) := by
  by_cases h : 8 ≤ b.len
  · obtain ⟨sp, ty, hsp, hty, hU⟩ := BEHeader.Unmarshal_of_len n b h
    rw [hU, hsp, hty]
    by_cases hm : b.bytes.take 2 = [0x42, 0x45]
    · by_cases hs : sp = 0xFF
      · by_cases ht : (ty = 0x00 ∨ ty = 0x01 ∨ ty = 0x02)
        · simp [hm, hs, ht, h]
        · simp [hm, hs, ht, h]
      · simp [hm, hs, h]
    · simp [hm, h]
  · have hlt : b.len < 8 := by omega
    have hU : n.Unmarshal b = (n, .err (.headerLength b.len)) := by
      unfold BEHeader.Unmarshal; simp [hlt]
    rw [hU]
    simp [h]

end battleye

namespace udp

open battleye

/-! ## Frames produced by `Marshal` -/

theorem BEPacket.Marshal_ok (p : BEPacket) (out : List Nat) (h : p.Marshal.2 = .ok out) :
    ∃ magic body, magic.length = 2 ∧ out = referenceFrame magic body := by
  cases p with
  | ClientLogin b =>
    by_cases hm : b.Header.MagicBytes.length = 2
    · simp only [BEPacket.Marshal, clientLogin_Marshal_eq b hm, Except.ok.injEq] at h
      exact ⟨_, _, hm, h.symm⟩
    · exfalso
      simp [BEPacket.Marshal, BEClientLogin.Marshal, getHash_le, BEHeader.Marshal, littleEndian32, hm] at h
  | ServerLogin b =>
    by_cases hm : b.Header.MagicBytes.length = 2
    · simp only [BEPacket.Marshal, serverLogin_Marshal_eq b hm, Except.ok.injEq] at h
      exact ⟨_, _, hm, h.symm⟩
    · exfalso
      simp [BEPacket.Marshal, BEServerLogin.Marshal, getHash_le, BEHeader.Marshal, littleEndian32, hm] at h
  | ClientCommand b =>
    by_cases hm : b.Header.MagicBytes.length = 2
    · simp only [BEPacket.Marshal, clientCommand_Marshal_eq b hm, Except.ok.injEq] at h
      exact ⟨_, _, hm, h.symm⟩
    · exfalso
      simp [BEPacket.Marshal, BEClientCommand.Marshal, getHash_le, BEHeader.Marshal, littleEndian32, hm] at h
  | ClientMessage b =>
    by_cases hm : b.Header.MagicBytes.length = 2
    · simp only [BEPacket.Marshal, clientMessage_Marshal_eq b hm, Except.ok.injEq] at h
      exact ⟨_, _, hm, h.symm⟩
    · exfalso
      simp [BEPacket.Marshal, BEClientMessage.Marshal, getHash_le, BEHeader.Marshal, littleEndian32, hm] at h
  | ServerMessage b =>
    by_cases hm : b.Header.MagicBytes.length = 2
    · simp only [BEPacket.Marshal, serverMessage_Marshal_eq b hm, Except.ok.injEq] at h
      exact ⟨_, _, hm, h.symm⟩
    · exfalso
      simp [BEPacket.Marshal, BEServerMessage.Marshal, getHash_le, BEHeader.Marshal, littleEndian32, hm] at h

theorem Slice.ofData_bytes (data spare : List Nat) : (Slice.ofData data spare).bytes = data := by
  simp [Slice.ofData, Slice.bytes]

/-! ## The writer: dequeue -/

theorem caseOut_command (u : UDPClient) (w : Pending) (p : BEClientCommand)
    (hp : (BEPacket.ClientCommand p).Constructed) (hc : u.cmdCounter < 256) :
    ProcessPendingPackets.caseOut u w (.ClientCommand p) =
      some ({ u with cmdCounter := (u.cmdCounter + 1) % 256 },
        { w with pending := Function.update w.pending u.cmdCounter (some
            (referenceFrame [0x42, 0x45] ([0xFF, 0x01, u.cmdCounter] ++ p.Command))) }) := by
  obtain ⟨h1, h2, h3⟩ := hp
  simp only [BEPacket.Header, BEPacket.constructorType] at h1 h2 h3
  have hm : p.Header.MagicBytes.length = 2 := by rw [h1]; rfl
  unfold ProcessPendingPackets.caseOut
  simp only [BEPacket.Marshal, clientCommand_Marshal_eq p hm, h1, h2, h3]
  have hnot : ¬ u.cmdCounter > 255 := by omega
  simp [referenceFrame, littleEndian32, setByte, CRC32_le, hnot]

theorem caseOut_other (u : UDPClient) (w : Pending) (q : BEPacket)
    (hq : q.Constructed) (ht : q.constructorType ≠ 1) :
    ∃ out, q.Marshal.2 = .ok out ∧
      ProcessPendingPackets.caseOut u w q = some (u.Write out, w) := by
  obtain ⟨h1, h2, h3⟩ := hq
  cases q with
  | ClientLogin p =>
    simp only [BEPacket.Header, BEPacket.constructorType] at h1 h2 h3
    have hm : p.Header.MagicBytes.length = 2 := by rw [h1]; rfl
    unfold ProcessPendingPackets.caseOut
    simp only [BEPacket.Marshal, clientLogin_Marshal_eq p hm, h1, h2, h3]
    exact ⟨_, rfl, by simp [referenceFrame, littleEndian32]⟩
  | ServerLogin p =>
    simp only [BEPacket.Header, BEPacket.constructorType] at h1 h2 h3
    have hm : p.Header.MagicBytes.length = 2 := by rw [h1]; rfl
    unfold ProcessPendingPackets.caseOut
    simp only [BEPacket.Marshal, serverLogin_Marshal_eq p hm, h1, h2, h3]
    exact ⟨_, rfl, by simp [referenceFrame, littleEndian32]⟩
  | ClientCommand p => simp [BEPacket.constructorType] at ht
  | ClientMessage p =>
    simp only [BEPacket.Header, BEPacket.constructorType] at h1 h2 h3
    have hm : p.Header.MagicBytes.length = 2 := by rw [h1]; rfl
    unfold ProcessPendingPackets.caseOut
    simp only [BEPacket.Marshal, clientMessage_Marshal_eq p hm, h1, h2, h3]
    exact ⟨_, rfl, by simp [referenceFrame, littleEndian32]⟩
  | ServerMessage p =>
    simp only [BEPacket.Header, BEPacket.constructorType] at h1 h2 h3
    have hm : p.Header.MagicBytes.length = 2 := by rw [h1]; rfl
    unfold ProcessPendingPackets.caseOut
    simp only [BEPacket.Marshal, serverMessage_Marshal_eq p hm, h1, h2, h3]
    exact ⟨_, rfl, by simp [referenceFrame, littleEndian32]⟩

/-! ## The writer: tick -/

theorem tickSlot_cmdCounter (s : UDPClient × Pending) (k : Nat) :
    (ProcessPendingPackets.tickSlot s k).1.cmdCounter = s.1.cmdCounter := by
  unfold ProcessPendingPackets.tickSlot
  simp only
  split
  · rfl
  · split
    · rfl
    · split <;> rfl

theorem tickFold_cmdCounter (ks : List Nat) (s : UDPClient × Pending) :
    (ks.foldl ProcessPendingPackets.tickSlot s).1.cmdCounter = s.1.cmdCounter := by
  induction ks generalizing s with
  | nil => rfl
  | cons k ks ih => rw [List.foldl_cons, ih, tickSlot_cmdCounter]

theorem caseTick_cmdCounter (u : UDPClient) (w : Pending) (now : Nat) :
    (ProcessPendingPackets.caseTick u w now).1.cmdCounter = u.cmdCounter := by
  have := tickFold_cmdCounter (List.range 256) (u, w)
  unfold ProcessPendingPackets.caseTick
  generalize List.foldl ProcessPendingPackets.tickSlot (u, w) (List.range 256) = s at this ⊢
  simp only
  split
  · split
    · exact this
    · exact this
  · exact this

/-! ## The writer: what a tick does to the table and to the socket -/

theorem tickSlot_written (s : UDPClient × Pending) (k : Nat) :
    (ProcessPendingPackets.tickSlot s k).1.con.written =
      s.1.con.written ++ (slotSend s.2 k).toList := by
  unfold ProcessPendingPackets.tickSlot slotSend
  simp only
  cases hp : s.2.pending k with
  | none => simp
  | some v =>
    by_cases hr : s.2.pendingRetries k < 5
    · simp [hr, UDPClient.Write]
    · simp only [hr, if_false]
      split <;> simp

theorem tickSlot_other (s : UDPClient × Pending) (k j : Nat) (h : j ≠ k) :
    (ProcessPendingPackets.tickSlot s k).2.pending j = s.2.pending j ∧
      (ProcessPendingPackets.tickSlot s k).2.pendingRetries j = s.2.pendingRetries j := by
  unfold ProcessPendingPackets.tickSlot
  simp only
  cases hp : s.2.pending k with
  | none => simp
  | some v =>
    by_cases hr : s.2.pendingRetries k < 5
    · simp [hr, Function.update_noteq h]
    · simp only [hr, if_false]
      split <;> simp [Function.update_noteq h]

theorem tickSlot_self (s : UDPClient × Pending) (k : Nat) :
    (ProcessPendingPackets.tickSlot s k).2.pending k = slotSend s.2 k ∧
      (ProcessPendingPackets.tickSlot s k).2.pendingRetries k =
        (match s.2.pending k with
          | none => s.2.pendingRetries k
          | some _ => if s.2.pendingRetries k < 5 then s.2.pendingRetries k + 1 else 0) := by
  unfold ProcessPendingPackets.tickSlot slotSend
  simp only
  cases hp : s.2.pending k with
  | none => simp [hp]
  | some v =>
    by_cases hr : s.2.pendingRetries k < 5
    · simp [hr, hp]
    · simp only [hr, if_false]
      split <;> simp

theorem tickFold_other (ks : List Nat) (s : UDPClient × Pending) (j : Nat) (h : j ∉ ks) :
    (ks.foldl ProcessPendingPackets.tickSlot s).2.pending j = s.2.pending j ∧
      (ks.foldl ProcessPendingPackets.tickSlot s).2.pendingRetries j = s.2.pendingRetries j := by
  induction ks generalizing s with
  | nil => exact ⟨rfl, rfl⟩
  | cons k ks ih =>
    rw [List.foldl_cons]
    have hk : j ≠ k := fun e => h (e ▸ List.mem_cons_self _ _)
    have hks : j ∉ ks := fun e => h (List.mem_cons_of_mem _ e)
    obtain ⟨h1, h2⟩ := ih (ProcessPendingPackets.tickSlot s k) hks
    obtain ⟨h3, h4⟩ := tickSlot_other s k j hk
    exact ⟨h1.trans h3, h2.trans h4⟩

theorem tickFold_written (ks : List Nat) (s : UDPClient × Pending) (hnd : ks.Nodup) :
    (ks.foldl ProcessPendingPackets.tickSlot s).1.con.written =
      s.1.con.written ++ ks.filterMap (slotSend s.2) := by
  induction ks generalizing s with
  | nil => simp
  | cons k ks ih =>
    rw [List.foldl_cons, ih _ (List.nodup_cons.mp hnd).2, tickSlot_written, List.filterMap_cons]
    have hcongr : ks.filterMap (slotSend (ProcessPendingPackets.tickSlot s k).2) =
        ks.filterMap (slotSend s.2) := by
      apply List.filterMap_congr
      intro j hj
      have hjk : j ≠ k := fun e => (List.nodup_cons.mp hnd).1 (e ▸ hj)
      obtain ⟨h3, h4⟩ := tickSlot_other s k j hjk
      simp only [slotSend, h3, h4]
    rw [hcongr]
    cases slotSend s.2 k <;> simp

theorem tickFold_self (ks : List Nat) (s : UDPClient × Pending) (hnd : ks.Nodup) (j : Nat)
    (hj : j ∈ ks) :
    (ks.foldl ProcessPendingPackets.tickSlot s).2.pending j = slotSend s.2 j ∧
      (ks.foldl ProcessPendingPackets.tickSlot s).2.pendingRetries j =
        (match s.2.pending j with
          | none => s.2.pendingRetries j
          | some _ => if s.2.pendingRetries j < 5 then s.2.pendingRetries j + 1 else 0) := by
  induction ks generalizing s with
  | nil => simp at hj
  | cons k ks ih =>
    rw [List.foldl_cons]
    have hnd' := (List.nodup_cons.mp hnd)
    by_cases hjk : j = k
    · subst hjk
      obtain ⟨h1, h2⟩ := tickFold_other ks (ProcessPendingPackets.tickSlot s j) j hnd'.1
      obtain ⟨h3, h4⟩ := tickSlot_self s j
      exact ⟨h1.trans h3, h2.trans h4⟩
    · have hjks : j ∈ ks := by
        rcases List.mem_cons.mp hj with e | e
        · exact absurd e hjk
        · exact e
      obtain ⟨h1, h2⟩ := ih (ProcessPendingPackets.tickSlot s k) hnd'.2 hjks
      obtain ⟨h3, h4⟩ := tickSlot_other s k j hjk
      simp only [slotSend, h3, h4] at h1 h2
      exact ⟨h1, h2⟩

theorem caseTick_written (u : UDPClient) (w : Pending) (now : Nat) :
    (ProcessPendingPackets.caseTick u w now).1.con.written =
      u.con.written ++ (List.range 256).filterMap (slotSend w) := by
  have := tickFold_written (List.range 256) (u, w) (List.nodup_range 256)
  unfold ProcessPendingPackets.caseTick
  generalize List.foldl ProcessPendingPackets.tickSlot (u, w) (List.range 256) = s at this ⊢
  simp only
  split
  · split
    · exact this
    · exact this
  · exact this

theorem caseTick_pending (u : UDPClient) (w : Pending) (now : Nat) :
    (ProcessPendingPackets.caseTick u w now).2 =
      ((List.range 256).foldl ProcessPendingPackets.tickSlot (u, w)).2 := by
  unfold ProcessPendingPackets.caseTick
  generalize List.foldl ProcessPendingPackets.tickSlot (u, w) (List.range 256) = s
  simp only
  split
  · split <;> rfl
  · rfl

/-! ## The writer: what a reply notification does to the table -/

theorem chkSlot_spec (x : BEServerCommand) (w : Pending) (k : Nat)
    (h : ∀ f, w.pending k = some f → 8 < f.length) :
    ∃ w', ProcessPendingPackets.chkSlot x w k = some w' ∧
      w'.pendingRetries = w.pendingRetries ∧ w'.fails = w.fails ∧ w'.beat = w.beat ∧
      w'.pending k = slotAfterChk x (w.pending k) ∧ ∀ j, j ≠ k → w'.pending j = w.pending j := by
  unfold ProcessPendingPackets.chkSlot slotAfterChk
  cases hp : w.pending k with
  | none => exact ⟨w, rfl, rfl, rfl, rfl, hp, fun _ _ => rfl⟩
  | some v =>
    have hv := h v hp
    have h8 : v[8]? = some v[8] := List.getElem?_eq_getElem hv
    simp only [h8]
    by_cases hs : v[8] = x.Sequence
    · refine ⟨_, if_pos hs, rfl, rfl, rfl, ?_, ?_⟩
      · simp [hs]
      · intro j hj; simp [Function.update_noteq hj]
    · refine ⟨_, if_neg hs, rfl, rfl, rfl, ?_, fun _ _ => rfl⟩
      simp [hs, hp]

theorem chkFold_spec (x : BEServerCommand) (ks : List Nat) (w : Pending) (hnd : ks.Nodup)
    (h : ∀ k ∈ ks, ∀ f, w.pending k = some f → 8 < f.length) :
    ∃ w', ks.foldlM (ProcessPendingPackets.chkSlot x) w = some w' ∧
      w'.pendingRetries = w.pendingRetries ∧ w'.fails = w.fails ∧ w'.beat = w.beat ∧
      (∀ j, j ∈ ks → w'.pending j = slotAfterChk x (w.pending j)) ∧
      (∀ j, j ∉ ks → w'.pending j = w.pending j) := by
  induction ks generalizing w with
  | nil => exact ⟨w, rfl, rfl, rfl, rfl, fun _ hj => absurd hj (List.not_mem_nil _), fun _ _ => rfl⟩
  | cons k ks ih =>
    have hnd' := List.nodup_cons.mp hnd
    obtain ⟨w1, e1, r1, f1, b1, p1, o1⟩ :=
      chkSlot_spec x w k (h k (List.mem_cons_self _ _))
    have h1 : ∀ j ∈ ks, ∀ f, w1.pending j = some f → 8 < f.length := by
      intro j hj f hf
      have hjk : j ≠ k := fun e => hnd'.1 (e ▸ hj)
      rw [o1 j hjk] at hf
      exact h j (List.mem_cons_of_mem _ hj) f hf
    obtain ⟨w2, e2, r2, f2, b2, p2, o2⟩ := ih w1 hnd'.2 h1
    refine ⟨w2, ?_, r2.trans r1, f2.trans f1, b2.trans b1, ?_, ?_⟩
    · rw [List.foldlM_cons, e1]; exact e2
    · intro j hj
      by_cases hjk : j = k
      · subst hjk; rw [o2 j hnd'.1, p1]
      · have hjks : j ∈ ks := by
          rcases List.mem_cons.mp hj with e | e
          · exact absurd e hjk
          · exact e
        rw [p2 j hjks, o1 j hjk]
    · intro j hj
      have hjk : j ≠ k := fun e => hj (e ▸ List.mem_cons_self _ _)
      have hjks : j ∉ ks := fun e => hj (List.mem_cons_of_mem _ e)
      rw [o2 j hjks, o1 j hjk]

theorem caseChk_spec (u : UDPClient) (w : Pending) (x : BEServerCommand) (h : w.Indexable) :
    ∃ w', ProcessPendingPackets.caseChk u w x = some (u, w') ∧
      w'.pendingRetries = w.pendingRetries ∧ w'.fails = w.fails ∧ w'.beat = w.beat ∧
      (∀ j, j < 256 → w'.pending j = slotAfterChk x (w.pending j)) ∧
      (∀ j, ¬ j < 256 → w'.pending j = w.pending j) := by
  obtain ⟨w', e, r, f, b, p, o⟩ :=
    chkFold_spec x (List.range 256) w (List.nodup_range 256) (fun k _ => h k)
  refine ⟨w', ?_, r, f, b, fun j hj => p j (List.mem_range.mpr hj),
    fun j hj => o j (fun e => hj (List.mem_range.mp e))⟩
  unfold ProcessPendingPackets.caseChk
  rw [e]; rfl

theorem slotAfterChk_some (x : BEServerCommand) (v : Option (List Nat)) (f : List Nat)
    (h : slotAfterChk x v = some f) : v = some f := by
  unfold slotAfterChk at h
  cases v with
  | none => cases h
  | some g =>
    simp only at h
    split at h
    · cases h
    · exact h

/-! ## The writer: the frames in the table have a byte at offset 8 -/

theorem caseOut_indexable (u : UDPClient) (w : Pending) (p : BEPacket) (hp : p.Constructed)
    (hc : u.cmdCounter < 256) (hw : w.Indexable) :
    ∃ s, ProcessPendingPackets.caseOut u w p = some s ∧ s.2.Indexable ∧
      s.1.cmdCounter = (u.cmdCounter + (if (Input.out p).isCommand then 1 else 0)) % 256 := by
  by_cases hq : p.constructorType = 1
  · cases p with
    | ClientCommand c =>
      refine ⟨_, caseOut_command u w c hp hc, ?_, by simp [Input.isCommand]⟩
      intro k f hf
      by_cases hk : k = u.cmdCounter
      · subst hk
        simp only [Function.update_same, Option.some.injEq] at hf
        subst hf
        simp [referenceFrame, littleEndian32]
      · simp only [Function.update_noteq hk] at hf
        exact hw k f hf
    | _ => simp [BEPacket.constructorType] at hq
  · obtain ⟨out, -, h2⟩ := caseOut_other u w p hp hq
    refine ⟨_, h2, hw, ?_⟩
    have : Input.isCommand (.out p) = false := by
      cases p <;> simp [Input.isCommand, BEPacket.constructorType] at hq ⊢
    rw [this]
    simp [UDPClient.Write]
    omega

theorem caseTick_indexable (u : UDPClient) (w : Pending) (now : Nat) (hw : w.Indexable) :
    (ProcessPendingPackets.caseTick u w now).2.Indexable := by
  intro k f hf
  rw [caseTick_pending] at hf
  by_cases hk : k < 256
  · rw [(tickFold_self _ _ (List.nodup_range 256) k (List.mem_range.mpr hk)).1] at hf
    unfold slotSend at hf
    split at hf
    · exact hw k f hf
    · cases hf
  · rw [(tickFold_other _ _ k (fun e => hk (List.mem_range.mp e))).1] at hf
    exact hw k f hf

theorem step_counter (s : UDPClient × Pending) (i : Input) (hi : i.Constructed)
    (hc : s.1.cmdCounter < 256) (hw : s.2.Indexable) :
    ∃ s', ProcessPendingPackets.step s i = some s' ∧ s'.2.Indexable ∧
      s'.1.cmdCounter = (s.1.cmdCounter + (if i.isCommand then 1 else 0)) % 256 := by
  cases i with
  | out q => exact caseOut_indexable s.1 s.2 q hi hc hw
  | chk x =>
    obtain ⟨w', e, -, -, -, p, o⟩ := caseChk_spec s.1 s.2 x hw
    refine ⟨_, e, ?_, ?_⟩
    · intro k f hf
      by_cases hk : k < 256
      · rw [p k hk] at hf
        exact hw k f (slotAfterChk_some x _ f hf)
      · rw [o k hk] at hf
        exact hw k f hf
    · simp [Input.isCommand]; omega
  | tick now =>
    refine ⟨_, rfl, caseTick_indexable s.1 s.2 now hw, ?_⟩
    rw [caseTick_cmdCounter]
    simp [Input.isCommand]; omega

theorem run_counter (ins : List Input) (s : UDPClient × Pending)
    (hi : ∀ i ∈ ins, i.Constructed) (hc : s.1.cmdCounter < 256) (hw : s.2.Indexable) :
    ∃ s', ProcessPendingPackets.run s ins = some s' ∧
      s'.1.cmdCounter = (s.1.cmdCounter + (ins.filter Input.isCommand).length) % 256 := by
  induction ins generalizing s with
  | nil => exact ⟨s, rfl, by simp; omega⟩
  | cons i ins ih =>
    obtain ⟨s1, h1, hw1, h2⟩ := step_counter s i (hi i (List.mem_cons_self _ _)) hc hw
    have hc1 : s1.1.cmdCounter < 256 := by rw [h2]; exact Nat.mod_lt _ (by norm_num)
    obtain ⟨s2, h3, h4⟩ := ih s1 (fun j hj => hi j (List.mem_cons_of_mem _ hj)) hc1 hw1
    refine ⟨s2, ?_, ?_⟩
    · simp [ProcessPendingPackets.run, h1, h3]
    · rw [h4, h2]
      by_cases hcmd : i.isCommand
      · simp [hcmd, List.filter_cons]; omega
      · simp [hcmd, List.filter_cons]

/-! ## A run in which the counter wraps -/

theorem run_append (s : UDPClient × Pending) (xs ys : List Input) :
    ProcessPendingPackets.run s (xs ++ ys) =
      (ProcessPendingPackets.run s xs).bind (fun t => ProcessPendingPackets.run t ys) := by
  induction xs generalizing s with
  | nil => rfl
  | cons x xs ih =>
    simp only [List.cons_append, ProcessPendingPackets.run]
    cases ProcessPendingPackets.step s x with
    | none => rfl
    | some t => simp [ih]

theorem filterMap_single (f : Nat → Option (List Nat)) (n i : Nat) (hi : i < n)
    (h : ∀ k, k < n → k ≠ i → f k = none) :
    (List.range n).filterMap f = (f i).toList := by
  induction n with
  | zero => omega
  | succ n ih =>
    rw [List.range_succ, List.filterMap_append]
    by_cases hin : i = n
    · subst hin
      have : (List.range i).filterMap f = [] := by
        rw [List.filterMap_eq_nil_iff]
        intro k hk
        have := List.mem_range.mp hk
        exact h k (by omega) (by omega)
      rw [this]
      cases hfi : f i <;> simp [hfi]
    · rw [ih (by omega) (fun k hk hki => h k (by omega) hki)]
      simp [h n (by omega) (fun e => hin e.symm)]

theorem caseOut_command_facts (u : UDPClient) (w : Pending) (p : BEClientCommand)
    (hp : (BEPacket.ClientCommand p).Constructed) (hc : u.cmdCounter < 256) :
    ∃ s1, ProcessPendingPackets.caseOut u w (.ClientCommand p) = some s1 ∧
      s1.1.cmdCounter = (u.cmdCounter + 1) % 256 ∧ s1.1.con.written = u.con.written ∧
      s1.2.pendingRetries = w.pendingRetries ∧
      s1.2.pending = Function.update w.pending u.cmdCounter (some
        (referenceFrame [0x42, 0x45] ([0xFF, 0x01, u.cmdCounter] ++ p.Command))) :=
  ⟨_, caseOut_command u w p hp hc, rfl, rfl, rfl, rfl⟩

theorem tick_facts (s1 : UDPClient × Pending) (now : Nat) :
    ∃ s2, ProcessPendingPackets.caseTick s1.1 s1.2 now = s2 ∧
      s2.1.cmdCounter = s1.1.cmdCounter ∧
      s2.1.con.written = s1.1.con.written ++ (List.range 256).filterMap (slotSend s1.2) ∧
      (∀ k, k < 256 → s2.2.pending k = slotSend s1.2 k) ∧
      (∀ k, ¬ k < 256 → s2.2.pending k = s1.2.pending k) ∧
      (∀ k, s1.2.pending k = none → s2.2.pendingRetries k = s1.2.pendingRetries k) ∧
      (∀ k f, k < 256 → s1.2.pending k = some f → s2.2.pendingRetries k =
        if s1.2.pendingRetries k < 5 then s1.2.pendingRetries k + 1 else 0) := by
  refine ⟨_, rfl, caseTick_cmdCounter _ _ _, caseTick_written _ _ _, ?_, ?_, ?_, ?_⟩
  · intro k hk
    rw [caseTick_pending]
    exact (tickFold_self _ _ (List.nodup_range 256) k (List.mem_range.mpr hk)).1
  · intro k hk
    rw [caseTick_pending]
    exact (tickFold_other _ _ k (fun e => hk (List.mem_range.mp e))).1
  · intro k hk
    rw [caseTick_pending]
    by_cases hk256 : k < 256
    · rw [(tickFold_self _ _ (List.nodup_range 256) k (List.mem_range.mpr hk256)).2]
      simp only [hk]
    · exact (tickFold_other _ _ k (fun e => hk256 (List.mem_range.mp e))).2
  · intro k f hk hf
    rw [caseTick_pending]
    rw [(tickFold_self _ _ (List.nodup_range 256) k (List.mem_range.mpr hk)).2]
    simp only [hf]

theorem chk_facts (s2 : UDPClient × Pending) (x : BEServerCommand) (h : s2.2.Indexable) :
    ∃ s3, ProcessPendingPackets.caseChk s2.1 s2.2 x = some s3 ∧ s3.1 = s2.1 ∧
      s3.2.pendingRetries = s2.2.pendingRetries ∧
      (∀ k, k < 256 → s3.2.pending k = slotAfterChk x (s2.2.pending k)) ∧
      (∀ k, ¬ k < 256 → s3.2.pending k = s2.2.pending k) := by
  obtain ⟨w', e, r, -, -, p, o⟩ := caseChk_spec s2.1 s2.2 x h
  exact ⟨_, e, rfl, r, p, o⟩

theorem ackedCommand_run (i : Nat) (s : UDPClient × Pending) (hi : i < 255) (hs : Idle i s) :
    ∃ t, ProcessPendingPackets.run s (ackedCommand i) = some t ∧ Idle (i + 1) t := by
  obtain ⟨hc, hp, hr, hr', hw⟩ := hs
  obtain ⟨s1, e1, hc1, hw1, hr1, hp1⟩ :=
    caseOut_command_facts s.1 s.2 NewBEClientCommand (by decide) (by omega)
  obtain ⟨s2, e2, hc2, hw2, hp2, hp2', hr2, hr2'⟩ := tick_facts s1 0
  rw [hc] at hc1 hp1
  have hmod : (i + 1) % 256 = i + 1 := Nat.mod_eq_of_lt (by omega)
  have hpend1 : ∀ k, s1.2.pending k = if k = i then some (beatFrame i) else none := by
    intro k
    rw [hp1]
    by_cases hk : k = i
    · subst hk; simp [beatFrame, NewBEClientCommand]
    · simp [Function.update_noteq hk, hp, hk]
  have hsend : ∀ k, slotSend s1.2 k = if k = i then some (beatFrame i) else none := by
    intro k
    unfold slotSend
    rw [hpend1 k]
    by_cases hk : k = i
    · subst hk; simp [hr1, hr k (le_refl k)]
    · simp [hk]
  have hpend2 : ∀ k, s2.2.pending k = if k = i then some (beatFrame i) else none := by
    intro k
    by_cases hk : k < 256
    · rw [hp2 k hk, hsend k]
    · rw [hp2' k hk, hpend1 k]
  obtain ⟨s3, e3, hu3, hr3, hp3, hp3'⟩ := chk_facts s2 { NewBEServerCommand with Sequence := i }
    (by
      intro k f hf
      rw [hpend2 k] at hf
      split at hf
      · cases hf; simp [beatFrame, referenceFrame, littleEndian32]
      · cases hf)
  refine ⟨s3, ?_, ?_, ?_, ?_, ?_, ?_⟩
  · have r1 : ∀ (s : UDPClient × Pending) (i : Input) (is : List Input),
        ProcessPendingPackets.run s (i :: is) =
          (ProcessPendingPackets.step s i).bind (fun s => ProcessPendingPackets.run s is) :=
      fun _ _ _ => rfl
    have q1 : ProcessPendingPackets.step s (.out (.ClientCommand NewBEClientCommand)) =
        some s1 := e1
    have q2 : ProcessPendingPackets.step s1 (.tick 0) = some s2 := congrArg some e2
    have q3 : ProcessPendingPackets.step s2
        (.chk { NewBEServerCommand with Sequence := i }) = some s3 := e3
    unfold ackedCommand
    rw [r1, q1, Option.some_bind, r1, q2, Option.some_bind, r1, q3, Option.some_bind]
    rfl
  · rw [hu3, hc2, hc1, hmod]
  · intro k
    by_cases hk : k < 256
    · rw [hp3 k hk, hpend2 k]
      by_cases hki : k = i
      · subst hki
        simp [slotAfterChk, beatFrame, referenceFrame, littleEndian32]
      · simp [hki, slotAfterChk]
    · rw [hp3' k hk, hpend2 k]
      have : k ≠ i := by omega
      simp [this]
  · intro k hk
    have hki : k ≠ i := by omega
    rw [hr3, hr2 k (by rw [hpend1 k]; simp [hki]), hr1]
    exact hr k (by omega)
  · intro k
    rw [hr3]
    by_cases hki : k = i
    · subst hki
      rw [hr2' k (beatFrame k) (by omega) (by rw [hpend1 k]; simp), hr1, hr k (le_refl k)]
      simp
    · rw [hr2 k (by rw [hpend1 k]; simp [hki]), hr1]
      exact hr' k
  · rw [hu3, hw2, hw1, hw, filterMap_single _ 256 i (by omega)
      (fun k _ hk => by rw [hsend k]; simp [hk]), hsend i]
    simp [List.range_succ]

theorem ackedCommands_run (n : Nat) (hn : n ≤ 255) (s : UDPClient × Pending) (hs : Idle 0 s) :
    ∃ t, ProcessPendingPackets.run s ((List.range n).flatMap ackedCommand) = some t ∧
      Idle n t := by
  induction n with
  | zero => exact ⟨s, rfl, hs⟩
  | succ n ih =>
    obtain ⟨t, h1, h2⟩ := ih (by omega)
    obtain ⟨t', h3, h4⟩ := ackedCommand_run n t (by omega) h2
    refine ⟨t', ?_, h4⟩
    have e : [n].flatMap ackedCommand = ackedCommand n := by
      simp [List.flatMap, ackedCommand]
    rw [List.range_succ, List.flatMap_append, run_append, h1, e, Option.some_bind]
    exact h3


theorem wrap_tail (t : UDPClient × Pending) (ht : Idle 255 t) :
    ∃ s, ProcessPendingPackets.run t
        [.out (.ClientCommand wrapFirst), .out (.ClientCommand wrapSecond), .tick 0] = some s ∧
      s.1.con.written = (List.range 255).map beatFrame ++
        [referenceFrame [0x42, 0x45] [0xFF, 0x01, 0, 0x62],
         referenceFrame [0x42, 0x45] [0xFF, 0x01, 255, 0x61]] := by
  obtain ⟨hc, hp, hr, hr', hw⟩ := ht
  obtain ⟨s1, e1, hc1, hw1, hr1, hp1⟩ :=
    caseOut_command_facts t.1 t.2 wrapFirst (by decide) (by omega)
  rw [hc] at hc1 hp1
  have hc1' : s1.1.cmdCounter = 0 := by rw [hc1]
  obtain ⟨s2, e2, hc2, hw2, hr2, hp2⟩ :=
    caseOut_command_facts s1.1 s1.2 wrapSecond (by decide) (by omega)
  rw [hc1'] at hp2
  obtain ⟨s3, e3, -, hw3, -, -, -, -⟩ := tick_facts s2 0
  have hsend : ∀ k, slotSend s2.2 k =
      if k = 0 then some (referenceFrame [0x42, 0x45] [0xFF, 0x01, 0, 0x62])
      else if k = 255 then some (referenceFrame [0x42, 0x45] [0xFF, 0x01, 255, 0x61])
      else none := by
    intro k
    unfold slotSend
    have hlt : s2.2.pendingRetries k < 5 := by
      rw [hr2, hr1]; have := hr' k; omega
    rw [if_pos hlt, hp2, hp1]
    by_cases h0 : k = 0
    · subst h0; simp [wrapSecond]
    · by_cases h255 : k = 255
      · subst h255; simp [wrapFirst, Function.update_noteq]
      · simp [Function.update_noteq h0, Function.update_noteq h255, hp, h0, h255]
  refine ⟨s3, ?_, ?_⟩
  · have r1 : ∀ (s : UDPClient × Pending) (i : Input) (is : List Input),
        ProcessPendingPackets.run s (i :: is) =
          (ProcessPendingPackets.step s i).bind (fun s => ProcessPendingPackets.run s is) :=
      fun _ _ _ => rfl
    have q1 : ProcessPendingPackets.step t (.out (.ClientCommand wrapFirst)) = some s1 := e1
    have q2 : ProcessPendingPackets.step s1 (.out (.ClientCommand wrapSecond)) = some s2 := e2
    have q3 : ProcessPendingPackets.step s2 (.tick 0) = some s3 := congrArg some e3
    rw [r1, q1, Option.some_bind, r1, q2, Option.some_bind, r1, q3, Option.some_bind]
    rfl
  · have e : List.range 256 = List.range 255 ++ [255] := List.range_succ 255
    rw [hw3, hw2, hw1, hw, e, List.filterMap_append,
      filterMap_single _ 255 0 (by omega) (fun k hk hk0 => by rw [hsend k]; simp [hk0]; omega)]
    simp [hsend]

end udp

namespace battleye

/-! ## Claims about the type-specific decoders -/

/-- C7, the code at the failing input: the 10-byte command reply `BE`, crc, `FF 01 07 00`
(accepted header, matching CRC, sequence 7, then a single `0x00`) makes
`BEServerCommand.Unmarshal` end in a run-time panic, whatever the capacity of the slice and
whatever lies behind the datagram in the buffer: the guard `len(rawBytes) >= 10` lets the
decoder go on to `rawBytes[10:11]`, `rawBytes[11:12]` and `rawBytes[12:]`. -/
theorem serverCommand_unmarshal_short_subheader_panics (spare : List Nat) :
    (NewBEServerCommand.Unmarshal
      (Slice.ofData [0x42, 0x45, 29, 37, 194, 177, 0xFF, 0x01, 0x07, 0x00] spare)).2 = .panic ∧
    CRC32 [[0xFF, 0x01, 0x07, 0x00]] = .ok [29, 37, 194, 177] := by
  constructor
  · obtain ⟨head, h1, h2⟩ := header_of_frame NewBEServerCommand.Header 29 37 194 177 1
      [0x07, 0x00] spare (by simp)
    unfold BEServerCommand.Unmarshal
    rw [h1]
    simp only [h2]
    match spare with
    | [] => simp [Slice.ofData, Slice.sliceFrom, Slice.slice, byteAt, Slice.index]
    | [a] => simp [Slice.ofData, Slice.sliceFrom, Slice.slice, byteAt, Slice.index]
    | a :: b :: rest => simp [Slice.ofData, Slice.sliceFrom, Slice.slice, byteAt, Slice.index]
  · rfl

end battleye

namespace udp

open battleye

/-! ## Claims about the reader and the writer -/

/-- C5. CRC verification on receive: while the session is online, a datagram that was read
without error is dropped (nothing is sent on any channel, no ACK is enqueued, and the
client is left as it was but for the read deadline, which every receive re-arms; the loop
goes on to the next read) unless its header is accepted and its bytes 2..5 equal the 4-byte
little-endian CRC-32/IEEE of its bytes from offset 6 to its end.  So a datagram is dispatched
only if both hold, and every datagram whose CRC field does not match is dropped. -/
theorem receive_drops_unless_crc_valid (u : UDPClient) (header : BEHeader) (now : Nat)
    (rawBytes : Slice) (fromServer : Bool) (honline : u.online = true)
    (hbad : ¬ ((header.Unmarshal rawBytes).2 = .ok ∧
      (rawBytes.bytes.drop 2).take 4 = littleEndian32 (crc32IEEE (rawBytes.bytes.drop 6)))) :
    (Listen.receive u header now rawBytes fromServer none).1 =
        { u with con := { u.con with readDeadline := now + 45 * Second } } ∧
      (Listen.receive u header now rawBytes fromServer none).2.2 = .next := by
  unfold Listen.receive
  simp only [honline, if_false, ne_eq, not_true_eq_false, or_self, reduceCtorEq]
  cases fromServer
  · simp
  · simp only [if_true]
    have hnp := BEHeader.Unmarshal_no_panic header rawBytes
    rcases hU : header.Unmarshal rawBytes with ⟨h', out⟩
    rw [hU] at hnp hbad
    cases out with
    | panic => simp at hnp
    | err e => simp
    | ok =>
      have hok := BEHeader.Unmarshal_ok header rawBytes (by rw [hU])
      rw [hU] at hok
      obtain ⟨body, hb1, hb2⟩ := Slice.slice_from6 rawBytes (by omega)
      simp only [hb1, CRC32_le, List.flatten_cons, List.flatten_nil, List.append_nil, hb2]
      have hne : littleEndian32 (crc32IEEE (rawBytes.bytes.drop 6)) ≠ h'.Crc := by
        intro heq
        apply hbad
        refine ⟨rfl, ?_⟩
        rw [heq]; exact hok.2.2.1.symm
      simp [hne]

set_option maxRecDepth 100000 in
/-- Witness of `receive_drops_unless_crc_valid`: a command reply whose CRC field is zero. -/
theorem receive_drops_unless_crc_valid_witness :
    ((Listen.reset NewUDPClient 0).online = true ∧
      ¬ ((NewBEHeader.Unmarshal
            (Slice.ofData [0x42, 0x45, 0, 0, 0, 0, 0xFF, 0x01, 0x00] [])).2 = .ok ∧
        ((Slice.ofData [0x42, 0x45, 0, 0, 0, 0, 0xFF, 0x01, 0x00] []).bytes.drop 2).take 4 =
          littleEndian32 (crc32IEEE
            ((Slice.ofData [0x42, 0x45, 0, 0, 0, 0, 0xFF, 0x01, 0x00] []).bytes.drop 6)))) ∧
    ((Listen.receive (Listen.reset NewUDPClient 0) NewBEHeader 7
        (Slice.ofData [0x42, 0x45, 0, 0, 0, 0, 0xFF, 0x01, 0x00] []) true none).1 =
        { Listen.reset NewUDPClient 0 with
          con := { (Listen.reset NewUDPClient 0).con with readDeadline := 7 + 45 * Second } } ∧
      (Listen.receive (Listen.reset NewUDPClient 0) NewBEHeader 7
        (Slice.ofData [0x42, 0x45, 0, 0, 0, 0, 0xFF, 0x01, 0x00] []) true none).2.2 = .next) :=
  ⟨⟨rfl, by decide⟩,
    receive_drops_unless_crc_valid (Listen.reset NewUDPClient 0) NewBEHeader 7
      (Slice.ofData [0x42, 0x45, 0, 0, 0, 0, 0xFF, 0x01, 0x00] []) true rfl (by decide)⟩

/-- C6. Single-bit corruption is always detected: for every frame `out` that `Marshal`
produced for a packet with magic `BE` and every single bit position outside the CRC field
(byte `i` not in 2..5, bit `k`), the datagram with that one bit flipped is rejected by the
receive path, whatever lies behind it in the buffer: either `BEHeader.Unmarshal` returns an
error, or it accepts and the CRC-32 recomputed over `bytes[6:]` differs from the header CRC
field. -/
theorem single_bit_flip_rejected (p : BEPacket) (out spare : List Nat) (n : BEHeader)
    (i k : Nat) (hM : p.Marshal.2 = .ok out) (hBE : out.take 2 = [0x42, 0x45])
    (hi : i < out.length) (hk : k < 8) (hcrc : i < 2 ∨ 6 ≤ i) :
    (∃ e, (n.Unmarshal (Slice.ofData (out.set i (out[i] ^^^ 2 ^ k)) spare)).2 = .err e) ∨
    ((n.Unmarshal (Slice.ofData (out.set i (out[i] ^^^ 2 ^ k)) spare)).2 = .ok ∧
      ∃ body, (Slice.ofData (out.set i (out[i] ^^^ 2 ^ k)) spare).slice 6
          (Slice.ofData (out.set i (out[i] ^^^ 2 ^ k)) spare).len = some body ∧
        CRC32 [body.bytes] ≠
          .ok (n.Unmarshal (Slice.ofData (out.set i (out[i] ^^^ 2 ^ k)) spare)).1.Crc) := by
  obtain ⟨magic, body, hml, hout⟩ := BEPacket.Marshal_ok p out hM
  subst hout
  match magic, hml with
  | [m0, m1], _ =>
  simp only [referenceFrame, littleEndian32, List.cons_append, List.nil_append, List.take,
    List.cons.injEq, and_true] at hBE
  obtain ⟨rfl, rfl⟩ := hBE
  generalize hs : Slice.ofData ((referenceFrame [0x42, 0x45] body).set i
    ((referenceFrame [0x42, 0x45] body)[i] ^^^ 2 ^ k)) spare = s
  have hbytes : s.bytes = (referenceFrame [0x42, 0x45] body).set i
      ((referenceFrame [0x42, 0x45] body)[i] ^^^ 2 ^ k) := by
    rw [← hs, Slice.ofData_bytes]
  have hnp := BEHeader.Unmarshal_no_panic n s
  cases hU : (n.Unmarshal s).2 with
  | panic => exact absurd hU hnp
  | err e => exact Or.inl ⟨e, rfl⟩
  | ok =>
    right
    refine ⟨rfl, ?_⟩
    obtain ⟨hlen, hmagic, hCrc, -⟩ := BEHeader.Unmarshal_ok n s hU
    obtain ⟨b', hb1, hb2⟩ := Slice.slice_from6 s (by omega)
    refine ⟨b', hb1, ?_⟩
    rw [CRC32_le, hCrc, hb2, hbytes]
    simp only [List.flatten_cons, List.flatten_nil, List.append_nil, ne_eq, Except.ok.injEq]
    rcases hcrc with h2 | h6
    · -- a flipped magic byte is not accepted
      exfalso
      rw [hbytes] at hmagic
      have hi2 : i = 0 ∨ i = 1 := by omega
      rcases hi2 with rfl | rfl
      · simp [referenceFrame, littleEndian32] at hmagic
        have := flip_bit_mod 0x42 k hk
        rw [hmagic] at this
        exact this rfl
      · simp [referenceFrame, littleEndian32] at hmagic
        have := flip_bit_mod 0x45 k hk
        rw [hmagic] at this
        exact this rfl
    · obtain ⟨j, rfl⟩ : ∃ j, i = j + 6 := ⟨i - 6, by omega⟩
      have hj : j < body.length := by
        rw [referenceFrame_length] at hi; simp at hi; omega
      have e1 : (referenceFrame [0x42, 0x45] body)[j + 6] = body[j] := by
        simp [referenceFrame, littleEndian32]
      have e2 : ∀ v, (((referenceFrame [0x42, 0x45] body).set (j + 6) v).drop 6 = body.set j v ∧
          (((referenceFrame [0x42, 0x45] body).set (j + 6) v).drop 2).take 4 =
            littleEndian32 (crc32IEEE body)) := by
        intro v
        simp [referenceFrame, littleEndian32]
      rw [e1, (e2 _).1, (e2 _).2]
      intro heq
      exact crc32IEEE_set_ne body j _ hj (flip_bit_mod _ k hk)
        (littleEndian32_inj _ _ (crc32IEEE_lt _) (crc32IEEE_lt _) heq)

set_option maxRecDepth 100000 in
/-- Witness of `single_bit_flip_rejected`: the heartbeat frame with the lowest bit of its
sequence byte flipped. -/
theorem single_bit_flip_rejected_witness :
    ((BEPacket.ClientCommand NewBEClientCommand).Marshal.2 =
        .ok [0x42, 0x45, 190, 220, 194, 88, 0xFF, 0x01, 0x00] ∧
      [0x42, 0x45, 190, 220, 194, 88, 0xFF, 0x01, 0x00].take 2 = [0x42, 0x45] ∧
      8 < [0x42, 0x45, 190, 220, 194, 88, 0xFF, 0x01, 0x00].length ∧ 0 < 8 ∧ (8 < 2 ∨ 6 ≤ 8)) ∧
    ((∃ e, (NewBEHeader.Unmarshal (Slice.ofData
        ([0x42, 0x45, 190, 220, 194, 88, 0xFF, 0x01, 0x00].set 8
          ([0x42, 0x45, 190, 220, 194, 88, 0xFF, 0x01, 0x00][8] ^^^ 2 ^ 0)) [])).2 = .err e) ∨
    ((NewBEHeader.Unmarshal (Slice.ofData
        ([0x42, 0x45, 190, 220, 194, 88, 0xFF, 0x01, 0x00].set 8
          ([0x42, 0x45, 190, 220, 194, 88, 0xFF, 0x01, 0x00][8] ^^^ 2 ^ 0)) [])).2 = .ok ∧
      ∃ body, (Slice.ofData
          ([0x42, 0x45, 190, 220, 194, 88, 0xFF, 0x01, 0x00].set 8
            ([0x42, 0x45, 190, 220, 194, 88, 0xFF, 0x01, 0x00][8] ^^^ 2 ^ 0)) []).slice 6
          (Slice.ofData
            ([0x42, 0x45, 190, 220, 194, 88, 0xFF, 0x01, 0x00].set 8
              ([0x42, 0x45, 190, 220, 194, 88, 0xFF, 0x01, 0x00][8] ^^^ 2 ^ 0)) []).len
            = some body ∧
        CRC32 [body.bytes] ≠
          .ok (NewBEHeader.Unmarshal (Slice.ofData
            ([0x42, 0x45, 190, 220, 194, 88, 0xFF, 0x01, 0x00].set 8
              ([0x42, 0x45, 190, 220, 194, 88, 0xFF, 0x01, 0x00][8] ^^^ 2 ^ 0)) [])).1.Crc)) :=
  ⟨⟨rfl, rfl, by decide, by decide, by decide⟩,
    single_bit_flip_rejected (BEPacket.ClientCommand NewBEClientCommand)
      [0x42, 0x45, 190, 220, 194, 88, 0xFF, 0x01, 0x00] [] NewBEHeader 8 0 rfl rfl
      (by decide) (by decide) (by decide)⟩

theorem header_whole_frame (n : BEHeader) (c0 c1 c2 c3 ty : Nat) (rest spare : List Nat)
    (hty : ty = 0 ∨ ty = 1 ∨ ty = 2) :
    n.Unmarshal
        (Slice.ofData (0x42 :: 0x45 :: c0 :: c1 :: c2 :: c3 :: 0xFF :: ty :: rest) spare) =
      ({ MagicBytes := [0x42, 0x45], Crc := [c0, c1, c2, c3], Spacer := 0xFF,
         PacketType := ty }, .ok) := by
  unfold BEHeader.Unmarshal
  simp [Slice.ofData, Slice.sliceTo, Slice.slice, byteAt, Slice.index, Slice.bytes]
  rcases hty with h | h | h <;> simp [h]

set_option maxRecDepth 100000 in
/-- C8, the code at failing inputs.  An 8-byte server message with accepted header and
matching CRC (`BE`, crc, `FF 02`) makes `BEServerMessage.Unmarshal` panic, whatever lies
behind the datagram, and with it the reader (`Listen`) while it is online; an 8-byte command
reply (`BE`, crc, `FF 01`) makes `BEServerCommand.Unmarshal` take the byte behind the end of
the datagram for the sequence, or panic when the slice has no room behind it; and the
2-byte string `BE` makes `BEClientLogin.Unmarshal`, `BEClientCommand.Unmarshal` and
`BEClientMessage.Unmarshal` panic. -/
theorem short_datagram_panics (u : UDPClient) (header : BEHeader) (now x : Nat)
    (spare : List Nat) :
    (NewBEServerMessage.Unmarshal
      (Slice.ofData [0x42, 0x45, 161, 142, 243, 60, 0xFF, 0x02] spare)).2 = .panic ∧
    CRC32 [[0xFF, 0x02]] = .ok [161, 142, 243, 60] ∧
    (Listen.receive { u with online := true } header now
      (Slice.ofData [0x42, 0x45, 161, 142, 243, 60, 0xFF, 0x02] spare) true none).2.2 = .panic ∧
    ((NewBEServerCommand.Unmarshal
        (Slice.ofData [0x42, 0x45, 27, 223, 250, 165, 0xFF, 0x01] (x :: spare))).2 = .ok ∧
      (NewBEServerCommand.Unmarshal
        (Slice.ofData [0x42, 0x45, 27, 223, 250, 165, 0xFF, 0x01] (x :: spare))).1.Sequence = x) ∧
    (NewBEServerCommand.Unmarshal
      (Slice.ofData [0x42, 0x45, 27, 223, 250, 165, 0xFF, 0x01] [])).2 = .panic ∧
    CRC32 [[0xFF, 0x01]] = .ok [27, 223, 250, 165] ∧
    (NewBEClientLogin.Unmarshal (Slice.ofData [0x42, 0x45] [])).2 = .panic ∧
    (NewBEClientCommand.Unmarshal (Slice.ofData [0x42, 0x45] [])).2 = .panic ∧
    (NewBEClientMessage.Unmarshal (Slice.ofData [0x42, 0x45] [])).2 = .panic := by
  have hmsg : (NewBEServerMessage.Unmarshal
      (Slice.ofData [0x42, 0x45, 161, 142, 243, 60, 0xFF, 0x02] spare)).2 = .panic := by
    obtain ⟨head, h1, h2⟩ :=
      header_of_frame NewBEServerMessage.Header 161 142 243 60 2 [] spare (by simp)
    unfold BEServerMessage.Unmarshal
    rw [h1]
    simp only [h2]
    match spare with
    | [] => simp [Slice.ofData, Slice.sliceFrom, Slice.slice, byteAt, Slice.index]
    | a :: rest => simp [Slice.ofData, Slice.sliceFrom, Slice.slice, byteAt, Slice.index]
  have hcrc2 : CRC32 [[0xFF, 0x02]] = .ok [161, 142, 243, 60] := by rfl
  have hcrc1 : CRC32 [[0xFF, 0x01]] = .ok [27, 223, 250, 165] := by rfl
  refine ⟨hmsg, hcrc2, ?_, ?_, ?_, hcrc1, by decide, by decide, by decide⟩
  · -- the reader
    have hhdr := header_whole_frame header 161 142 243 60 2 [] spare (by simp)
    have hbody : (Slice.ofData [0x42, 0x45, 161, 142, 243, 60, 0xFF, 0x02] spare).slice 6
        (Slice.ofData [0x42, 0x45, 161, 142, 243, 60, 0xFF, 0x02] spare).len =
          some ⟨0xFF :: 0x02 :: spare, 2, by simp⟩ := by
      simp [Slice.ofData, Slice.slice]
    unfold Listen.receive
    simp only [hhdr, hbody]
    have hb : (⟨0xFF :: 0x02 :: spare, 2, by simp⟩ : Slice).bytes = [0xFF, 0x02] := by
      simp [Slice.bytes]
    simp only [hb, hcrc2]
    cases hr : NewBEServerMessage.Unmarshal
      (Slice.ofData [0x42, 0x45, 161, 142, 243, 60, 0xFF, 0x02] spare) with
    | mk pk out =>
      rw [hr] at hmsg
      simp only at hmsg
      subst hmsg
      simp
  · obtain ⟨head, h1, h2⟩ :=
      header_of_frame NewBEServerCommand.Header 27 223 250 165 1 [] (x :: spare) (by simp)
    unfold BEServerCommand.Unmarshal
    rw [h1]
    simp only [h2]
    simp [Slice.ofData, Slice.slice, byteAt, Slice.index]
  · decide

/-- C9. Sequence assignment at send time: starting from a command counter reset to 0 and a
pending table whose frames, if any, have a byte at offset 8 (the empty table the writer
starts with is one), after the writer has received the values `pre` (constructor-built packets, reply notifications and
ticks in any order), the counter is `n mod 256`, where `n` is the number of command packets
among them; the next command packet dequeued, whatever `Sequence` the caller had put in it,
is stored in the pending table with byte 7 = `0x01` and the byte `n mod 256` at offset 8, and
the counter becomes `(n mod 256 + 1) mod 256`, so successive command frames carry successive
sequence bytes with wrap from 255 to 0.  Dequeuing a constructor-built packet that is not a
command (login, message ACK) writes the bytes `Marshal` returned to the socket unaltered and
leaves the counter as it was. -/
theorem sequence_assigned_at_dequeue (u : UDPClient) (w : Pending) (pre : List Input)
    (p : BEClientCommand) (h0 : u.cmdCounter = 0) (hw : w.Indexable)
    (hpre : ∀ i ∈ pre, i.Constructed) (hp : (BEPacket.ClientCommand p).Constructed) :
    (∃ s s', ProcessPendingPackets.run (u, w) pre = some s ∧
      ProcessPendingPackets.step s (.out (.ClientCommand p)) = some s' ∧
      s.1.cmdCounter = (pre.filter Input.isCommand).length % 256 ∧
      s'.1.cmdCounter = ((pre.filter Input.isCommand).length % 256 + 1) % 256 ∧
      ∃ frame, s'.2.pending ((pre.filter Input.isCommand).length % 256) = some frame ∧
        frame[7]? = some 0x01 ∧
        frame[8]? = some ((pre.filter Input.isCommand).length % 256) ∧
        frame.drop 9 = p.Command) ∧
    (∀ (q : BEPacket) (u1 : UDPClient) (w1 : Pending), q.Constructed →
      q.constructorType ≠ 1 →
      ∃ out, q.Marshal.2 = .ok out ∧
        ProcessPendingPackets.caseOut u1 w1 q = some (u1.Write out, w1) ∧
        (u1.Write out).cmdCounter = u1.cmdCounter ∧
        (u1.Write out).con.written = u1.con.written ++ [out]) := by
  constructor
  · obtain ⟨s, hs1, hs2⟩ := run_counter pre (u, w) hpre (by simp [h0]) hw
    simp only [h0, Nat.zero_add] at hs2
    have hlt : s.1.cmdCounter < 256 := by rw [hs2]; exact Nat.mod_lt _ (by norm_num)
    have hstep := caseOut_command s.1 s.2 p hp hlt
    refine ⟨s, _, hs1, hstep, hs2, ?_, ?_⟩
    · simp only [hs2]
    · refine ⟨referenceFrame [0x42, 0x45] ([0xFF, 0x01, s.1.cmdCounter] ++ p.Command), ?_, ?_,
        ?_, ?_⟩
      · show Function.update _ _ _ _ = _
        rw [← hs2, Function.update_same]
      · simp [referenceFrame, littleEndian32]
      · simp [referenceFrame, littleEndian32, hs2]
      · simp [referenceFrame, littleEndian32]
  · intro q u1 w1 hq ht
    obtain ⟨out, h1, h2⟩ := caseOut_other u1 w1 q hq ht
    exact ⟨out, h1, h2, rfl, rfl⟩

/-- Witness of `sequence_assigned_at_dequeue`: a login, a heartbeat, a tick and a message
ACK are received before the command. -/
theorem sequence_assigned_at_dequeue_witness :
    ((Listen.reset NewUDPClient 0).cmdCounter = 0 ∧ Pending.init.Indexable ∧
      (∀ i ∈ [Input.out (.ClientLogin NewBEClientLogin),
          Input.out (.ClientCommand NewBEClientCommand), Input.tick 0,
          Input.out (.ClientMessage NewBEClientMessage)], i.Constructed) ∧
      (BEPacket.ClientCommand { NewBEClientCommand with Sequence := 9, Command := [0x70] }).Constructed) ∧
    ((∃ s s', ProcessPendingPackets.run (Listen.reset NewUDPClient 0, Pending.init)
          [Input.out (.ClientLogin NewBEClientLogin),
            Input.out (.ClientCommand NewBEClientCommand), Input.tick 0,
            Input.out (.ClientMessage NewBEClientMessage)] = some s ∧
      ProcessPendingPackets.step s (.out (.ClientCommand { NewBEClientCommand with Sequence := 9, Command := [0x70] }))
        = some s' ∧
      s.1.cmdCounter = ([Input.out (.ClientLogin NewBEClientLogin),
          Input.out (.ClientCommand NewBEClientCommand), Input.tick 0,
          Input.out (.ClientMessage NewBEClientMessage)].filter Input.isCommand).length % 256 ∧
      s'.1.cmdCounter = (([Input.out (.ClientLogin NewBEClientLogin),
          Input.out (.ClientCommand NewBEClientCommand), Input.tick 0,
          Input.out (.ClientMessage NewBEClientMessage)].filter Input.isCommand).length % 256
            + 1) % 256 ∧
      ∃ frame, s'.2.pending (([Input.out (.ClientLogin NewBEClientLogin),
          Input.out (.ClientCommand NewBEClientCommand), Input.tick 0,
          Input.out (.ClientMessage NewBEClientMessage)].filter Input.isCommand).length % 256)
            = some frame ∧
        frame[7]? = some 0x01 ∧
        frame[8]? = some (([Input.out (.ClientLogin NewBEClientLogin),
          Input.out (.ClientCommand NewBEClientCommand), Input.tick 0,
          Input.out (.ClientMessage NewBEClientMessage)].filter Input.isCommand).length % 256) ∧
        frame.drop 9 = ({ NewBEClientCommand with Sequence := 9, Command := [0x70] } : BEClientCommand).Command) ∧
    (∀ (q : BEPacket) (u1 : UDPClient) (w1 : Pending), q.Constructed →
      q.constructorType ≠ 1 →
      ∃ out, q.Marshal.2 = .ok out ∧
        ProcessPendingPackets.caseOut u1 w1 q = some (u1.Write out, w1) ∧
        (u1.Write out).cmdCounter = u1.cmdCounter ∧
        (u1.Write out).con.written = u1.con.written ++ [out])) :=
  ⟨⟨rfl, by intro k f hf; simp [Pending.init] at hf, by decide, by decide⟩,
    sequence_assigned_at_dequeue (Listen.reset NewUDPClient 0) Pending.init
      [Input.out (.ClientLogin NewBEClientLogin),
        Input.out (.ClientCommand NewBEClientCommand), Input.tick 0,
        Input.out (.ClientMessage NewBEClientMessage)]
      { NewBEClientCommand with Sequence := 9, Command := [0x70] } rfl
      (by intro k f hf; simp [Pending.init] at hf) (by decide) (by decide)⟩

/-- C10, counterexample.  Starting from the reset client with an empty table, 255 commands
are dequeued, transmitted and acknowledged one after the other; then `wrapFirst` is dequeued
(it is given sequence 255), then `wrapSecond` (sequence 0), then the ticker fires.  On the
socket the frame of `wrapSecond` comes before the frame of `wrapFirst`, and neither was
transmitted before: the first transmissions are not in dequeue order. -/
theorem transmit_order_counterexample :
    ∃ s, ProcessPendingPackets.run (Listen.reset NewUDPClient 0, Pending.init) wrapRun = some s ∧
      s.1.con.written = (List.range 255).map beatFrame ++
        [referenceFrame [0x42, 0x45] [0xFF, 0x01, 0, 0x62],
         referenceFrame [0x42, 0x45] [0xFF, 0x01, 255, 0x61]] := by
  have hidle : Idle 0 (Listen.reset NewUDPClient 0, Pending.init) :=
    ⟨rfl, fun _ => rfl, fun _ _ => rfl, fun _ => Nat.zero_le _, rfl⟩
  obtain ⟨t, h1, h2⟩ := ackedCommands_run 255 (le_refl _) _ hidle
  obtain ⟨s, h3, h4⟩ := wrap_tail t h2
  refine ⟨s, ?_, h4⟩
  unfold wrapRun
  rw [run_append, h1, Option.some_bind]
  exact h3

end udp

namespace battleye

/-! ## Decoding an accepted datagram -/

theorem BEHeader.Unmarshal_accept (n : BEHeader) (b : Slice) (h : (n.Unmarshal b).2 = .ok) :
    8 ≤ b.len ∧ ∃ ty, b.bytes[7]? = some ty ∧ (ty = 0 ∨ ty = 1 ∨ ty = 2) ∧
      b.bytes[6]? = some 0xFF ∧ b.bytes.take 2 = [0x42, 0x45] ∧
      ∀ m : BEHeader, m.Unmarshal b =
        ({ MagicBytes := [0x42, 0x45], Crc := (b.bytes.drop 2).take 4, Spacer := 0xFF,
           PacketType := ty }, .ok) := by
  by_cases hl : 8 ≤ b.len
  · obtain ⟨sp, ty, hsp, hty, hU⟩ := BEHeader.Unmarshal_of_len n b hl
    rw [hU] at h
    split_ifs at h with h1 h2 h3
    simp only [ne_eq, Decidable.not_not] at h1 h2 h3
    subst h2
    refine ⟨hl, ty, hty, h3, hsp, h1, ?_⟩
    intro m
    obtain ⟨sp', ty', hsp', hty', hU'⟩ := BEHeader.Unmarshal_of_len m b hl
    rw [hsp] at hsp'; rw [hty] at hty'
    cases hsp'; cases hty'
    rw [hU', h1]
    simp [h3]
  · rw [BEHeader.Unmarshal_short n b (by omega)] at h; simp at h

theorem BEHeader.Unmarshal_of_bytes (m : BEHeader) (b : Slice) (ty : Nat) (hl : 8 ≤ b.len)
    (hty : b.bytes[7]? = some ty) (h3 : ty = 0 ∨ ty = 1 ∨ ty = 2)
    (hsp : b.bytes[6]? = some 0xFF) (hm : b.bytes.take 2 = [0x42, 0x45]) :
    m.Unmarshal b =
      ({ MagicBytes := [0x42, 0x45], Crc := (b.bytes.drop 2).take 4, Spacer := 0xFF,
         PacketType := ty }, .ok) := by
  obtain ⟨sp', ty', hsp', hty', hU'⟩ := BEHeader.Unmarshal_of_len m b hl
  rw [hsp] at hsp'; rw [hty] at hty'
  cases hsp'; cases hty'
  rw [hU', hm]
  simp [h3]

theorem Slice.head8 (b : Slice) (h : 8 ≤ b.len) :
    ∃ head, b.sliceTo 8 = some head ∧ head.len = 8 ∧ head.bytes = b.bytes.take 8 := by
  have hwf := b.wf
  refine ⟨_, Slice.slice_eq b 0 8 ⟨by omega, by omega⟩, rfl, ?_⟩
  simp only [Slice.bytes, List.drop_zero, Nat.sub_zero, List.take_take]
  congr 1
  omega

/-- The type-specific decoders hand `rawBytes[:8]` to the header decoder: on a datagram of
at least 8 bytes with an accepted header that gives the same header. -/
theorem BEHeader.Unmarshal_head (n m : BEHeader) (b : Slice)
    (h : (n.Unmarshal b).2 = .ok) :
    ∃ head, b.sliceTo 8 = some head ∧ m.Unmarshal head = n.Unmarshal b := by
  obtain ⟨hl, ty, hty, h3, hsp, hm, hall⟩ := BEHeader.Unmarshal_accept n b h
  obtain ⟨head, h1, h2, hb⟩ := Slice.head8 b hl
  refine ⟨head, h1, ?_⟩
  rw [hall n]
  have e := BEHeader.Unmarshal_of_bytes m head ty (by omega)
    (by rw [hb, List.getElem?_take_of_lt (by omega)]; exact hty) h3
    (by rw [hb, List.getElem?_take_of_lt (by omega)]; exact hsp)
    (by rw [hb, List.take_take]; exact hm)
  rw [e, hb]
  have : List.take 4 (List.drop 2 (List.take 8 b.bytes)) = List.take 4 (List.drop 2 b.bytes) := by
    rw [List.drop_take, List.take_take]
    rfl
  rw [this]

theorem byteAt8 (b : Slice) (h : 9 ≤ b.len) :
    ∃ r, b.bytes[8]? = some r ∧ byteAt b 8 9 = some r := by
  have hwf := b.wf
  have h8 : 8 < b.buf.length := by omega
  refine ⟨b.buf[8], ?_, ?_⟩
  · rw [Slice.bytes_getElem? b 8 (by omega)]; exact List.getElem?_eq_getElem h8
  · rw [byteAt_eq b 8 h8]; exact List.getElem?_eq_getElem h8

theorem Slice.sliceFrom_bytes (b : Slice) (lo : Nat) (h : lo ≤ b.len) :
    ∃ rest, b.sliceFrom lo = some rest ∧ rest.bytes = b.bytes.drop lo := by
  have hwf := b.wf
  refine ⟨_, Slice.slice_eq b lo b.len ⟨h, hwf⟩, ?_⟩
  simp only [Slice.bytes]
  rw [List.drop_take]

theorem serverLogin_unmarshal_ok (p : BEServerLogin) (n : BEHeader) (b : Slice)
    (hlen : 9 ≤ b.len) (h : (n.Unmarshal b).2 = .ok) :
    ∃ r, b.bytes[8]? = some r ∧
      p.Unmarshal b = ({ Header := (n.Unmarshal b).1, LoginResponse := r }, .ok) := by
  obtain ⟨head, h1, h2⟩ := BEHeader.Unmarshal_head n p.Header b h
  obtain ⟨r, hr1, hr2⟩ := byteAt8 b hlen
  refine ⟨r, hr1, ?_⟩
  unfold BEServerLogin.Unmarshal
  rw [if_neg (by omega), h1]
  simp only
  rcases hU : n.Unmarshal b with ⟨hd, out⟩
  rw [hU] at h h2
  simp only at h
  subst h
  rw [h2]
  simp only [hr2]

theorem serverMessage_unmarshal_ok (p : BEServerMessage) (n : BEHeader) (b : Slice)
    (hlen : 9 ≤ b.len) (h : (n.Unmarshal b).2 = .ok) :
    ∃ sq, b.bytes[8]? = some sq ∧
      p.Unmarshal b =
        ({ Header := (n.Unmarshal b).1, Sequence := sq, Message := b.bytes.drop 9 }, .ok) := by
  obtain ⟨head, h1, h2⟩ := BEHeader.Unmarshal_head n p.Header b h
  obtain ⟨r, hr1, hr2⟩ := byteAt8 b hlen
  obtain ⟨rest, hs1, hs2⟩ := Slice.sliceFrom_bytes b 9 hlen
  refine ⟨r, hr1, ?_⟩
  unfold BEServerMessage.Unmarshal
  rw [h1]
  simp only
  rcases hU : n.Unmarshal b with ⟨hd, out⟩
  rw [hU] at h h2
  simp only at h
  subst h
  rw [h2]
  simp only [hr2, hs1, hs2]

/-! ## Claims about the login response decoder -/

/-- C18. Truncated login response is an error: `BEServerLogin.Unmarshal` returns the
"no login response" error for every input shorter than 9 bytes, leaving the packet as it was
(the result does not depend on any byte of the input), and for every input of at least
9 bytes with an accepted header it succeeds with the decoded header and `LoginResponse`
equal to byte 8. -/
theorem serverLogin_unmarshal_truncated (p : BEServerLogin) (short long : Slice)
    (hshort : short.len < 9) (hlong : 9 ≤ long.len)
    (hhdr : (p.Header.Unmarshal long).2 = .ok) :
    p.Unmarshal short = (p, .err .noLoginResponse) ∧
    ∃ r, long.bytes[8]? = some r ∧
      p.Unmarshal long =
        ({ Header := { MagicBytes := long.bytes.take 2, Crc := (long.bytes.drop 2).take 4,
                       Spacer := 0xFF, PacketType := (p.Header.Unmarshal long).1.PacketType },
           LoginResponse := r }, .ok) := by
  constructor
  · unfold BEServerLogin.Unmarshal
    rw [if_pos hshort]
  · obtain ⟨r, h1, h2⟩ := serverLogin_unmarshal_ok p p.Header long hlong hhdr
    refine ⟨r, h1, ?_⟩
    rw [h2]
    obtain ⟨-, ty, -, -, -, hm, hall⟩ := BEHeader.Unmarshal_accept p.Header long hhdr
    rw [hall p.Header, hm]

/-- Witness of `serverLogin_unmarshal_truncated`: a response cut off after the header and a
complete accepting response. -/
theorem serverLogin_unmarshal_truncated_witness :
    (truncatedLoginDatagram.len < 9 ∧ 9 ≤ loginAcceptedDatagram.len ∧
      (NewBEServerLogin.Header.Unmarshal loginAcceptedDatagram).2 = .ok) ∧
    (NewBEServerLogin.Unmarshal truncatedLoginDatagram =
        (NewBEServerLogin, .err .noLoginResponse) ∧
    ∃ r, loginAcceptedDatagram.bytes[8]? = some r ∧
      NewBEServerLogin.Unmarshal loginAcceptedDatagram =
        ({ Header := { MagicBytes := loginAcceptedDatagram.bytes.take 2,
                       Crc := (loginAcceptedDatagram.bytes.drop 2).take 4,
                       Spacer := 0xFF,
                       PacketType :=
                         (NewBEServerLogin.Header.Unmarshal loginAcceptedDatagram).1.PacketType },
           LoginResponse := r }, .ok)) :=
  ⟨⟨by decide, by decide, by decide⟩,
    serverLogin_unmarshal_truncated NewBEServerLogin truncatedLoginDatagram
      loginAcceptedDatagram (by decide) (by decide) (by decide)⟩

end battleye

namespace udp

open battleye

/-! ## The reader on an accepted datagram -/

/-- On an accepted datagram with matching CRC the reader reaches the switch on the packet
type. -/
theorem receive_accepted (header : BEHeader) (rawBytes : Slice)
    (hhdr : (header.Unmarshal rawBytes).2 = .ok)
    (hcrc : (rawBytes.bytes.drop 2).take 4 =
      littleEndian32 (crc32IEEE (rawBytes.bytes.drop 6))) :
    ∃ body, rawBytes.slice 6 rawBytes.len = some body ∧
      CRC32 [body.bytes] = .ok (header.Unmarshal rawBytes).1.Crc := by
  obtain ⟨hl, -, hC, -⟩ := BEHeader.Unmarshal_ok header rawBytes hhdr
  obtain ⟨body, hb1, hb2⟩ := Slice.slice_from6 rawBytes (by omega)
  refine ⟨body, hb1, ?_⟩
  rw [CRC32_le, hC, hcrc, hb2]
  simp

/-! ## Claims about the reader -/

/-- C13. ACK on receipt: while the session is online, for every datagram from the peer of at
least 9 bytes with accepted header, matching CRC and type `0x02`, with sequence byte `s`, the
reader sends the decoded server message on `MsgIn` and exactly one `BEClientMessage` with
`Sequence = s` on `Out`, and nothing else; when the writer dequeues that packet it writes to
the socket, once, exactly the 9 bytes `BE`, crc, `0xFF`, `0x02`, `s` (crc the little-endian
CRC-32 of `[0xFF, 0x02, s]`), and leaves the command counter and the pending table as they
were. -/
theorem ack_on_receipt (u : UDPClient) (header : BEHeader) (now : Nat) (rawBytes : Slice)
    (honline : u.online = true) (hlen : 9 ≤ rawBytes.len)
    (hhdr : (header.Unmarshal rawBytes).2 = .ok)
    (hcrc : (rawBytes.bytes.drop 2).take 4 =
      littleEndian32 (crc32IEEE (rawBytes.bytes.drop 6)))
    (hty : rawBytes.bytes[7]? = some 0x02) :
    ∃ s, rawBytes.bytes[8]? = some s ∧
      Listen.receive u header now rawBytes true none =
        ({ u with
            con := { u.con with readDeadline := now + 45 * Second },
            MsgIn := u.MsgIn ++ [{ Header := (header.Unmarshal rawBytes).1, Sequence := s,
                                   Message := rawBytes.bytes.drop 9 }],
            Out := u.Out ++ [BEPacket.ClientMessage { NewBEClientMessage with Sequence := s }] },
          (header.Unmarshal rawBytes).1, .next) ∧
      ∀ (u1 : UDPClient) (w1 : Pending),
        ProcessPendingPackets.caseOut u1 w1
            (BEPacket.ClientMessage { NewBEClientMessage with Sequence := s }) =
          some (u1.Write ([0x42, 0x45] ++ littleEndian32 (crc32IEEE [0xFF, 0x02, s]) ++
            [0xFF, 0x02, s]), w1) ∧
        ([0x42, 0x45] ++ littleEndian32 (crc32IEEE [0xFF, 0x02, s]) ++ [0xFF, 0x02, s]).length
          = 9 ∧
        (u1.Write ([0x42, 0x45] ++ littleEndian32 (crc32IEEE [0xFF, 0x02, s]) ++
            [0xFF, 0x02, s])).cmdCounter = u1.cmdCounter ∧
        (u1.Write ([0x42, 0x45] ++ littleEndian32 (crc32IEEE [0xFF, 0x02, s]) ++
            [0xFF, 0x02, s])).con.written = u1.con.written ++
              [[0x42, 0x45] ++ littleEndian32 (crc32IEEE [0xFF, 0x02, s]) ++ [0xFF, 0x02, s]] := by
  obtain ⟨body, hb1, hb2⟩ := receive_accepted header rawBytes hhdr hcrc
  obtain ⟨s, hs1, hs2⟩ := serverMessage_unmarshal_ok NewBEServerMessage header rawBytes hlen hhdr
  have hpt : (header.Unmarshal rawBytes).1.PacketType = 2 := by
    have := (BEHeader.Unmarshal_ok header rawBytes hhdr).2.2.2
    rw [hty] at this
    exact (Option.some.inj this).symm
  refine ⟨s, hs1, ?_, ?_⟩
  · unfold Listen.receive
    simp only [honline, if_false, ne_eq, not_true_eq_false, or_self, reduceCtorEq, if_true]
    rcases hU : header.Unmarshal rawBytes with ⟨hd, out⟩
    rw [hU] at hhdr hb2 hs2 hpt
    simp only at hhdr hb2 hpt
    subst hhdr
    simp only [hb1, hb2, hpt, hs2]
    simp
  · intro u1 w1
    obtain ⟨out, h1, h2⟩ := caseOut_other u1 w1
      (BEPacket.ClientMessage { NewBEClientMessage with Sequence := s }) ⟨rfl, rfl, rfl⟩
      (by simp [BEPacket.constructorType])
    have hout : out = [0x42, 0x45] ++ littleEndian32 (crc32IEEE [0xFF, 0x02, s]) ++
        [0xFF, 0x02, s] := by
      simp only [BEPacket.Marshal,
        clientMessage_Marshal_eq { NewBEClientMessage with Sequence := s } rfl] at h1
      exact (Except.ok.inj h1).symm
    subst hout
    exact ⟨h2, by simp [littleEndian32], rfl, rfl⟩

set_option maxRecDepth 100000 in
/-- Witness of `ack_on_receipt`: the server message with sequence 5 and text `hi`. -/
theorem ack_on_receipt_witness :
    ((Listen.reset NewUDPClient 0).online = true ∧ 9 ≤ messageDatagram.len ∧
      (NewBEHeader.Unmarshal messageDatagram).2 = .ok ∧
      (messageDatagram.bytes.drop 2).take 4 =
        littleEndian32 (crc32IEEE (messageDatagram.bytes.drop 6)) ∧
      messageDatagram.bytes[7]? = some 0x02) ∧
    (∃ s, messageDatagram.bytes[8]? = some s ∧
      Listen.receive (Listen.reset NewUDPClient 0) NewBEHeader 7 messageDatagram true none =
        ({ Listen.reset NewUDPClient 0 with
            con := { (Listen.reset NewUDPClient 0).con with readDeadline := 7 + 45 * Second },
            MsgIn := (Listen.reset NewUDPClient 0).MsgIn ++
              [{ Header := (NewBEHeader.Unmarshal messageDatagram).1, Sequence := s,
                 Message := messageDatagram.bytes.drop 9 }],
            Out := (Listen.reset NewUDPClient 0).Out ++
              [BEPacket.ClientMessage { NewBEClientMessage with Sequence := s }] },
          (NewBEHeader.Unmarshal messageDatagram).1, .next) ∧
      ∀ (u1 : UDPClient) (w1 : Pending),
        ProcessPendingPackets.caseOut u1 w1
            (BEPacket.ClientMessage { NewBEClientMessage with Sequence := s }) =
          some (u1.Write ([0x42, 0x45] ++ littleEndian32 (crc32IEEE [0xFF, 0x02, s]) ++
            [0xFF, 0x02, s]), w1) ∧
        ([0x42, 0x45] ++ littleEndian32 (crc32IEEE [0xFF, 0x02, s]) ++ [0xFF, 0x02, s]).length
          = 9 ∧
        (u1.Write ([0x42, 0x45] ++ littleEndian32 (crc32IEEE [0xFF, 0x02, s]) ++
            [0xFF, 0x02, s])).cmdCounter = u1.cmdCounter ∧
        (u1.Write ([0x42, 0x45] ++ littleEndian32 (crc32IEEE [0xFF, 0x02, s]) ++
            [0xFF, 0x02, s])).con.written = u1.con.written ++
              [[0x42, 0x45] ++ littleEndian32 (crc32IEEE [0xFF, 0x02, s]) ++ [0xFF, 0x02, s]]) :=
  ⟨⟨rfl, by decide, by decide, by decide, by decide⟩,
    ack_on_receipt (Listen.reset NewUDPClient 0) NewBEHeader 7 messageDatagram
      rfl (by decide) (by decide) (by decide) (by decide)⟩

/-- C16. Login result handling: while the session is online, on a datagram from the peer of
at least 9 bytes with accepted header, matching CRC and type `0x00`, the reader's reaction is
determined by the response byte `r` (byte 8): if `r` is `0x01` it sets the online flag, sends
"logged in" on `Err` and goes on to the next read; otherwise (in particular for `0x00`) it
sends "invalid password" on `Err` and returns from `Listen`, so no reconnect is attempted. -/
theorem login_result_handling (u : UDPClient) (header : BEHeader) (now : Nat)
    (rawBytes : Slice) (honline : u.online = true) (hlen : 9 ≤ rawBytes.len)
    (hhdr : (header.Unmarshal rawBytes).2 = .ok)
    (hcrc : (rawBytes.bytes.drop 2).take 4 =
      littleEndian32 (crc32IEEE (rawBytes.bytes.drop 6)))
    (hty : rawBytes.bytes[7]? = some 0x00) :
    ∃ r, rawBytes.bytes[8]? = some r ∧
      (r = 0x01 →
        Listen.receive u header now rawBytes true none =
          ({ u with
              con := { u.con with readDeadline := now + 45 * Second },
              online := true,
              Err := u.Err ++ [UDPError.loggedIn] },
            (header.Unmarshal rawBytes).1, .next)) ∧
      (r ≠ 0x01 →
        Listen.receive u header now rawBytes true none =
          ({ u with
              con := { u.con with readDeadline := now + 45 * Second },
              Err := u.Err ++ [UDPError.invalidPassword] },
            (header.Unmarshal rawBytes).1, .done)) := by
  obtain ⟨body, hb1, hb2⟩ := receive_accepted header rawBytes hhdr hcrc
  obtain ⟨r, hs1, hs2⟩ := serverLogin_unmarshal_ok NewBEServerLogin header rawBytes hlen hhdr
  have hpt : (header.Unmarshal rawBytes).1.PacketType = 0 := by
    have := (BEHeader.Unmarshal_ok header rawBytes hhdr).2.2.2
    rw [hty] at this
    exact (Option.some.inj this).symm
  refine ⟨r, hs1, ?_, ?_⟩
  · intro hr
    unfold Listen.receive
    simp only [honline, if_false, ne_eq, not_true_eq_false, or_self, reduceCtorEq, if_true]
    rcases hU : header.Unmarshal rawBytes with ⟨hd, out⟩
    rw [hU] at hhdr hb2 hs2 hpt
    simp only at hhdr hb2 hpt
    subst hhdr
    simp only [hb1, hb2, hpt, hs2]
    simp [hr]
  · intro hr
    unfold Listen.receive
    simp only [honline, if_false, ne_eq, not_true_eq_false, or_self, reduceCtorEq, if_true]
    rcases hU : header.Unmarshal rawBytes with ⟨hd, out⟩
    rw [hU] at hhdr hb2 hs2 hpt
    simp only at hhdr hb2 hpt
    subst hhdr
    simp only [hb1, hb2, hpt, hs2]
    simp [hr]

set_option maxRecDepth 100000 in
/-- Witness of `login_result_handling`: the rejecting login response. -/
theorem login_result_handling_witness :
    ((Listen.reset NewUDPClient 0).online = true ∧ 9 ≤ loginRejectedDatagram.len ∧
      (NewBEHeader.Unmarshal loginRejectedDatagram).2 = .ok ∧
      (loginRejectedDatagram.bytes.drop 2).take 4 =
        littleEndian32 (crc32IEEE (loginRejectedDatagram.bytes.drop 6)) ∧
      loginRejectedDatagram.bytes[7]? = some 0x00) ∧
    (∃ r, loginRejectedDatagram.bytes[8]? = some r ∧
      (r = 0x01 →
        Listen.receive (Listen.reset NewUDPClient 0) NewBEHeader 7 loginRejectedDatagram
            true none =
          ({ Listen.reset NewUDPClient 0 with
              con := { (Listen.reset NewUDPClient 0).con with readDeadline := 7 + 45 * Second },
              online := true,
              Err := (Listen.reset NewUDPClient 0).Err ++ [UDPError.loggedIn] },
            (NewBEHeader.Unmarshal loginRejectedDatagram).1, .next)) ∧
      (r ≠ 0x01 →
        Listen.receive (Listen.reset NewUDPClient 0) NewBEHeader 7 loginRejectedDatagram
            true none =
          ({ Listen.reset NewUDPClient 0 with
              con := { (Listen.reset NewUDPClient 0).con with readDeadline := 7 + 45 * Second },
              Err := (Listen.reset NewUDPClient 0).Err ++ [UDPError.invalidPassword] },
            (NewBEHeader.Unmarshal loginRejectedDatagram).1, .done))) :=
  ⟨⟨rfl, by decide, by decide, by decide, by decide⟩,
    login_result_handling (Listen.reset NewUDPClient 0) NewBEHeader 7 loginRejectedDatagram
      rfl (by decide) (by decide) (by decide) (by decide)⟩

set_option maxRecDepth 100000 in
/-- C17, the code at the start of a (re)connect cycle: the reset at the head of the
`Reconnect` loop sets the command counter to 0 and the online flag to `true`, whatever the
client was before and although no login response has been processed; a server message
that arrives right after it, before any login response, is dispatched. -/
theorem reconnect_reset_sets_online (u : UDPClient) (now : Nat) :
    (Listen.reset u now).cmdCounter = 0 ∧ (Listen.reset u now).online = true ∧
    (Listen.receive (Listen.reset NewUDPClient 0) NewBEHeader 7 messageDatagram true none).1.MsgIn
      = [{ Header := { MagicBytes := [0x42, 0x45], Crc := [162, 2, 206, 57], Spacer := 0xFF,
                       PacketType := 2 },
           Sequence := 5, Message := [0x68, 0x69] }] := by
  refine ⟨rfl, rfl, ?_⟩
  decide

/-- C19. Sequence patching agrees with the encoder: for every `BEClientCommand` `p` with a
constructor-built header and every value `c` of the command counter, the frame the writer
stores in the pending table on dequeuing `p` is `Marshal(p)` with byte 8 overwritten by `c`
and bytes 2..5 overwritten by the CRC-32 of the bytes from offset 6 on, and it is
byte-for-byte the output of `Marshal` for the same command with `Sequence = c`. -/
theorem sequence_patch_agrees_with_marshal (u : UDPClient) (w : Pending) (p : BEClientCommand)
    (hp : (BEPacket.ClientCommand p).Constructed) (hc : u.cmdCounter < 256) :
    ∃ out s, p.Marshal.2 = .ok out ∧
      ProcessPendingPackets.caseOut u w (.ClientCommand p) = some s ∧
      s.2.pending u.cmdCounter = some (patchSequence out u.cmdCounter) ∧
      ({ p with Sequence := u.cmdCounter } : BEClientCommand).Marshal.2 =
        .ok (patchSequence out u.cmdCounter) := by
  have hstep := caseOut_command u w p hp hc
  obtain ⟨h1, h2, h3⟩ := hp
  simp only [BEPacket.Header, BEPacket.constructorType] at h1 h2 h3
  have hm : p.Header.MagicBytes.length = 2 := by rw [h1]; rfl
  refine ⟨_, _, by rw [clientCommand_Marshal_eq p hm], hstep, ?_, ?_⟩
  · simp [patchSequence, referenceFrame, littleEndian32, h1, h2, h3]
  · rw [clientCommand_Marshal_eq { p with Sequence := u.cmdCounter } hm]
    simp [patchSequence, referenceFrame, littleEndian32, h1, h2, h3]

set_option maxRecDepth 100000 in
/-- Witness of `sequence_patch_agrees_with_marshal`: the command `p` with caller-set sequence
9, dequeued when the counter is 0. -/
theorem sequence_patch_agrees_with_marshal_witness :
    ((BEPacket.ClientCommand
        { NewBEClientCommand with Sequence := 9, Command := [0x70] }).Constructed ∧
      (Listen.reset NewUDPClient 0).cmdCounter < 256) ∧
    (∃ out s,
      ({ NewBEClientCommand with Sequence := 9, Command := [0x70] } : BEClientCommand).Marshal.2
        = .ok out ∧
      ProcessPendingPackets.caseOut (Listen.reset NewUDPClient 0) Pending.init
        (.ClientCommand { NewBEClientCommand with Sequence := 9, Command := [0x70] }) = some s ∧
      s.2.pending (Listen.reset NewUDPClient 0).cmdCounter =
        some (patchSequence out (Listen.reset NewUDPClient 0).cmdCounter) ∧
      ({ ({ NewBEClientCommand with Sequence := 9, Command := [0x70] } : BEClientCommand) with
          Sequence := (Listen.reset NewUDPClient 0).cmdCounter } : BEClientCommand).Marshal.2 =
        .ok (patchSequence out (Listen.reset NewUDPClient 0).cmdCounter)) :=
  ⟨⟨by decide, by decide⟩,
    sequence_patch_agrees_with_marshal (Listen.reset NewUDPClient 0) Pending.init
      { NewBEClientCommand with Sequence := 9, Command := [0x70] } (by decide) (by decide)⟩

end udp

namespace udp

open battleye

/-! ## The writer: ticks on a table with one frame -/

theorem tickSlot_empty (s : UDPClient × Pending) (k : Nat) (h : s.2.pending k = none) :
    ProcessPendingPackets.tickSlot s k = s := by
  unfold ProcessPendingPackets.tickSlot
  simp only [h]

theorem tickFold_empty (ks : List Nat) (s : UDPClient × Pending)
    (h : ∀ j ∈ ks, s.2.pending j = none) :
    ks.foldl ProcessPendingPackets.tickSlot s = s := by
  induction ks with
  | nil => rfl
  | cons k ks ih =>
    rw [List.foldl_cons, tickSlot_empty s k (h k (List.mem_cons_self _ _))]
    exact ih (fun j hj => h j (List.mem_cons_of_mem _ hj))

theorem tickFold_single (ks : List Nat) (s : UDPClient × Pending) (c : Nat) (hnd : ks.Nodup)
    (hc : c ∈ ks) (h : ∀ j ∈ ks, j ≠ c → s.2.pending j = none) :
    ks.foldl ProcessPendingPackets.tickSlot s = ProcessPendingPackets.tickSlot s c := by
  induction ks with
  | nil => simp at hc
  | cons k ks ih =>
    have hnd' := List.nodup_cons.mp hnd
    rw [List.foldl_cons]
    by_cases hkc : k = c
    · subst hkc
      apply tickFold_empty
      intro j hj
      have hjk : j ≠ k := fun e => hnd'.1 (e ▸ hj)
      rw [(tickSlot_other s k j hjk).1]
      exact h j (List.mem_cons_of_mem _ hj) hjk
    · rw [tickSlot_empty s k (h k (List.mem_cons_self _ _) hkc)]
      have hcks : c ∈ ks := by
        rcases List.mem_cons.mp hc with e | e
        · exact absurd e.symm hkc
        · exact e
      exact ih hnd'.2 hcks (fun j hj => h j (List.mem_cons_of_mem _ hj))

/-- What a tick changes besides the heartbeat: the fold over the table. -/
theorem caseTick_parts (u : UDPClient) (w : Pending) (now : Nat) :
    (ProcessPendingPackets.caseTick u w now).1.con =
        ((List.range 256).foldl ProcessPendingPackets.tickSlot (u, w)).1.con ∧
      (ProcessPendingPackets.caseTick u w now).1.Err =
        ((List.range 256).foldl ProcessPendingPackets.tickSlot (u, w)).1.Err ∧
      (ProcessPendingPackets.caseTick u w now).1.cmdCounter =
        ((List.range 256).foldl ProcessPendingPackets.tickSlot (u, w)).1.cmdCounter ∧
      (ProcessPendingPackets.caseTick u w now).1.online =
        ((List.range 256).foldl ProcessPendingPackets.tickSlot (u, w)).1.online ∧
      (ProcessPendingPackets.caseTick u w now).2 =
        ((List.range 256).foldl ProcessPendingPackets.tickSlot (u, w)).2 := by
  unfold ProcessPendingPackets.caseTick
  generalize List.foldl ProcessPendingPackets.tickSlot (u, w) (List.range 256) = s
  simp only
  split
  · split
    · exact ⟨rfl, rfl, rfl, rfl, rfl⟩
    · exact ⟨rfl, rfl, rfl, rfl, rfl⟩
  · exact ⟨rfl, rfl, rfl, rfl, rfl⟩

/-- A tick when slot `c` holds the only frame of the table and has retries left: the frame
is written once more. -/
theorem tick_single_retry (u : UDPClient) (w : Pending) (now c : Nat) (f : List Nat)
    (hc : c < 256) (hf : w.pending c = some f) (hothers : ∀ j, j ≠ c → w.pending j = none)
    (hr : w.pendingRetries c < 5) :
    (ProcessPendingPackets.caseTick u w now).1.con.written = u.con.written ++ [f] ∧
      (ProcessPendingPackets.caseTick u w now).1.Err = u.Err ∧
      (ProcessPendingPackets.caseTick u w now).1.cmdCounter = u.cmdCounter ∧
      (ProcessPendingPackets.caseTick u w now).2.pending = w.pending ∧
      (ProcessPendingPackets.caseTick u w now).2.pendingRetries =
        Function.update w.pendingRetries c (w.pendingRetries c + 1) ∧
      (ProcessPendingPackets.caseTick u w now).2.fails = w.fails := by
  obtain ⟨h1, h2, h3, -, h5⟩ := caseTick_parts u w now
  have hfold := tickFold_single (List.range 256) (u, w) c (List.nodup_range 256)
    (List.mem_range.mpr hc) (fun j _ hj => hothers j hj)
  have hslot : ProcessPendingPackets.tickSlot (u, w) c =
      (u.Write f,
        { w with pendingRetries := Function.update w.pendingRetries c (w.pendingRetries c + 1) }) := by
    unfold ProcessPendingPackets.tickSlot
    simp only [hf, hr, if_true]
  rw [h1, h2, h3, h5, hfold, hslot]
  exact ⟨rfl, rfl, rfl, rfl, rfl, rfl⟩

/-- A tick when slot `c` holds the only frame of the table and has no retries left: the
send timeout is reported and the slot is cleared. -/
theorem tick_single_timeout (u : UDPClient) (w : Pending) (now c : Nat) (f : List Nat)
    (hc : c < 256) (hf : w.pending c = some f) (hothers : ∀ j, j ≠ c → w.pending j = none)
    (hr : ¬ w.pendingRetries c < 5) (hfails : w.fails + 1 < 5) :
    (ProcessPendingPackets.caseTick u w now).1.con.written = u.con.written ∧
      (ProcessPendingPackets.caseTick u w now).1.Err = u.Err ++ [UDPError.sendTimeout f] ∧
      (ProcessPendingPackets.caseTick u w now).1.cmdCounter = u.cmdCounter ∧
      (∀ j, (ProcessPendingPackets.caseTick u w now).2.pending j = none) ∧
      (ProcessPendingPackets.caseTick u w now).2.pendingRetries =
        Function.update w.pendingRetries c 0 ∧
      (ProcessPendingPackets.caseTick u w now).2.fails = w.fails + 1 := by
  obtain ⟨h1, h2, h3, -, h5⟩ := caseTick_parts u w now
  have hfold := tickFold_single (List.range 256) (u, w) c (List.nodup_range 256)
    (List.mem_range.mpr hc) (fun j _ hj => hothers j hj)
  have hslot : ProcessPendingPackets.tickSlot (u, w) c =
      ({ u with Err := u.Err ++ [UDPError.sendTimeout f] },
        { w with fails := w.fails + 1,
                 pendingRetries := Function.update w.pendingRetries c 0,
                 pending := Function.update w.pending c none }) := by
    unfold ProcessPendingPackets.tickSlot
    have hge : ¬ w.fails + 1 ≥ 5 := by omega
    simp only [hf, hr, if_false, hge]
  rw [h1, h2, h3, h5, hfold, hslot]
  refine ⟨rfl, rfl, rfl, ?_, rfl, rfl⟩
  intro j
  by_cases hj : j = c
  · subst hj; simp
  · simp [Function.update_noteq hj, hothers j hj]

/-- A tick on an empty table changes neither the socket, nor `Err`, nor the table. -/
theorem tick_all_empty (u : UDPClient) (w : Pending) (now : Nat)
    (hempty : ∀ j, w.pending j = none) :
    (ProcessPendingPackets.caseTick u w now).1.con.written = u.con.written ∧
      (ProcessPendingPackets.caseTick u w now).1.Err = u.Err ∧
      (ProcessPendingPackets.caseTick u w now).1.cmdCounter = u.cmdCounter ∧
      (ProcessPendingPackets.caseTick u w now).2 = w := by
  obtain ⟨h1, h2, h3, -, h5⟩ := caseTick_parts u w now
  have hfold := tickFold_empty (List.range 256) (u, w) (fun j _ => hempty j)
  rw [h1, h2, h3, h5, hfold]
  exact ⟨rfl, rfl, rfl, rfl⟩

theorem afterTicks_tick (c : Nat) (f : List Nat) (wr : List (List Nat)) (er : List UDPError)
    (n : Nat) (s : UDPClient × Pending) (now : Nat) (hc : c < 256)
    (h : AfterTicks c f wr er n s) :
    AfterTicks c f wr er (n + 1) (ProcessPendingPackets.caseTick s.1 s.2 now) := by
  obtain ⟨hw, he, hp, hd⟩ := h
  by_cases h5 : n < 5
  · obtain ⟨hf, ho, hr, hfl⟩ := hp (by omega)
    obtain ⟨t1, t2, -, t4, t5, t6⟩ := tick_single_retry s.1 s.2 now c f hc hf ho (by omega)
    refine ⟨?_, ?_, ?_, ?_⟩
    · rw [t1, hw, List.append_assoc, ← List.replicate_succ', Nat.min_eq_left (by omega),
        Nat.min_eq_left (by omega)]
    · rw [t2, he, if_neg (by omega), if_neg (by omega)]
    · intro _
      rw [t4, t5, t6]
      refine ⟨hf, ho, ?_, hfl⟩
      simp [hr]
    · intro h6; omega
  · by_cases h6 : n = 5
    · subst h6
      obtain ⟨hf, ho, hr, hfl⟩ := hp (by omega)
      obtain ⟨t1, t2, -, t4, -, -⟩ :=
        tick_single_timeout s.1 s.2 now c f hc hf ho (by omega) (by omega)
      refine ⟨?_, ?_, ?_, ?_⟩
      · rw [t1, hw]; rfl
      · rw [t2, he]; simp
      · intro h; omega
      · intro _; exact t4
    · have hn : 6 ≤ n := by omega
      obtain ⟨t1, t2, -, t4⟩ := tick_all_empty s.1 s.2 now (hd hn)
      refine ⟨?_, ?_, ?_, ?_⟩
      · rw [t1, hw, Nat.min_eq_right (by omega), Nat.min_eq_right (by omega)]
      · rw [t2, he, if_pos hn, if_pos (by omega)]
      · intro h; omega
      · intro _; rw [t4]; exact hd hn

theorem run_cons (s : UDPClient × Pending) (i : Input) (is : List Input) :
    ProcessPendingPackets.run s (i :: is) =
      (ProcessPendingPackets.step s i).bind (fun s => ProcessPendingPackets.run s is) := rfl

theorem run_tick (s : UDPClient × Pending) (now : Nat) (is : List Input) :
    ProcessPendingPackets.run s (.tick now :: is) =
      ProcessPendingPackets.run (ProcessPendingPackets.caseTick s.1 s.2 now) is := by
  rw [run_cons]
  have q : ProcessPendingPackets.step s (.tick now) =
      some (ProcessPendingPackets.caseTick s.1 s.2 now) := congrArg some (Eq.refl _)
  rw [q, Option.some_bind]

theorem afterTicks_run (c : Nat) (f : List Nat) (wr : List (List Nat)) (er : List UDPError)
    (hc : c < 256) (times : List Nat) (n : Nat) (s : UDPClient × Pending)
    (h : AfterTicks c f wr er n s) :
    ∃ t, ProcessPendingPackets.run s (times.map Input.tick) = some t ∧
      AfterTicks c f wr er (n + times.length) t := by
  induction times generalizing n s with
  | nil => exact ⟨s, rfl, h⟩
  | cons now times ih =>
    obtain ⟨t, ht, hA⟩ := ih (n + 1) _ (afterTicks_tick c f wr er n s now hc h)
    refine ⟨t, ?_, ?_⟩
    · rw [List.map_cons, run_tick]
      exact ht
    · rw [List.length_cons]
      have e : n + (times.length + 1) = n + 1 + times.length := by omega
      rw [e]
      exact hA

/-- A command dequeued into a fresh table, then ticks: the frame is not written at the
dequeue; each of the first five ticks writes it once, the sixth reports the send timeout and
clears the slot, later ticks do nothing. -/
theorem command_then_ticks (u : UDPClient) (p : BEClientCommand)
    (times : List Nat) (hp : (BEPacket.ClientCommand p).Constructed)
    (hc : u.cmdCounter < 256) :
    ∃ s, ProcessPendingPackets.run (u, Pending.init)
        (.out (.ClientCommand p) :: times.map Input.tick) = some s ∧
      s.1.con.written = u.con.written ++ List.replicate (min times.length 5)
        (referenceFrame [0x42, 0x45] ([0xFF, 0x01, u.cmdCounter] ++ p.Command)) ∧
      s.1.Err = u.Err ++ (if 6 ≤ times.length then [UDPError.sendTimeout
        (referenceFrame [0x42, 0x45] ([0xFF, 0x01, u.cmdCounter] ++ p.Command))] else []) ∧
      s.2.pending u.cmdCounter = (if 6 ≤ times.length then none else some
        (referenceFrame [0x42, 0x45] ([0xFF, 0x01, u.cmdCounter] ++ p.Command))) := by
  have e1 := caseOut_command u Pending.init p hp hc
  have hA : AfterTicks u.cmdCounter
      (referenceFrame [0x42, 0x45] ([0xFF, 0x01, u.cmdCounter] ++ p.Command))
      u.con.written u.Err 0
      ({ u with cmdCounter := (u.cmdCounter + 1) % 256 },
        { Pending.init with pending := Function.update Pending.init.pending u.cmdCounter (some
            (referenceFrame [0x42, 0x45] ([0xFF, 0x01, u.cmdCounter] ++ p.Command))) }) := by
    refine ⟨by simp, by simp, ?_, ?_⟩
    · intro _
      refine ⟨by simp, ?_, rfl, rfl⟩
      intro j hj
      simp [Function.update_noteq hj, Pending.init]
    · intro h; omega
  obtain ⟨t, ht, hw, he, hpn, hd⟩ := afterTicks_run _ _ _ _ hc times 0 _ hA
  rw [Nat.zero_add] at hw he hpn hd
  refine ⟨t, ?_, hw, he, ?_⟩
  · have r1 : ∀ (s : UDPClient × Pending) (i : Input) (is : List Input),
        ProcessPendingPackets.run s (i :: is) =
          (ProcessPendingPackets.step s i).bind (fun s => ProcessPendingPackets.run s is) :=
      fun _ _ _ => rfl
    have q1 : ProcessPendingPackets.step (u, Pending.init) (.out (.ClientCommand p)) = _ := e1
    rw [r1, q1, Option.some_bind]
    exact ht
  · by_cases h6 : 6 ≤ times.length
    · rw [if_pos h6]; exact hd h6 _
    · rw [if_neg h6]; exact (hpn (by omega)).1

/-! ## The writer: one frame among the others -/

theorem marshal_type_byte (q : BEPacket) (hq : q.Constructed) (out : List Nat)
    (h : q.Marshal.2 = .ok out) : out[7]? = some q.constructorType := by
  obtain ⟨h1, h2, h3⟩ := hq
  cases q with
  | ClientLogin p =>
    simp only [BEPacket.Header, BEPacket.constructorType] at h1 h2 h3
    have hm : p.Header.MagicBytes.length = 2 := by rw [h1]; rfl
    simp only [BEPacket.Marshal, clientLogin_Marshal_eq p hm, h1, h2, h3, Except.ok.injEq] at h
    subst h
    simp [referenceFrame, littleEndian32, BEPacket.constructorType]
  | ServerLogin p =>
    simp only [BEPacket.Header, BEPacket.constructorType] at h1 h2 h3
    have hm : p.Header.MagicBytes.length = 2 := by rw [h1]; rfl
    simp only [BEPacket.Marshal, serverLogin_Marshal_eq p hm, h1, h2, h3, Except.ok.injEq] at h
    subst h
    simp [referenceFrame, littleEndian32, BEPacket.constructorType]
  | ClientCommand p =>
    simp only [BEPacket.Header, BEPacket.constructorType] at h1 h2 h3
    have hm : p.Header.MagicBytes.length = 2 := by rw [h1]; rfl
    simp only [BEPacket.Marshal, clientCommand_Marshal_eq p hm, h1, h2, h3, Except.ok.injEq] at h
    subst h
    simp [referenceFrame, littleEndian32, BEPacket.constructorType]
  | ClientMessage p =>
    simp only [BEPacket.Header, BEPacket.constructorType] at h1 h2 h3
    have hm : p.Header.MagicBytes.length = 2 := by rw [h1]; rfl
    simp only [BEPacket.Marshal, clientMessage_Marshal_eq p hm, h1, h2, h3, Except.ok.injEq] at h
    subst h
    simp [referenceFrame, littleEndian32, BEPacket.constructorType]
  | ServerMessage p =>
    simp only [BEPacket.Header, BEPacket.constructorType] at h1 h2 h3
    have hm : p.Header.MagicBytes.length = 2 := by rw [h1]; rfl
    simp only [BEPacket.Marshal, serverMessage_Marshal_eq p hm, h1, h2, h3, Except.ok.injEq] at h
    subst h
    simp [referenceFrame, littleEndian32, BEPacket.constructorType]

/-- A tick at a slot that does not hold `f` neither writes `f` nor reports it. -/
theorem tickSlot_foreign (s : UDPClient × Pending) (j : Nat) (f : List Nat)
    (h : ∀ g, s.2.pending j = some g → g ≠ f) :
    (ProcessPendingPackets.tickSlot s j).1.con.written.count f = s.1.con.written.count f ∧
      (ProcessPendingPackets.tickSlot s j).1.Err.count (UDPError.sendTimeout f) =
        s.1.Err.count (UDPError.sendTimeout f) := by
  cases hp : s.2.pending j with
  | none => rw [tickSlot_empty s j hp]; exact ⟨rfl, rfl⟩
  | some g =>
    have hg : g ≠ f := h g hp
    unfold ProcessPendingPackets.tickSlot
    simp only [hp]
    split
    · simp [UDPClient.Write, List.count_append, List.count_cons, hg]
    · split <;> simp [List.count_append, List.count_cons, hg]

/-- A tick at the slot that holds `f`. -/
theorem tickSlot_own (s : UDPClient × Pending) (k : Nat) (f : List Nat)
    (h : s.2.pending k = some f) :
    (ProcessPendingPackets.tickSlot s k).1.con.written.count f =
        s.1.con.written.count f + (if s.2.pendingRetries k < 5 then 1 else 0) ∧
      (ProcessPendingPackets.tickSlot s k).1.Err.count (UDPError.sendTimeout f) =
        s.1.Err.count (UDPError.sendTimeout f) + (if s.2.pendingRetries k < 5 then 0 else 1) := by
  unfold ProcessPendingPackets.tickSlot
  simp only [h]
  split
  · simp [UDPClient.Write, List.count_append]
  · split <;> simp [List.count_append]

theorem tickFold_foreign (ks : List Nat) (s : UDPClient × Pending) (k : Nat) (f : List Nat)
    (hk : k ∉ ks) (h : ∀ j ∈ ks, ∀ g, s.2.pending j = some g → g ≠ f) (hnd : ks.Nodup) :
    (ks.foldl ProcessPendingPackets.tickSlot s).1.con.written.count f =
        s.1.con.written.count f ∧
      (ks.foldl ProcessPendingPackets.tickSlot s).1.Err.count (UDPError.sendTimeout f) =
        s.1.Err.count (UDPError.sendTimeout f) := by
  induction ks generalizing s with
  | nil => exact ⟨rfl, rfl⟩
  | cons j ks ih =>
    have hnd' := List.nodup_cons.mp hnd
    rw [List.foldl_cons]
    obtain ⟨a, b⟩ := tickSlot_foreign s j f (h j (List.mem_cons_self _ _))
    obtain ⟨c, d⟩ := ih (ProcessPendingPackets.tickSlot s j)
      (fun e => hk (List.mem_cons_of_mem _ e))
      (fun i hi g hg => by
        have hij : i ≠ j := fun e => hnd'.1 (e ▸ hi)
        rw [(tickSlot_other s j i hij).1] at hg
        exact h i (List.mem_cons_of_mem _ hi) g hg)
      hnd'.2
    exact ⟨c.trans a, d.trans b⟩

theorem tickFold_own (ks : List Nat) (s : UDPClient × Pending) (k : Nat) (f : List Nat)
    (hk : k ∈ ks) (hf : s.2.pending k = some f)
    (h : ∀ j ∈ ks, j ≠ k → ∀ g, s.2.pending j = some g → g ≠ f) (hnd : ks.Nodup) :
    (ks.foldl ProcessPendingPackets.tickSlot s).1.con.written.count f =
        s.1.con.written.count f + (if s.2.pendingRetries k < 5 then 1 else 0) ∧
      (ks.foldl ProcessPendingPackets.tickSlot s).1.Err.count (UDPError.sendTimeout f) =
        s.1.Err.count (UDPError.sendTimeout f) +
          (if s.2.pendingRetries k < 5 then 0 else 1) := by
  induction ks generalizing s with
  | nil => simp at hk
  | cons j ks ih =>
    have hnd' := List.nodup_cons.mp hnd
    rw [List.foldl_cons]
    by_cases hjk : j = k
    · subst hjk
      obtain ⟨a, b⟩ := tickSlot_own s j f hf
      obtain ⟨c, d⟩ := tickFold_foreign ks (ProcessPendingPackets.tickSlot s j) j f hnd'.1
        (fun i hi g hg => by
          have hij : i ≠ j := fun e => hnd'.1 (e ▸ hi)
          rw [(tickSlot_other s j i hij).1] at hg
          exact h i (List.mem_cons_of_mem _ hi) hij g hg)
        hnd'.2
      exact ⟨c.trans a, d.trans b⟩
    · obtain ⟨a, b⟩ := tickSlot_foreign s j f (h j (List.mem_cons_self _ _) hjk)
      have hkj : k ≠ j := fun e => hjk e.symm
      have hks : k ∈ ks := by
        rcases List.mem_cons.mp hk with e | e
        · exact absurd e hkj
        · exact e
      obtain ⟨o1, o2⟩ := tickSlot_other s j k hkj
      obtain ⟨c, d⟩ := ih (ProcessPendingPackets.tickSlot s j) hks (by rw [o1]; exact hf)
        (fun i hi hik g hg => by
          have hij : i ≠ j := fun e => hnd'.1 (e ▸ hi)
          rw [(tickSlot_other s j i hij).1] at hg
          exact h i (List.mem_cons_of_mem _ hi) hik g hg)
        hnd'.2
      rw [o2] at c d
      exact ⟨c.trans (by rw [a]), d.trans (by rw [b])⟩

theorem SlotInv.indexable (k : Nat) (f : List Nat) (s : UDPClient × Pending)
    (h : SlotInv k f s) : s.2.Indexable := by
  intro j g hg
  have := h.2.2.2.1 j g hg
  by_contra hlen
  rw [List.getElem?_eq_none (by omega)] at this
  cases this

theorem SlotInv.foreign (k : Nat) (f : List Nat) (s : UDPClient × Pending)
    (h : SlotInv k f s) (j : Nat) (hj : j ≠ k) (g : List Nat) (hg : s.2.pending j = some g) :
    g ≠ f := by
  intro e
  subst e
  have a := h.2.2.2.1 j g hg
  rw [h.2.2.1] at a
  exact hj (Option.some.inj a).symm

/-- A tick, seen from slot `k`. -/
theorem slot_tick (k : Nat) (f : List Nat) (s : UDPClient × Pending) (now : Nat)
    (h : SlotInv k f s) :
    SlotInv k f (ProcessPendingPackets.caseTick s.1 s.2 now) ∧
      (ProcessPendingPackets.caseTick s.1 s.2 now).1.cmdCounter = s.1.cmdCounter ∧
      (s.2.pending k = none →
        (ProcessPendingPackets.caseTick s.1 s.2 now).2.pending k = none ∧
        (ProcessPendingPackets.caseTick s.1 s.2 now).1.con.written.count f =
          s.1.con.written.count f ∧
        (ProcessPendingPackets.caseTick s.1 s.2 now).1.Err.count (UDPError.sendTimeout f) =
          s.1.Err.count (UDPError.sendTimeout f)) ∧
      (s.2.pending k = some f → s.2.pendingRetries k < 5 →
        (ProcessPendingPackets.caseTick s.1 s.2 now).2.pending k = some f ∧
        (ProcessPendingPackets.caseTick s.1 s.2 now).2.pendingRetries k =
          s.2.pendingRetries k + 1 ∧
        (ProcessPendingPackets.caseTick s.1 s.2 now).1.con.written.count f =
          s.1.con.written.count f + 1 ∧
        (ProcessPendingPackets.caseTick s.1 s.2 now).1.Err.count (UDPError.sendTimeout f) =
          s.1.Err.count (UDPError.sendTimeout f)) ∧
      (s.2.pending k = some f → ¬ s.2.pendingRetries k < 5 →
        (ProcessPendingPackets.caseTick s.1 s.2 now).2.pending k = none ∧
        (ProcessPendingPackets.caseTick s.1 s.2 now).1.con.written.count f =
          s.1.con.written.count f ∧
        (ProcessPendingPackets.caseTick s.1 s.2 now).1.Err.count (UDPError.sendTimeout f) =
          s.1.Err.count (UDPError.sendTimeout f) + 1) := by
  obtain ⟨u, w⟩ := s
  obtain ⟨hk, h7, h8, hseq, hc⟩ := h
  obtain ⟨t, et, tc, -, tp, tp', -, tr⟩ := tick_facts (u, w) now
  obtain ⟨p1, p2, -, -, -⟩ := caseTick_parts u w now
  dsimp only at et tc tp tp' tr hseq hc ⊢
  rw [et] at p1 p2
  rw [et]
  have hmem : k ∈ List.range 256 := List.mem_range.mpr hk
  refine ⟨⟨hk, h7, h8, ?_, by rw [tc]; exact hc⟩, tc, ?_, ?_, ?_⟩
  · intro j g hg
    by_cases hj : j < 256
    · rw [tp j hj] at hg
      unfold slotSend at hg
      split at hg
      · exact hseq j g hg
      · cases hg
    · rw [tp' j hj] at hg
      exact hseq j g hg
  · intro hn
    have hfor : ∀ j ∈ List.range 256, ∀ g, w.pending j = some g → g ≠ f := by
      intro j _ g hg
      by_cases hj : j = k
      · subst hj; rw [hn] at hg; cases hg
      · exact SlotInv.foreign k f (u, w) ⟨hk, h7, h8, hseq, hc⟩ j hj g hg
    have hcount : ∀ (ks : List Nat) (s : UDPClient × Pending),
        (∀ j ∈ ks, ∀ g, s.2.pending j = some g → g ≠ f) →
        (ks.foldl ProcessPendingPackets.tickSlot s).1.con.written.count f =
            s.1.con.written.count f ∧
          (ks.foldl ProcessPendingPackets.tickSlot s).1.Err.count (UDPError.sendTimeout f) =
            s.1.Err.count (UDPError.sendTimeout f) := by
      intro ks
      induction ks with
      | nil => intro s _; exact ⟨rfl, rfl⟩
      | cons j ks ih =>
        intro s hs
        rw [List.foldl_cons]
        obtain ⟨a, b⟩ := tickSlot_foreign s j f (hs j (List.mem_cons_self _ _))
        obtain ⟨c, d⟩ := ih (ProcessPendingPackets.tickSlot s j) (by
          intro i hi g hg
          by_cases hij : i = j
          · subst hij
            rw [(tickSlot_self s i).1] at hg
            unfold slotSend at hg
            split at hg
            · exact hs i (List.mem_cons_self _ _) g hg
            · cases hg
          · rw [(tickSlot_other s j i hij).1] at hg
            exact hs i (List.mem_cons_of_mem _ hi) g hg)
        exact ⟨c.trans a, d.trans b⟩
    obtain ⟨a, b⟩ := hcount (List.range 256) (u, w) hfor
    refine ⟨?_, ?_, ?_⟩
    · rw [tp k hk]; unfold slotSend; rw [hn]; simp
    · rw [p1]; exact a
    · rw [p2]; exact b
  · intro hf hr
    obtain ⟨a, b⟩ := tickFold_own (List.range 256) (u, w) k f hmem hf
      (fun j _ hj g hg => SlotInv.foreign k f (u, w) ⟨hk, h7, h8, hseq, hc⟩ j hj g hg)
      (List.nodup_range 256)
    rw [if_pos hr] at a b
    refine ⟨?_, ?_, ?_, ?_⟩
    · rw [tp k hk]; unfold slotSend; rw [if_pos hr]; exact hf
    · rw [tr k f hk hf, if_pos hr]
    · rw [p1]; exact a
    · rw [p2]; exact b
  · intro hf hr
    obtain ⟨a, b⟩ := tickFold_own (List.range 256) (u, w) k f hmem hf
      (fun j _ hj g hg => SlotInv.foreign k f (u, w) ⟨hk, h7, h8, hseq, hc⟩ j hj g hg)
      (List.nodup_range 256)
    rw [if_neg hr] at a b
    refine ⟨?_, ?_, ?_⟩
    · rw [tp k hk]; unfold slotSend; rw [if_neg hr]
    · rw [p1]; exact a
    · rw [p2]; exact b

/-- A dequeue or a reply notification that does not concern slot `k`, seen from slot `k`. -/
theorem slot_other_step (k : Nat) (f : List Nat) (s : UDPClient × Pending) (i : Input)
    (h : SlotInv k f s) (hslot : s.2.pending k = some f ∨ s.2.pending k = none)
    (hi : i.Constructed) (htick : i.isTick = false)
    (hack : ∀ x, i = .chk x → x.Sequence ≠ k)
    (hreuse : i.isCommand = true → s.1.cmdCounter ≠ k) :
    ∃ t, ProcessPendingPackets.step s i = some t ∧ SlotInv k f t ∧
      t.1.cmdCounter = (s.1.cmdCounter + (if i.isCommand then 1 else 0)) % 256 ∧
      t.2.pending k = s.2.pending k ∧ t.2.pendingRetries k = s.2.pendingRetries k ∧
      t.1.con.written.count f = s.1.con.written.count f ∧
      t.1.Err.count (UDPError.sendTimeout f) = s.1.Err.count (UDPError.sendTimeout f) := by
  obtain ⟨hk, h7, h8, hseq, hc⟩ := h
  cases i with
  | tick now => simp [Input.isTick] at htick
  | chk x =>
    obtain ⟨t, et, tu, tr, tp, tp'⟩ :=
      chk_facts s x (SlotInv.indexable k f s ⟨hk, h7, h8, hseq, hc⟩)
    have hkeep : t.2.pending k = s.2.pending k := by
      rw [tp k hk]
      rcases hslot with e | e
      · rw [e]
        unfold slotAfterChk
        have : ¬ f[8]? = some x.Sequence := by
          rw [h8]
          intro e'
          exact hack x rfl (Option.some.inj e').symm
        simp [this]
      · rw [e]; rfl
    refine ⟨t, et, ⟨hk, h7, h8, ?_, by rw [tu]; exact hc⟩, ?_, hkeep, by rw [tr], by rw [tu],
      by rw [tu]⟩
    · intro j g hg
      by_cases hj : j < 256
      · rw [tp j hj] at hg
        exact hseq j g (slotAfterChk_some x _ g hg)
      · rw [tp' j hj] at hg
        exact hseq j g hg
    · rw [tu]
      simp [Input.isCommand]
      omega
  | out q =>
    by_cases hq : q.constructorType = 1
    · cases q with
      | ClientCommand c =>
        obtain ⟨t, et, tc, tw, tr, tp⟩ := caseOut_command_facts s.1 s.2 c hi hc
        have hne : s.1.cmdCounter ≠ k := hreuse rfl
        have e0 : (caseOut_command s.1 s.2 c hi hc).symm ▸ et = et := rfl
        have te : t.1.Err = s.1.Err := by
          have := caseOut_command s.1 s.2 c hi hc
          rw [this] at et
          cases et
          rfl
        refine ⟨t, et, ⟨hk, h7, h8, ?_, by rw [tc]; exact Nat.mod_lt _ (by norm_num)⟩, ?_, ?_,
          by rw [tr], by rw [tw], by rw [te]⟩
        · intro j g hg
          rw [tp] at hg
          by_cases hj : j = s.1.cmdCounter
          · subst hj
            simp only [Function.update_same, Option.some.injEq] at hg
            subst hg
            simp [referenceFrame, littleEndian32]
          · simp only [Function.update_noteq hj] at hg
            exact hseq j g hg
        · rw [tc]; simp [Input.isCommand]
        · rw [tp, Function.update_noteq (fun e => hne e.symm)]
      | _ => simp [BEPacket.constructorType] at hq
    · obtain ⟨out, hm, e⟩ := caseOut_other s.1 s.2 q hi hq
      have h7o := marshal_type_byte q hi out hm
      have hne : out ≠ f := by
        intro e'
        rw [e', h7] at h7o
        exact hq (Option.some.inj h7o).symm
      have hnc : Input.isCommand (.out q) = false := by
        cases q <;> simp [Input.isCommand, BEPacket.constructorType] at hq ⊢
      refine ⟨_, e, ⟨hk, h7, h8, hseq, hc⟩, ?_, rfl, rfl, ?_, rfl⟩
      · rw [hnc]
        simp [UDPClient.Write]
        omega
      · simp [UDPClient.Write, List.count_append, List.count_cons, hne]

theorem reuse_head (k c : Nat) (i : Input) (ins : List Input) (hc : c < 256)
    (h : ∀ n, n < ((i :: ins).filter Input.isCommand).length → (c + n) % 256 ≠ k) :
    (i.isCommand = true → c ≠ k) ∧
      ∀ n, n < (ins.filter Input.isCommand).length →
        ((c + (if i.isCommand then 1 else 0)) % 256 + n) % 256 ≠ k := by
  cases hi : i.isCommand with
  | true =>
    simp only [List.filter_cons, hi, if_true, List.length_cons] at h
    refine ⟨fun _ => ?_, fun n hn => ?_⟩
    · have := h 0 (by omega)
      rw [Nat.add_zero, Nat.mod_eq_of_lt hc] at this
      exact this
    · have := h (n + 1) (by omega)
      simp only [if_true]
      intro e
      apply this
      omega
  | false =>
    simp only [List.filter_cons, hi] at h
    refine ⟨fun e => Bool.noConfusion e, fun n hn => ?_⟩
    have := h n hn
    simp only [Bool.false_eq_true, if_false, Nat.add_zero, Nat.mod_eq_of_lt hc]
    exact this

/-- While slot `k` is empty and is not given a frame, `f` is neither written nor reported. -/
theorem slot_quiet_run (k : Nat) (f : List Nat) (ins : List Input) (s : UDPClient × Pending)
    (h : SlotInv k f s) (hn : s.2.pending k = none)
    (hins : ∀ i ∈ ins, i.Constructed)
    (hack : ∀ x, Input.chk x ∈ ins → x.Sequence ≠ k)
    (hreuse : ∀ n, n < (ins.filter Input.isCommand).length →
      (s.1.cmdCounter + n) % 256 ≠ k) :
    ∃ t, ProcessPendingPackets.run s ins = some t ∧ t.2.pending k = none ∧
      t.1.con.written.count f = s.1.con.written.count f ∧
      t.1.Err.count (UDPError.sendTimeout f) = s.1.Err.count (UDPError.sendTimeout f) := by
  induction ins generalizing s with
  | nil => exact ⟨s, rfl, hn, rfl, rfl⟩
  | cons i ins ih =>
    obtain ⟨hr0, hr1⟩ := reuse_head k s.1.cmdCounter i ins h.2.2.2.2 hreuse
    have hins' : ∀ j ∈ ins, j.Constructed := fun j hj => hins j (List.mem_cons_of_mem _ hj)
    have hack' : ∀ x, Input.chk x ∈ ins → x.Sequence ≠ k :=
      fun x hx => hack x (List.mem_cons_of_mem _ hx)
    cases ht : i.isTick with
    | true =>
      cases i with
      | tick now =>
        obtain ⟨hI, hcnt, hq, -, -⟩ := slot_tick k f s now h
        obtain ⟨q1, q2, q3⟩ := hq hn
        have hr1' : ∀ n, n < (ins.filter Input.isCommand).length →
            ((ProcessPendingPackets.caseTick s.1 s.2 now).1.cmdCounter + n) % 256 ≠ k := by
          intro n hn'
          have := hr1 n hn'
          simp only [Input.isCommand, Bool.false_eq_true, if_false, Nat.add_zero,
            Nat.mod_eq_of_lt h.2.2.2.2] at this
          rw [hcnt]
          exact this
        obtain ⟨t, e, a, b, c⟩ := ih _ hI q1 hins' hack' hr1'
        refine ⟨t, ?_, a, b.trans q2, c.trans q3⟩
        rw [run_tick]
        exact e
      | out q => simp [Input.isTick] at ht
      | chk x => simp [Input.isTick] at ht
    | false =>
      obtain ⟨s1, e1, hI, hcnt, q1, -, q2, q3⟩ := slot_other_step k f s i h (Or.inr hn)
        (hins i (List.mem_cons_self _ _)) ht
        (fun x hx => hack x (hx ▸ List.mem_cons_self _ _)) hr0
      obtain ⟨t, e, a, b, c⟩ := ih s1 hI (q1.trans hn) hins' hack' (by rw [hcnt]; exact hr1)
      refine ⟨t, ?_, a, b.trans q2, c.trans q3⟩
      rw [run_cons, e1, Option.some_bind]
      exact e

/-- The frame `f` of slot `k`, from a state in which it is pending, through any run in which
it is not acknowledged and the counter does not come round to `k`. -/
theorem slot_pending_run (k : Nat) (f : List Nat) (ins : List Input) (s : UDPClient × Pending)
    (h : SlotInv k f s) (hf : s.2.pending k = some f)
    (hins : ∀ i ∈ ins, i.Constructed)
    (hack : ∀ x, Input.chk x ∈ ins → x.Sequence ≠ k)
    (hreuse : ∀ n, n < (ins.filter Input.isCommand).length →
      (s.1.cmdCounter + n) % 256 ≠ k) :
    ∃ t, ProcessPendingPackets.run s ins = some t ∧
      t.1.con.written.count f = s.1.con.written.count f +
        min (ins.filter Input.isTick).length (5 - s.2.pendingRetries k) ∧
      t.1.Err.count (UDPError.sendTimeout f) = s.1.Err.count (UDPError.sendTimeout f) +
        (if 5 - s.2.pendingRetries k < (ins.filter Input.isTick).length then 1 else 0) ∧
      t.2.pending k =
        (if 5 - s.2.pendingRetries k < (ins.filter Input.isTick).length then none
          else some f) := by
  induction ins generalizing s with
  | nil => exact ⟨s, rfl, by simp, by simp, by simpa using hf⟩
  | cons i ins ih =>
    obtain ⟨hr0, hr1⟩ := reuse_head k s.1.cmdCounter i ins h.2.2.2.2 hreuse
    have hins' : ∀ j ∈ ins, j.Constructed := fun j hj => hins j (List.mem_cons_of_mem _ hj)
    have hack' : ∀ x, Input.chk x ∈ ins → x.Sequence ≠ k :=
      fun x hx => hack x (List.mem_cons_of_mem _ hx)
    cases ht : i.isTick with
    | true =>
      cases i with
      | tick now =>
        obtain ⟨hI, hcnt, -, hretry, htimeout⟩ := slot_tick k f s now h
        have hr1' : ∀ n, n < (ins.filter Input.isCommand).length →
            ((ProcessPendingPackets.caseTick s.1 s.2 now).1.cmdCounter + n) % 256 ≠ k := by
          intro n hn'
          have := hr1 n hn'
          simp only [Input.isCommand, Bool.false_eq_true, if_false, Nat.add_zero,
            Nat.mod_eq_of_lt h.2.2.2.2] at this
          rw [hcnt]
          exact this
        have hlen : ((Input.tick now :: ins).filter Input.isTick).length =
            (ins.filter Input.isTick).length + 1 := by
          simp [List.filter_cons, Input.isTick]
        rw [hlen, run_tick]
        by_cases h5 : s.2.pendingRetries k < 5
        · obtain ⟨q1, q2, q3, q4⟩ := hretry hf h5
          obtain ⟨t, e, a, b, c⟩ := ih _ hI q1 hins' hack' hr1'
          rw [q2, q3] at a
          rw [q2, q4] at b
          rw [q2] at c
          refine ⟨t, e, ?_, ?_, ?_⟩
          · rw [a]; omega
          · rw [b]
            by_cases hx : 5 - (s.2.pendingRetries k + 1) < (ins.filter Input.isTick).length
            · rw [if_pos hx, if_pos (by omega)]
            · rw [if_neg hx, if_neg (by omega)]
          · rw [c]
            by_cases hx : 5 - (s.2.pendingRetries k + 1) < (ins.filter Input.isTick).length
            · rw [if_pos hx, if_pos (by omega)]
            · rw [if_neg hx, if_neg (by omega)]
        · obtain ⟨q1, q2, q3⟩ := htimeout hf h5
          obtain ⟨t, e, a, b, c⟩ := slot_quiet_run k f ins _ hI q1 hins' hack' hr1'
          refine ⟨t, e, ?_, ?_, ?_⟩
          · rw [b, q2]; omega
          · rw [c, q3, if_pos (by omega)]
          · rw [a, if_pos (by omega)]
      | out q => simp [Input.isTick] at ht
      | chk x => simp [Input.isTick] at ht
    | false =>
      obtain ⟨s1, e1, hI, hcnt, q1, q2, q3, q4⟩ := slot_other_step k f s i h (Or.inl hf)
        (hins i (List.mem_cons_self _ _)) ht
        (fun x hx => hack x (hx ▸ List.mem_cons_self _ _)) hr0
      obtain ⟨t, e, a, b, c⟩ := ih s1 hI (q1.trans hf) hins' hack' (by rw [hcnt]; exact hr1)
      have hlen : ((i :: ins).filter Input.isTick).length =
          (ins.filter Input.isTick).length := by
        simp [List.filter_cons, ht]
      rw [hlen]
      rw [q2, q3] at a
      rw [q2, q4] at b
      rw [q2] at c
      refine ⟨t, ?_, a, b, c⟩
      rw [run_cons, e1, Option.some_bind]
      exact e

/-! ## Claims about retries -/

/-- C11, amended.  Bounded retries: let the command frame `f` (type byte 1, sequence byte
`k`) be stored in pending slot `k`, in a table whose frames all carry their slot index at
offset 8.
Then under every sequence of writer steps (dequeues of constructor-built packets, reply
notifications, ticks) in which `f` is not acknowledged (no reply notification carries
sequence `k`) and the command counter does not come round to `k` again, the run does not
panic and `f` is written to the socket at most 6 times: exactly once on each tick while the
retry count of the slot is below 5.  On the tick after the last of them the send timeout of
`f` is sent on `Err` once and the slot is emptied; no later step writes or reports `f`
again. -/
theorem bounded_retries (k : Nat) (f : List Nat) (s : UDPClient × Pending) (ins : List Input)
    (h : SlotInv k f s) (hf : s.2.pending k = some f)
    (hins : ∀ i ∈ ins, i.Constructed)
    (hack : ∀ x, Input.chk x ∈ ins → x.Sequence ≠ k)
    (hreuse : ∀ n, n < (ins.filter Input.isCommand).length →
      (s.1.cmdCounter + n) % 256 ≠ k) :
    ∃ t, ProcessPendingPackets.run s ins = some t ∧
      t.1.con.written.count f ≤ s.1.con.written.count f + 6 ∧
      t.1.con.written.count f = s.1.con.written.count f +
        min (ins.filter Input.isTick).length (5 - s.2.pendingRetries k) ∧
      t.1.Err.count (UDPError.sendTimeout f) = s.1.Err.count (UDPError.sendTimeout f) +
        (if 5 - s.2.pendingRetries k < (ins.filter Input.isTick).length then 1 else 0) ∧
      t.2.pending k =
        (if 5 - s.2.pendingRetries k < (ins.filter Input.isTick).length then none
          else some f) := by
  obtain ⟨t, e, a, b, c⟩ := slot_pending_run k f ins s h hf hins hack hreuse
  exact ⟨t, e, by rw [a]; omega, a, b, c⟩

/-- Witness of `bounded_retries`: slot 0 of `wrapTable` through `retryRun`. -/
theorem bounded_retries_witness :
    (SlotInv 0 (referenceFrame [0x42, 0x45] [0xFF, 0x01, 0, 0x62]) retryStart ∧
      retryStart.2.pending 0 = some (referenceFrame [0x42, 0x45] [0xFF, 0x01, 0, 0x62]) ∧
      (∀ i ∈ retryRun, i.Constructed) ∧
      (∀ x, Input.chk x ∈ retryRun → x.Sequence ≠ 0) ∧
      (∀ n, n < (retryRun.filter Input.isCommand).length →
        (retryStart.1.cmdCounter + n) % 256 ≠ 0)) ∧
    (∃ t, ProcessPendingPackets.run retryStart retryRun = some t ∧
      t.1.con.written.count (referenceFrame [0x42, 0x45] [0xFF, 0x01, 0, 0x62]) ≤
        retryStart.1.con.written.count (referenceFrame [0x42, 0x45] [0xFF, 0x01, 0, 0x62]) + 6 ∧
      t.1.con.written.count (referenceFrame [0x42, 0x45] [0xFF, 0x01, 0, 0x62]) =
        retryStart.1.con.written.count (referenceFrame [0x42, 0x45] [0xFF, 0x01, 0, 0x62]) +
          min (retryRun.filter Input.isTick).length (5 - retryStart.2.pendingRetries 0) ∧
      t.1.Err.count (UDPError.sendTimeout (referenceFrame [0x42, 0x45] [0xFF, 0x01, 0, 0x62])) =
        retryStart.1.Err.count
            (UDPError.sendTimeout (referenceFrame [0x42, 0x45] [0xFF, 0x01, 0, 0x62])) +
          (if 5 - retryStart.2.pendingRetries 0 < (retryRun.filter Input.isTick).length
            then 1 else 0) ∧
      t.2.pending 0 =
        (if 5 - retryStart.2.pendingRetries 0 < (retryRun.filter Input.isTick).length then none
          else some (referenceFrame [0x42, 0x45] [0xFF, 0x01, 0, 0x62]))) :=
  have hinv : SlotInv 0 (referenceFrame [0x42, 0x45] [0xFF, 0x01, 0, 0x62]) retryStart := by
    refine ⟨by decide, by simp [referenceFrame, littleEndian32],
      by simp [referenceFrame, littleEndian32], ?_, by decide⟩
    intro j g hg
    simp only [retryStart, wrapTable] at hg
    split at hg
    · cases hg; subst j; simp [referenceFrame, littleEndian32]
    · split at hg
      · cases hg; subst j; simp [referenceFrame, littleEndian32]
      · cases hg
  have hins : ∀ i ∈ retryRun, i.Constructed := by decide
  have hack : ∀ x, Input.chk x ∈ retryRun → x.Sequence ≠ 0 := by
    intro x hx
    simp [retryRun] at hx
    subst hx
    decide
  have hreuse : ∀ n, n < (retryRun.filter Input.isCommand).length →
      (retryStart.1.cmdCounter + n) % 256 ≠ 0 := by
    intro n hn
    have h0 : n = 0 := by
      simp [retryRun, Input.isCommand] at hn
      exact hn
    subst h0
    decide
  ⟨⟨hinv, rfl, hins, hack, hreuse⟩,
    bounded_retries 0 (referenceFrame [0x42, 0x45] [0xFF, 0x01, 0, 0x62]) retryStart retryRun
      hinv rfl hins hack hreuse⟩

/-- C12, refuted as stated: a command dequeued into a fresh table is not written to the
socket when it is dequeued, and after six ticks its frame has been written five times, not
six, before the send timeout is reported and the slot cleared. -/
theorem retry_schedule_counterexample :
    ∃ s0 s6, ProcessPendingPackets.run (Listen.reset NewUDPClient 0, Pending.init)
        [.out (.ClientCommand NewBEClientCommand)] = some s0 ∧
      s0.1.con.written = [] ∧
      ProcessPendingPackets.run (Listen.reset NewUDPClient 0, Pending.init)
        (.out (.ClientCommand NewBEClientCommand) ::
          [Second, 2 * Second, 3 * Second, 4 * Second, 5 * Second, 6 * Second].map
            Input.tick) = some s6 ∧
      s6.1.con.written = List.replicate 5 (beatFrame 0) ∧
      s6.1.Err = [UDPError.sendTimeout (beatFrame 0)] ∧ s6.2.pending 0 = none := by
  obtain ⟨s0, e0, w0, -, -⟩ := command_then_ticks (Listen.reset NewUDPClient 0)
    NewBEClientCommand [] (by decide) (by decide)
  obtain ⟨s6, e6, w6, r6, p6⟩ := command_then_ticks (Listen.reset NewUDPClient 0)
    NewBEClientCommand [Second, 2 * Second, 3 * Second, 4 * Second, 5 * Second, 6 * Second]
    (by decide) (by decide)
  exact ⟨s0, s6, e0, w0, e6, w6, r6, p6⟩

/-- C12, as the code has it (scenario S6): a command dequeued into a fresh pending table and
never acknowledged is not written when it is dequeued; its frame is written once on each of
the next five ticks (five times in all), on the sixth tick the send timeout for it is sent
on `Err` once and its slot is cleared, and later ticks do nothing. -/
theorem retry_schedule_starts_at_first_tick (u : UDPClient) (p : BEClientCommand)
    (times : List Nat) (hp : (BEPacket.ClientCommand p).Constructed)
    (hc : u.cmdCounter < 256) :
    ∃ s, ProcessPendingPackets.run (u, Pending.init)
        (.out (.ClientCommand p) :: times.map Input.tick) = some s ∧
      s.1.con.written = u.con.written ++ List.replicate (min times.length 5)
        (referenceFrame [0x42, 0x45] ([0xFF, 0x01, u.cmdCounter] ++ p.Command)) ∧
      s.1.Err = u.Err ++ (if 6 ≤ times.length then [UDPError.sendTimeout
        (referenceFrame [0x42, 0x45] ([0xFF, 0x01, u.cmdCounter] ++ p.Command))] else []) ∧
      s.2.pending u.cmdCounter = (if 6 ≤ times.length then none else some
        (referenceFrame [0x42, 0x45] ([0xFF, 0x01, u.cmdCounter] ++ p.Command))) :=
  command_then_ticks u p times hp hc

/-- Witness of `retry_schedule_starts_at_first_tick`: the empty command after a reset, and
seven ticks. -/
theorem retry_schedule_starts_at_first_tick_witness :
    ((BEPacket.ClientCommand NewBEClientCommand).Constructed ∧
      (Listen.reset NewUDPClient 0).cmdCounter < 256) ∧
    (∃ s, ProcessPendingPackets.run (Listen.reset NewUDPClient 0, Pending.init)
        (.out (.ClientCommand NewBEClientCommand) ::
          [1, 2, 3, 4, 5, 6, 7].map Input.tick) = some s ∧
      s.1.con.written = (Listen.reset NewUDPClient 0).con.written ++
        List.replicate (min [1, 2, 3, 4, 5, 6, 7].length 5)
          (referenceFrame [0x42, 0x45]
            ([0xFF, 0x01, (Listen.reset NewUDPClient 0).cmdCounter] ++
              NewBEClientCommand.Command)) ∧
      s.1.Err = (Listen.reset NewUDPClient 0).Err ++
        (if 6 ≤ [1, 2, 3, 4, 5, 6, 7].length then [UDPError.sendTimeout
          (referenceFrame [0x42, 0x45]
            ([0xFF, 0x01, (Listen.reset NewUDPClient 0).cmdCounter] ++
              NewBEClientCommand.Command))] else []) ∧
      s.2.pending (Listen.reset NewUDPClient 0).cmdCounter =
        (if 6 ≤ [1, 2, 3, 4, 5, 6, 7].length then none else some
          (referenceFrame [0x42, 0x45]
            ([0xFF, 0x01, (Listen.reset NewUDPClient 0).cmdCounter] ++
              NewBEClientCommand.Command)))) :=
  ⟨⟨by decide, by decide⟩,
    retry_schedule_starts_at_first_tick (Listen.reset NewUDPClient 0) NewBEClientCommand
      [1, 2, 3, 4, 5, 6, 7] (by decide) (by decide)⟩

set_option maxRecDepth 100000 in
/-- C20, the code on a reused slot: the first command after a reset is given sequence 0,
written on the next tick and acknowledged, which leaves retry count 1 in slot 0; after the
next reset of the counter the next command is stored in slot 0 and its retry count is 1,
not 0, at that moment. -/
theorem stored_command_keeps_old_retry_count :
    ∃ s1 s2, ProcessPendingPackets.run (Listen.reset NewUDPClient 0, Pending.init)
        (ackedCommand 0) = some s1 ∧
      s1.2.pending 0 = none ∧ s1.2.pendingRetries 0 = 1 ∧
      ProcessPendingPackets.run (Listen.reset s1.1 Second, s1.2)
        [.out (.ClientCommand NewBEClientCommand)] = some s2 ∧
      s2.2.pending 0 = some (beatFrame 0) ∧ s2.2.pendingRetries 0 = 1 :=
  ⟨_, _, rfl, rfl, rfl, rfl, rfl, rfl⟩

end udp

namespace main

open battleye

/-! ## `concatPackets`: the loops over a slot -/

theorem Itoa_Atoi : ∀ m < 100, Itoa (m : Nat) ≠ [] ∧ toByte (Atoi (Itoa (m : Nat))) = m := by
  decide

theorem byteLoop_ok {σ : Type} (n : Nat) (body : σ → Nat → Option σ) (s s' : σ) (hn : n < 255)
    (h : (List.range' 1 n).foldlM body s = some s') : byteLoop n body s = .ok s' := by
  unfold byteLoop
  rw [Nat.min_eq_left (by omega), h]
  simp [hn]

theorem readLoop_spec (c : List Nat) (body : List (List Nat)) (n : Nat) (hn : n ≤ body.length)
    (acc : List Nat) :
    (List.range' 1 n).foldlM (fun result i => ((c :: body)[i]?).map (fun v => result ++ v)) acc
      = some (acc ++ (body.take n).flatten) := by
  induction n with
  | zero => simp
  | succ n ih =>
    rw [List.range'_1_concat, List.foldlM_append, ih (by omega)]
    have hlt : n < body.length := by omega
    rw [Nat.add_comm 1 n]
    simp only [List.foldlM_cons, List.foldlM_nil, bind, Option.bind, pure,
      List.getElem?_cons_succ, List.getElem?_eq_getElem hlt, Option.map]
    rw [List.take_succ, List.getElem?_eq_getElem hlt]
    simp only [Option.toList, List.flatten_append, List.flatten_cons, List.flatten_nil,
      List.append_nil, List.append_assoc]

theorem clearLoop_spec (c : List Nat) (body : List (List Nat)) (n : Nat)
    (hn : n ≤ body.length) :
    (List.range' 1 n).foldlM (fun slot i => setString slot i []) (c :: body)
      = some (c :: (List.replicate n [] ++ body.drop n)) := by
  induction n with
  | zero => simp
  | succ n ih =>
    rw [List.range'_1_concat, List.foldlM_append, ih (by omega)]
    have hlt : n < body.length := by omega
    rw [Nat.add_comm 1 n]
    have hl : n + 1 < (c :: (List.replicate n [] ++ List.drop n body)).length := by
      simp; omega
    simp only [List.foldlM_cons, List.foldlM_nil, bind, Option.bind, setString, hl, if_true,
      pure]
    congr 1
    rw [List.set_cons_succ]
    congr 1
    apply List.ext_getElem?
    intro i
    rw [List.getElem?_set]
    by_cases hi : i < n
    · simp [List.getElem?_append_left, hi, Nat.lt_succ_of_lt hi, Nat.ne_of_gt hi]
    · by_cases hin : i = n
      · subst hin
        simp [List.getElem?_append_left, List.getElem?_append_right, hlt]
      · have h1 : n ≤ i := by omega
        have h2 : n + 1 ≤ i := by omega
        rw [if_neg (by omega), List.getElem?_append_right (by simpa using h1),
          List.getElem?_append_right (by simpa using h2)]
        simp only [List.length_replicate, List.getElem?_drop]
        congr 1
        omega

/-- What `concatPackets` does with a fragment whose index and total fit the slot. -/
theorem fragment_spec (c : List Nat) (body : List (List Nat)) (h : BEOptionalHeader)
    (response : List Nat) (hlen : body.length = 99) (hidx : h.Index < 99)
    (htot : h.NumberOfPackets ≤ 99) :
    concatPackets.fragment (c :: body) h response =
      if (toByte (Atoi (if c = [] then [0x30] else c)) + 1) % 256 ≥ h.NumberOfPackets then
        .ok (Itoa 0 :: (List.replicate h.NumberOfPackets [] ++
              (body.set h.Index response).drop h.NumberOfPackets),
            [((body.set h.Index response).take h.NumberOfPackets).flatten])
      else
        .ok (Itoa ((toByte (Atoi (if c = [] then [0x30] else c)) + 1) % 256 : Nat) ::
              body.set h.Index response, []) := by
  have hmod : (h.Index + 1) % 256 = h.Index + 1 := Nat.mod_eq_of_lt (by omega)
  have hset : ∀ d : List Nat, setString (d :: body) (h.Index + 1) response =
      some (d :: body.set h.Index response) := by
    intro d
    unfold setString
    rw [if_pos (by simp; omega)]
    rfl
  have hlen' : (body.set h.Index response).length = 99 := by simp [hlen]
  have hset0 : ∀ (d v : List Nat) (l : List (List Nat)),
      setString (d :: l) 0 v = some (v :: l) := by
    intro d v l
    unfold setString
    rw [if_pos (by simp)]
    rfl
  unfold concatPackets.fragment
  by_cases hc : c = []
  · subst hc
    simp only [List.getElem?_cons_zero, Run.ofOption, Run.bind, if_true, hset0, hset, hmod]
    split
    · rw [byteLoop_ok _ _ _ _ (by omega) (readLoop_spec _ _ _ (by omega) _),
        byteLoop_ok _ _ _ _ (by omega) (clearLoop_spec _ _ _ (by omega))]
      simp [hset0]
    · simp [hset0]
  · simp only [List.getElem?_cons_zero, Run.ofOption, Run.bind, hc, if_false, hset0, hset, hmod]
    split
    · rw [byteLoop_ok _ _ _ _ (by omega) (readLoop_spec _ _ _ (by omega) _),
        byteLoop_ok _ _ _ _ (by omega) (clearLoop_spec _ _ _ (by omega))]
      simp [hset0]
    · simp [hset0]

/-! ## `concatPackets`: a message whose fragments fit the slot -/

theorem concat_run_append (s : List (List (List Nat)) × List (List Nat))
    (xs ys : List BEServerCommand) :
    concatPackets.run s (xs ++ ys) =
      (concatPackets.run s xs).bind (fun t => concatPackets.run t ys) := by
  induction xs generalizing s with
  | nil => rfl
  | cons x xs ih =>
    simp only [List.cons_append, concatPackets.run]
    cases concatPackets.step s x with
    | ok t => exact ih t
    | panic => rfl
    | hang => rfl

/-- The case `p := <-c` for a fragment, on a buffer whose slot `seq` is `slot`. -/
theorem step_fragment (b : List (List (List Nat))) (out : List (List Nat)) (seq total i : Nat)
    (payload : List Nat) (slot : List (List Nat)) (hseq : seq < b.length) :
    concatPackets.step (b.set seq slot, out) (fragmentOf seq total i payload) =
      (concatPackets.fragment slot
          { MagicByte := 0x00, NumberOfPackets := total, Index := i } payload).bind
        (fun r => .ok (b.set seq r.1, out ++ r.2)) := by
  unfold concatPackets.step fragmentOf
  simp only [List.getElem?_set_self hseq, Run.ofOption, Run.bind, List.set_set]

/-- Fragments that do not complete the message are stored and counted; nothing is sent. -/
theorem run_prefix (b : List (List (List Nat))) (out : List (List Nat)) (seq : Nat)
    (payloads : List (List Nat)) (hseq : seq < b.length) (h99 : payloads.length ≤ 99)
    (todo seen : List Nat) (slot : List (List Nat)) (hslot : Collected payloads seen slot)
    (hidx : ∀ i ∈ todo, i < payloads.length)
    (hcount : seen.length + todo.length < payloads.length) :
    ∃ slot', concatPackets.run (b.set seq slot, out) (fragmentsOf seq payloads todo) =
        .ok (b.set seq slot', out) ∧ Collected payloads (todo.reverse ++ seen) slot' := by
  induction todo generalizing seen slot with
  | nil => exact ⟨slot, rfl, by simpa using hslot⟩
  | cons idx rest ih =>
    obtain ⟨c, body, rfl, hlen, hcnt, hbody⟩ := hslot
    have hi : idx < payloads.length := hidx idx (List.mem_cons_self _ _)
    have hctr : (toByte (Atoi (if c = [] then [0x30] else c)) + 1) % 256 = seen.length + 1 := by
      rw [hcnt]
      simp only [List.length_cons] at hcount
      exact Nat.mod_eq_of_lt (by omega)
    have hfrag := fragment_spec c body
      { MagicByte := 0x00, NumberOfPackets := payloads.length, Index := idx }
      ((payloads[idx]?).getD []) hlen (by simp only; omega) h99
    simp only [hctr] at hfrag
    rw [if_neg (by simp only [List.length_cons] at hcount; omega)] at hfrag
    have hnext : Collected payloads (idx :: seen)
        (Itoa ((seen.length + 1 : Nat) : Int) :: body.set idx ((payloads[idx]?).getD [])) := by
      refine ⟨_, _, rfl, by simp [hlen], ?_, ?_⟩
      · have hm : seen.length + 1 < 100 := by
          simp only [List.length_cons] at hcount
          omega
        obtain ⟨h1, h2⟩ := Itoa_Atoi (seen.length + 1) hm
        rw [if_neg h1, h2]
        rfl
      · intro i hi99
        rw [List.getElem?_set]
        by_cases hii : idx = i
        · subst hii
          simp [hlen, hi99]
        · rw [if_neg hii, hbody i hi99]
          have : (i ∈ idx :: seen) ↔ i ∈ seen := by
            rw [List.mem_cons]
            exact ⟨fun h => h.elim (fun e => absurd e.symm hii) id, Or.inr⟩
          simp only [this]
    obtain ⟨slot', e, hcol⟩ := ih (idx :: seen) _ hnext
      (fun i hi' => hidx i (List.mem_cons_of_mem _ hi'))
      (by simp only [List.length_cons] at hcount ⊢; omega)
    refine ⟨slot', ?_, ?_⟩
    · unfold fragmentsOf
      rw [List.map_cons]
      show (concatPackets.step _ _).bind _ = _
      rw [step_fragment b out seq _ _ _ _ hseq, hfrag]
      simp only [Run.bind, List.append_nil]
      exact e
    · rw [List.reverse_cons, List.append_assoc]
      exact hcol

theorem set_same (b : List (List (List Nat))) (seq : Nat) (slot : List (List Nat))
    (h : b[seq]? = some slot) : b.set seq slot = b := by
  apply List.ext_getElem?
  intro i
  rw [List.getElem?_set]
  by_cases hi : seq = i
  · subst hi
    rw [if_pos rfl, h]
    have : seq < b.length := by
      by_contra hlt
      rw [List.getElem?_eq_none (by omega)] at h
      cases h
    simp [this]
  · rw [if_neg hi]

theorem getElem?_lt_of_some {α : Type} (l : List α) (i : Nat) (a : α) (h : l[i]? = some a) :
    i < l.length := by
  by_contra hlt
  rw [List.getElem?_eq_none (by omega)] at h
  cases h

/-- The fragment that completes the message: the concatenation is sent and the slot is
cleared. -/
theorem step_last (b : List (List (List Nat))) (out : List (List Nat)) (seq : Nat)
    (payloads : List (List Nat)) (hseq : seq < b.length) (h99 : payloads.length ≤ 99)
    (idx : Nat) (seen : List Nat) (slot : List (List Nat))
    (hslot : Collected payloads seen slot)
    (hcount : seen.length + 1 = payloads.length)
    (hall : ∀ i, i < payloads.length → i ∈ idx :: seen)
    (hseen : ∀ i ∈ idx :: seen, i < payloads.length) :
    concatPackets.step (b.set seq slot, out)
        (fragmentOf seq payloads.length idx ((payloads[idx]?).getD [])) =
      .ok (b.set seq ([0x30] :: List.replicate 99 []), out ++ [payloads.flatten]) := by
  obtain ⟨c, body, rfl, hlen, hcnt, hbody⟩ := hslot
  have hi : idx < payloads.length := hseen idx (List.mem_cons_self _ _)
  have hctr : (toByte (Atoi (if c = [] then [0x30] else c)) + 1) % 256 = payloads.length := by
    rw [hcnt, hcount]
    exact Nat.mod_eq_of_lt (by omega)
  have hfrag := fragment_spec c body
    { MagicByte := 0x00, NumberOfPackets := payloads.length, Index := idx }
    ((payloads[idx]?).getD []) hlen (by simp only; omega) h99
  simp only [hctr] at hfrag
  rw [if_pos (Nat.le_refl _)] at hfrag
  have hnew : ∀ i, i < 99 → (body.set idx ((payloads[idx]?).getD []))[i]? =
      some (if i < payloads.length then (payloads[i]?).getD [] else []) := by
    intro i hi99
    rw [List.getElem?_set]
    by_cases hii : idx = i
    · subst hii
      simp [hlen, hi99, hi]
    · rw [if_neg hii, hbody i hi99]
      by_cases hin : i < payloads.length
      · have hmem : i ∈ seen := by
          rcases List.mem_cons.mp (hall i hin) with e | e
          · exact absurd e.symm hii
          · exact e
        rw [if_pos hmem, if_pos hin]
      · have hmem : i ∉ seen := fun e => hin (hseen i (List.mem_cons_of_mem _ e))
        rw [if_neg hmem, if_neg hin]
  have htake : (body.set idx ((payloads[idx]?).getD [])).take payloads.length = payloads := by
    apply List.ext_getElem?
    intro i
    by_cases hin : i < payloads.length
    · rw [List.getElem?_take_of_lt hin, hnew i (by omega), if_pos hin,
        List.getElem?_eq_getElem hin]
      rfl
    · rw [List.getElem?_eq_none (by simp [hlen]; omega), List.getElem?_eq_none (by omega)]
  have hclear : List.replicate payloads.length [] ++
      (body.set idx ((payloads[idx]?).getD [])).drop payloads.length =
        List.replicate 99 [] := by
    apply List.ext_getElem?
    intro i
    by_cases hi99 : i < 99
    · rw [List.getElem?_replicate_of_lt hi99]
      by_cases hin : i < payloads.length
      · rw [List.getElem?_append_left (by simpa using hin),
          List.getElem?_replicate_of_lt hin]
      · rw [List.getElem?_append_right (by simpa using Nat.le_of_not_lt hin)]
        simp only [List.length_replicate, List.getElem?_drop]
        have e : payloads.length + (i - payloads.length) = i := by omega
        rw [e, hnew i hi99, if_neg hin]
    · rw [List.getElem?_eq_none (by simp [hlen]; omega),
        List.getElem?_eq_none (by simp; omega)]
  rw [htake, hclear] at hfrag
  rw [step_fragment b out seq _ _ _ _ hseq, hfrag]
  rfl

theorem collected_empty (payloads : List (List Nat)) (c : List Nat)
    (hc : c = [] ∨ c = [0x30]) : Collected payloads [] (c :: List.replicate 99 []) := by
  refine ⟨c, _, rfl, by simp, ?_, ?_⟩
  · rcases hc with rfl | rfl <;> decide
  · intro i hi
    rw [List.getElem?_replicate_of_lt hi]
    simp

/-- A message whose fragments arrive once each, in the order `order`: nothing is sent before
the last fragment, which sends the concatenation and clears the slot. -/
theorem run_each_once (b : List (List (List Nat))) (out : List (List Nat)) (seq : Nat)
    (payloads : List (List Nat)) (order : List Nat) (c : List Nat)
    (hslot : b[seq]? = some (c :: List.replicate 99 [])) (hc : c = [] ∨ c = [0x30])
    (h99 : payloads.length ≤ 99)
    (hperm : order.Perm (List.range payloads.length)) :
    (1 ≤ payloads.length →
      concatPackets.run (b, out) (fragmentsOf seq payloads order) =
        .ok (b.set seq ([0x30] :: List.replicate 99 []), out ++ [payloads.flatten])) ∧
    ∀ j, j < payloads.length →
      ∃ b', concatPackets.run (b, out) (fragmentsOf seq payloads (order.take j)) =
        .ok (b', out) := by
  have hseq : seq < b.length := getElem?_lt_of_some b seq _ hslot
  have hb : b.set seq (c :: List.replicate 99 []) = b := set_same b seq _ hslot
  have hmem : ∀ i, i ∈ order ↔ i < payloads.length := by
    intro i
    rw [hperm.mem_iff, List.mem_range]
  have hlen : order.length = payloads.length := by
    rw [hperm.length_eq, List.length_range]
  refine ⟨?_, ?_⟩
  · intro h1
    rcases List.eq_nil_or_concat order with e | ⟨init, last, e⟩
    · subst e
      simp at hlen
      omega
    · rw [List.concat_eq_append] at e
      subst e
      have hlen' : init.length + 1 = payloads.length := by
        rw [← hlen]
        simp
      obtain ⟨slot', e1, hcol⟩ := run_prefix b out seq payloads hseq h99 init []
        (c :: List.replicate 99 []) (collected_empty payloads c hc)
        (fun i hi => (hmem i).mp (List.mem_append_left _ hi))
        (by simp only [List.length_nil]; omega)
      rw [hb] at e1
      have hstep := step_last b out seq payloads hseq h99 last (init.reverse ++ []) slot' hcol
        (by simp only [List.append_nil, List.length_reverse]; exact hlen')
        (fun i hi => by
          have := (hmem i).mpr hi
          simp only [List.mem_append, List.mem_singleton] at this
          simp only [List.append_nil, List.mem_cons, List.mem_reverse]
          exact this.symm)
        (fun i hi => by
          apply (hmem i).mp
          simp only [List.append_nil, List.mem_cons, List.mem_reverse] at hi
          simp only [List.mem_append, List.mem_singleton]
          exact hi.symm)
      have hsplit : fragmentsOf seq payloads (init ++ [last]) =
          fragmentsOf seq payloads init ++
            [fragmentOf seq payloads.length last ((payloads[last]?).getD [])] := by
        simp [fragmentsOf]
      rw [hsplit, concat_run_append, e1]
      show concatPackets.run _ [_] = _
      show (concatPackets.step _ _).bind _ = _
      rw [hstep]
      rfl
  · intro j hj
    obtain ⟨slot', e1, -⟩ := run_prefix b out seq payloads hseq h99 (order.take j) []
      (c :: List.replicate 99 []) (collected_empty payloads c hc)
      (fun i hi => (hmem i).mp (List.mem_of_mem_take hi))
      (by
        simp only [List.length_nil, List.length_take, Nat.zero_add]
        omega)
    rw [hb] at e1
    exact ⟨_, e1⟩

/-- The case `p := <-c` for a fragment with index below its total and total at most 99, on a
slot of 100 strings. -/
theorem step_in_capacity (b : List (List (List Nat))) (out : List (List Nat))
    (p : BEServerCommand) (h : BEOptionalHeader) (c : List Nat) (body : List (List Nat))
    (hh : p.OptionalHeader = some h) (hslot : b[p.Sequence]? = some (c :: body))
    (hlen : body.length = 99) (hidx : h.Index < h.NumberOfPackets)
    (htot : h.NumberOfPackets ≤ 99) :
    concatPackets.step (b, out) p =
      if (toByte (Atoi (if c = [] then [0x30] else c)) + 1) % 256 ≥ h.NumberOfPackets then
        .ok (b.set p.Sequence (Itoa 0 :: (List.replicate h.NumberOfPackets [] ++
              (body.set h.Index p.Response).drop h.NumberOfPackets)),
            out ++ [((body.set h.Index p.Response).take h.NumberOfPackets).flatten])
      else
        .ok (b.set p.Sequence
              (Itoa ((toByte (Atoi (if c = [] then [0x30] else c)) + 1) % 256 : Nat) ::
                body.set h.Index p.Response), out) := by
  unfold concatPackets.step
  simp only [hh, hslot, Run.ofOption, Run.bind]
  rw [fragment_spec c body h p.Response hlen (by omega) htot]
  by_cases hctr : (toByte (Atoi (if c = [] then [0x30] else c)) + 1) % 256 ≥ h.NumberOfPackets
  · simp only [if_pos hctr]
  · simp only [if_neg hctr, List.append_nil]

/-! ## Claims about reassembly -/

set_option maxRecDepth 100000 in
/-- C14, refuted as stated: the fragments `A` (index 0), `A` again and `B` (index 1) of a
two-fragment message cover both indices, yet what is sent is `A`, when the second arrival
is counted as the last fragment, and not `AB`. -/
theorem reassembly_duplicate_counterexample :
    ∃ b, concatPackets.run (packetbuffer, []) duplicatedFragments = .ok (b, [[0x41]]) ∧
      [[0x41]] ≠ [([[0x41], [0x42]] : List (List Nat)).flatten] :=
  ⟨_, rfl, by decide⟩

/-- C14, as the code has it: for every sequence whose slot is empty (element 0 empty or
`0`, the other 99 elements empty), every message of `N` fragments with `1 ≤ N ≤ 99` and
every arrival order in which each index `0..N-1` occurs exactly once, the reassembler sends
nothing for the first `N - 1` fragments and on the last one sends
`payload_0 ++ ... ++ payload_{N-1}`, once; afterwards the slot is empty again, with count
`0`, and the other slots are as before. -/
theorem reassembly_each_fragment_once (b : List (List (List Nat))) (out : List (List Nat))
    (seq : Nat) (payloads : List (List Nat)) (order : List Nat) (c : List Nat)
    (hslot : b[seq]? = some (c :: List.replicate 99 [])) (hc : c = [] ∨ c = [0x30])
    (h1 : 1 ≤ payloads.length) (h99 : payloads.length ≤ 99)
    (hperm : order.Perm (List.range payloads.length)) :
    concatPackets.run (b, out) (fragmentsOf seq payloads order) =
        .ok (b.set seq ([0x30] :: List.replicate 99 []), out ++ [payloads.flatten]) ∧
    ∀ j, j < payloads.length →
      ∃ b', concatPackets.run (b, out) (fragmentsOf seq payloads (order.take j)) =
        .ok (b', out) :=
  ⟨(run_each_once b out seq payloads order c hslot hc h99 hperm).1 h1,
    (run_each_once b out seq payloads order c hslot hc h99 hperm).2⟩

set_option maxRecDepth 100000 in
/-- Witness of `reassembly_each_fragment_once`: three fragments for sequence 5 arriving in
the order 2, 0, 1 at the fresh buffer. -/
theorem reassembly_each_fragment_once_witness :
    (packetbuffer[5]? = some ([] :: List.replicate 99 []) ∧
      (([] : List Nat) = [] ∨ ([] : List Nat) = [0x30]) ∧
      1 ≤ [[0x41], [0x42], [0x43]].length ∧ [[0x41], [0x42], [0x43]].length ≤ 99 ∧
      [2, 0, 1].Perm (List.range [[0x41], [0x42], [0x43]].length)) ∧
    (concatPackets.run (packetbuffer, []) (fragmentsOf 5 [[0x41], [0x42], [0x43]] [2, 0, 1]) =
        .ok (packetbuffer.set 5 ([0x30] :: List.replicate 99 []),
          [] ++ [[[0x41], [0x42], [0x43]].flatten]) ∧
    ∀ j, j < [[0x41], [0x42], [0x43]].length →
      ∃ b', concatPackets.run (packetbuffer, [])
          (fragmentsOf 5 [[0x41], [0x42], [0x43]] ([2, 0, 1].take j)) = .ok (b', [])) :=
  ⟨⟨rfl, Or.inl rfl, by decide, by decide, by decide⟩,
    reassembly_each_fragment_once packetbuffer [] 5 [[0x41], [0x42], [0x43]] [2, 0, 1] []
      rfl (Or.inl rfl) (by decide) (by decide) (by decide)⟩

set_option maxRecDepth 100000 in
/-- C15, refuted as stated: the fragment with index 99 of 100 for sequence 5, received at
the fresh buffer, makes the assignment `packetbuffer[5][100] = p.Response` and that index is
out of range. -/
theorem fragment_index_99_panics :
    concatPackets.step (packetbuffer, []) (fragmentOf 5 100 99 [0x42]) = .panic := rfl

/-- C15, as the code has it: a slot holds 100 strings, element 0 being the received count,
so the reassembler accepts every fragment with index below its total and total at most 99.
For such a fragment the case neither panics nor hangs and changes no other slot; the
payload goes to element `index + 1`; on completion the first `total` fragment elements are
concatenated, sent and cleared; and element 0 afterwards is the decimal count computed from
the old element 0 (`0` on completion), whatever the payload is. -/
theorem fragment_within_capacity (b : List (List (List Nat))) (out : List (List Nat))
    (p : BEServerCommand) (h : BEOptionalHeader) (c : List Nat) (body : List (List Nat))
    (hh : p.OptionalHeader = some h) (hslot : b[p.Sequence]? = some (c :: body))
    (hlen : body.length = 99) (hidx : h.Index < h.NumberOfPackets)
    (htot : h.NumberOfPackets ≤ 99) :
    concatPackets.step (b, out) p =
      if (toByte (Atoi (if c = [] then [0x30] else c)) + 1) % 256 ≥ h.NumberOfPackets then
        .ok (b.set p.Sequence (Itoa 0 :: (List.replicate h.NumberOfPackets [] ++
              (body.set h.Index p.Response).drop h.NumberOfPackets)),
            out ++ [((body.set h.Index p.Response).take h.NumberOfPackets).flatten])
      else
        .ok (b.set p.Sequence
              (Itoa ((toByte (Atoi (if c = [] then [0x30] else c)) + 1) % 256 : Nat) ::
                body.set h.Index p.Response), out) :=
  step_in_capacity b out p h c body hh hslot hlen hidx htot

set_option maxRecDepth 100000 in
/-- Witness of `fragment_within_capacity`: the first of two fragments for sequence 5 at the
fresh buffer. -/
theorem fragment_within_capacity_witness :
    ((fragmentOf 5 2 0 [0x41]).OptionalHeader =
        some { MagicByte := 0x00, NumberOfPackets := 2, Index := 0 } ∧
      packetbuffer[(fragmentOf 5 2 0 [0x41]).Sequence]? = some ([] :: List.replicate 99 []) ∧
      (List.replicate 99 ([] : List Nat)).length = 99 ∧
      ({ MagicByte := 0x00, NumberOfPackets := 2, Index := 0 } : BEOptionalHeader).Index <
        ({ MagicByte := 0x00, NumberOfPackets := 2, Index := 0 } : BEOptionalHeader).NumberOfPackets ∧
      ({ MagicByte := 0x00, NumberOfPackets := 2, Index := 0 } : BEOptionalHeader).NumberOfPackets
        ≤ 99) ∧
    concatPackets.step (packetbuffer, []) (fragmentOf 5 2 0 [0x41]) =
      (if (toByte (Atoi (if ([] : List Nat) = [] then [0x30] else [])) + 1) % 256 ≥
          ({ MagicByte := 0x00, NumberOfPackets := 2, Index := 0 } : BEOptionalHeader).NumberOfPackets
        then
          .ok (packetbuffer.set (fragmentOf 5 2 0 [0x41]).Sequence (Itoa 0 ::
              (List.replicate
                  ({ MagicByte := 0x00, NumberOfPackets := 2, Index := 0 } :
                    BEOptionalHeader).NumberOfPackets [] ++
                ((List.replicate 99 []).set
                  ({ MagicByte := 0x00, NumberOfPackets := 2, Index := 0 } :
                    BEOptionalHeader).Index (fragmentOf 5 2 0 [0x41]).Response).drop
                  ({ MagicByte := 0x00, NumberOfPackets := 2, Index := 0 } :
                    BEOptionalHeader).NumberOfPackets)),
            [] ++ [(((List.replicate 99 []).set
                  ({ MagicByte := 0x00, NumberOfPackets := 2, Index := 0 } :
                    BEOptionalHeader).Index (fragmentOf 5 2 0 [0x41]).Response).take
                  ({ MagicByte := 0x00, NumberOfPackets := 2, Index := 0 } :
                    BEOptionalHeader).NumberOfPackets).flatten])
        else
          .ok (packetbuffer.set (fragmentOf 5 2 0 [0x41]).Sequence
              (Itoa ((toByte (Atoi (if ([] : List Nat) = [] then [0x30] else [])) + 1) % 256 :
                  Nat) ::
                (List.replicate 99 []).set
                  ({ MagicByte := 0x00, NumberOfPackets := 2, Index := 0 } :
                    BEOptionalHeader).Index (fragmentOf 5 2 0 [0x41]).Response), [])) :=
  ⟨⟨rfl, rfl, by simp, by decide, by decide⟩,
    fragment_within_capacity packetbuffer [] (fragmentOf 5 2 0 [0x41])
      { MagicByte := 0x00, NumberOfPackets := 2, Index := 0 } [] (List.replicate 99 [])
      rfl rfl (by simp) (by decide) (by decide)⟩

end main

namespace remotecall

/-! ## The remotecall encoders -/

theorem RCHeader.Marshal_eq (b : RCHeader) :
    b.Marshal = if b.MagicBytes.length = 2 then .ok (b.MagicBytes ++ [b.Version, b.Spacer])
      else .error (.headerLength (b.MagicBytes.length + 2)) := by
  unfold RCHeader.Marshal
  by_cases h : b.MagicBytes.length = 2
  · simp [h]
  · have : ¬ b.MagicBytes.length + 1 + 1 = 4 := by omega
    simp [h, this]

/-! ## Claims about the remotecall encoders -/

/-- C25. Length accounting in the remotecall encoders: `RCServerQuery.Marshal` and
`RCServerQueryResult.Marshal` count the 4 header bytes a second time where the 2 bytes of
the query id belong (which are not written to the buffer), so with a well-formed header they
count 9 (plus the content) against 7 (plus the content); `RCClientHandshake.Marshal` and
`RCClientQuery.Marshal` count 5 plus the payload against 4 plus the payload.  All four
return an error for every packet, the header error when the magic is not 2 bytes long.
`RCServerHandshake.Marshal` succeeds exactly when the magic is 2 bytes long, with the 6
bytes magic, version, spacer, type, result. -/
theorem remotecall_encoders_length_check :
    (∀ b : RCServerQuery, b.Marshal =
      if b.Header.MagicBytes.length = 2 then .error (.packetLength 9)
      else .error (.headerLength (b.Header.MagicBytes.length + 2))) ∧
    (∀ b : RCServerQueryResult, b.Marshal =
      if b.Header.MagicBytes.length = 2 then .error (.packetLength (9 + b.Content.length))
      else .error (.headerLength (b.Header.MagicBytes.length + 2))) ∧
    (∀ b : RCClientHandshake, b.Marshal =
      if b.Header.MagicBytes.length = 2 then .error (.packetLength (5 + b.Password.length))
      else .error (.headerLength (b.Header.MagicBytes.length + 2))) ∧
    (∀ b : RCClientQuery, b.Marshal =
      if b.Header.MagicBytes.length = 2 then .error (.packetLength (5 + b.Content.length))
      else .error (.headerLength (b.Header.MagicBytes.length + 2))) ∧
    (∀ b : RCServerHandshake, b.Marshal =
      if b.Header.MagicBytes.length = 2 then
        .ok (b.Header.MagicBytes ++ [b.Header.Version, b.Header.Spacer, b.PacketType, b.Result])
      else .error (.headerLength (b.Header.MagicBytes.length + 2))) ∧
    NewRCServerHandshake.Marshal = .ok [0x52, 0x43, 0x01, 0xFF, 0x01, 0x00] := by
  refine ⟨?_, ?_, ?_, ?_, ?_, rfl⟩
  · intro b
    unfold RCServerQuery.Marshal
    rw [RCHeader.Marshal_eq]
    by_cases h : b.Header.MagicBytes.length = 2
    · simp [h]
    · simp [h]
  · intro b
    unfold RCServerQueryResult.Marshal
    rw [RCHeader.Marshal_eq]
    by_cases h : b.Header.MagicBytes.length = 2
    · simp [h]
    · simp [h]
  · intro b
    unfold RCClientHandshake.Marshal
    rw [RCHeader.Marshal_eq]
    by_cases h : b.Header.MagicBytes.length = 2
    · simp [h]
    · simp [h]
  · intro b
    unfold RCClientQuery.Marshal
    rw [RCHeader.Marshal_eq]
    by_cases h : b.Header.MagicBytes.length = 2
    · simp [h]
    · simp [h]
  · intro b
    unfold RCServerHandshake.Marshal
    rw [RCHeader.Marshal_eq]
    by_cases h : b.Header.MagicBytes.length = 2
    · simp [h]
    · simp [h]

end remotecall

namespace udp

open battleye

/-! ## The writer: a reply notification on a table indexed by sequence -/

theorem Pending.ext_fields (a b : Pending) (h1 : ∀ k, a.pending k = b.pending k)
    (h2 : a.pendingRetries = b.pendingRetries) (h3 : a.beat = b.beat)
    (h4 : a.fails = b.fails) : a = b := by
  rcases a with ⟨p1, r1, b1, f1⟩
  rcases b with ⟨p2, r2, b2, f2⟩
  simp only at h1 h2 h3 h4
  have h0 : p1 = p2 := funext h1
  subst h0 h2 h3 h4
  rfl

theorem chk_by_sequence (u : UDPClient) (w : Pending) (x : BEServerCommand)
    (hslots : ∀ k f, w.pending k = some f → f[8]? = some k) (hs : x.Sequence < 256) :
    ∃ w', ProcessPendingPackets.caseChk u w x = some (u, w') ∧
      w'.pending x.Sequence = none ∧ (∀ k, k ≠ x.Sequence → w'.pending k = w.pending k) ∧
      w'.pendingRetries = w.pendingRetries ∧ w'.fails = w.fails ∧ w'.beat = w.beat := by
  have hidx : w.Indexable := by
    intro k f hf
    have := hslots k f hf
    by_contra hlen
    rw [List.getElem?_eq_none (by omega)] at this
    cases this
  obtain ⟨w', e, r, f, b, p, o⟩ := caseChk_spec u w x hidx
  refine ⟨w', e, ?_, ?_, r, f, b⟩
  · rw [p _ hs]
    cases hp : w.pending x.Sequence with
    | none => rfl
    | some g => simp [slotAfterChk, hslots _ g hp]
  · intro k hk
    by_cases hk256 : k < 256
    · rw [p k hk256]
      cases hp : w.pending k with
      | none => rfl
      | some g =>
        have h8 := hslots k g hp
        have : ¬ g[8]? = some x.Sequence := by
          rw [h8]
          intro e'
          exact hk (Option.some.inj e')
        simp [slotAfterChk, this]
    · exact o k hk256

/-! ## Claims about the reply notification and the heartbeat -/

/-- C22. Reply notification clears exactly one slot: when every non-empty pending slot `k`
holds a frame whose byte 8 is `k`, the case `x := <-u.chk` for a notification with sequence
`s` (a byte) does not panic, leaves pending slot `s` empty and every other pending slot, the
retry counts and the client as they were; it does so whatever sub-header `x` carries, so already on
the first fragment of a fragmented reply; and a further notification for the same `s`
changes nothing. -/
theorem reply_clears_exactly_one_slot (u : UDPClient) (w : Pending) (x : BEServerCommand)
    (hslots : ∀ k f, w.pending k = some f → f[8]? = some k) (hs : x.Sequence < 256) :
    ∃ w', ProcessPendingPackets.caseChk u w x = some (u, w') ∧
      w'.pending x.Sequence = none ∧ (∀ k, k ≠ x.Sequence → w'.pending k = w.pending k) ∧
      w'.pendingRetries = w.pendingRetries ∧
      (∀ h, ProcessPendingPackets.caseChk u w { x with OptionalHeader := h } = some (u, w')) ∧
      ProcessPendingPackets.caseChk u w' x = some (u, w') := by
  obtain ⟨w', e, p1, p2, r, f, b⟩ := chk_by_sequence u w x hslots hs
  refine ⟨w', e, p1, p2, r, ?_, ?_⟩
  · intro h
    obtain ⟨w2, e2, q1, q2, r2, f2, b2⟩ :=
      chk_by_sequence u w { x with OptionalHeader := h } hslots hs
    have : w2 = w' := by
      apply Pending.ext_fields
      · intro k
        by_cases hk : k = x.Sequence
        · subst hk; rw [p1]; exact q1
        · rw [p2 k hk]; exact q2 k hk
      · rw [r, r2]
      · rw [b, b2]
      · rw [f, f2]
    rw [e2, this]
  · have hslots' : ∀ k g, w'.pending k = some g → g[8]? = some k := by
      intro k g hg
      by_cases hk : k = x.Sequence
      · subst hk; rw [p1] at hg; cases hg
      · rw [p2 k hk] at hg; exact hslots k g hg
    obtain ⟨w2, e2, q1, q2, r2, f2, b2⟩ := chk_by_sequence u w' x hslots' hs
    have : w2 = w' := by
      apply Pending.ext_fields
      · intro k
        by_cases hk : k = x.Sequence
        · subst hk; rw [p1]; exact q1
        · exact q2 k hk
      · exact r2
      · exact b2
      · exact f2
    rw [e2, this]

/-- Witness of `reply_clears_exactly_one_slot`: the first of three fragments of the reply to
sequence 255, on `wrapTable`. -/
theorem reply_clears_exactly_one_slot_witness :
    ((∀ k f, wrapTable.pending k = some f → f[8]? = some k) ∧
      ({ NewBEServerCommand with
          Sequence := 255,
          OptionalHeader := some { MagicByte := 0x00, NumberOfPackets := 3, Index := 0 } } :
        BEServerCommand).Sequence < 256) ∧
    (∃ w', ProcessPendingPackets.caseChk (Listen.reset NewUDPClient 0) wrapTable
          { NewBEServerCommand with
            Sequence := 255,
            OptionalHeader := some { MagicByte := 0x00, NumberOfPackets := 3, Index := 0 } } =
        some (Listen.reset NewUDPClient 0, w') ∧
      w'.pending 255 = none ∧ (∀ k, k ≠ 255 → w'.pending k = wrapTable.pending k) ∧
      w'.pendingRetries = wrapTable.pendingRetries ∧
      (∀ h, ProcessPendingPackets.caseChk (Listen.reset NewUDPClient 0) wrapTable
          { ({ NewBEServerCommand with
                Sequence := 255,
                OptionalHeader := some { MagicByte := 0x00, NumberOfPackets := 3, Index := 0 } } :
              BEServerCommand) with OptionalHeader := h } =
        some (Listen.reset NewUDPClient 0, w')) ∧
      ProcessPendingPackets.caseChk (Listen.reset NewUDPClient 0) w'
          { NewBEServerCommand with
            Sequence := 255,
            OptionalHeader := some { MagicByte := 0x00, NumberOfPackets := 3, Index := 0 } } =
        some (Listen.reset NewUDPClient 0, w')) :=
  have h : ∀ k f, wrapTable.pending k = some f → f[8]? = some k := by
    intro k f hf
    simp only [wrapTable] at hf
    split at hf
    · cases hf; subst k; simp [referenceFrame, littleEndian32]
    · split at hf
      · cases hf; subst k; simp [referenceFrame, littleEndian32]
      · cases hf
  ⟨⟨h, by decide⟩,
    reply_clears_exactly_one_slot (Listen.reset NewUDPClient 0) wrapTable
      { NewBEServerCommand with
        Sequence := 255,
        OptionalHeader := some { MagicByte := 0x00, NumberOfPackets := 3, Index := 0 } }
      h (by decide)⟩

set_option maxRecDepth 100000 in
/-- C24, the code after a command: a command dequeued between the ticks at 29 s and 30 s
after the reset leaves `u.heartbeat` at the time of the reset, and the tick at 30 s sends
the heartbeat command on `Out`, less than a second after that command was dequeued. -/
theorem heartbeat_ignores_dequeued_command :
    ∃ s1 s2, ProcessPendingPackets.run (Listen.reset NewUDPClient 0, Pending.init)
        [.tick (29 * Second),
          .out (.ClientCommand { NewBEClientCommand with Command := [0x70] })] = some s1 ∧
      s1.1.heartbeat = 0 ∧ s1.1.Out = [] ∧
      ProcessPendingPackets.step s1 (.tick (30 * Second)) = some s2 ∧
      s2.1.Out = [BEPacket.ClientCommand { NewBEClientCommand with Command := [] }] ∧
      s2.1.heartbeat = 30 * Second :=
  ⟨_, _, rfl, rfl, rfl, rfl, rfl, rfl⟩

/-! ## The writer: commands that are acknowledged and commands that time out -/

/-- A tick when only slot `c` can hold a frame does what the loop body does at `c`. -/
theorem tick_single (u : UDPClient) (w : Pending) (now c : Nat) (hc : c < 256)
    (hothers : ∀ j, j ≠ c → w.pending j = none) :
    (ProcessPendingPackets.caseTick u w now).1.con =
        (ProcessPendingPackets.tickSlot (u, w) c).1.con ∧
      (ProcessPendingPackets.caseTick u w now).1.Err =
        (ProcessPendingPackets.tickSlot (u, w) c).1.Err ∧
      (ProcessPendingPackets.caseTick u w now).1.cmdCounter =
        (ProcessPendingPackets.tickSlot (u, w) c).1.cmdCounter ∧
      (ProcessPendingPackets.caseTick u w now).1.online =
        (ProcessPendingPackets.tickSlot (u, w) c).1.online ∧
      (ProcessPendingPackets.caseTick u w now).2 =
        (ProcessPendingPackets.tickSlot (u, w) c).2 := by
  obtain ⟨h1, h2, h3, h4, h5⟩ := caseTick_parts u w now
  have hfold := tickFold_single (List.range 256) (u, w) c (List.nodup_range 256)
    (List.mem_range.mpr hc) (fun j _ hj => hothers j hj)
  rw [hfold] at h1 h2 h3 h4 h5
  exact ⟨h1, h2, h3, h4, h5⟩

/-- The frame `f` alone in the table, in slot `c`, with `r` retries so far, `n` timeouts
counted, and the client fields the ticks can change. -/
theorem retry_ticks (c : Nat) (f : List Nat) (hc : c < 256) (m : Nat)
    (s : UDPClient × Pending) (hf : s.2.pending c = some f)
    (hothers : ∀ j, j ≠ c → s.2.pending j = none) (hr : s.2.pendingRetries c + m ≤ 5) :
    ∃ t, ProcessPendingPackets.run s (List.replicate m (.tick 0)) = some t ∧
      t.2.pending = s.2.pending ∧
      (∀ k, t.2.pendingRetries k = if k = c then s.2.pendingRetries c + m
        else s.2.pendingRetries k) ∧
      t.2.fails = s.2.fails ∧ t.1.Err = s.1.Err ∧ t.1.online = s.1.online ∧
      t.1.cmdCounter = s.1.cmdCounter := by
  induction m generalizing s with
  | zero =>
    refine ⟨s, rfl, rfl, ?_, rfl, rfl, rfl, rfl⟩
    intro k
    by_cases hk : k = c
    · subst hk; simp
    · simp [hk]
  | succ m ih =>
    obtain ⟨u, w⟩ := s
    dsimp only at hf hothers hr
    obtain ⟨-, t2, t3, t4, t5⟩ := tick_single u w 0 c hc hothers
    have hslot : ProcessPendingPackets.tickSlot (u, w) c =
        (u.Write f,
          { w with pendingRetries := Function.update w.pendingRetries c (w.pendingRetries c + 1) }) := by
      unfold ProcessPendingPackets.tickSlot
      have : w.pendingRetries c < 5 := by omega
      simp only [hf, this, if_true]
    rw [hslot] at t2 t3 t4 t5
    obtain ⟨t, e, a1, a2, a3, a4, a5, a6⟩ := ih (ProcessPendingPackets.caseTick u w 0)
      (by rw [t5]; exact hf) (by rw [t5]; exact hothers)
      (by rw [t5]; simp only [Function.update_same]; omega)
    rw [t5] at a1 a2 a3
    refine ⟨t, ?_, a1, ?_, a3, a4.trans t2, a5.trans t4, a6.trans t3⟩
    · rw [List.replicate_succ, run_tick]
      exact e
    · intro k
      rw [a2 k]
      by_cases hk : k = c
      · subst hk
        simp only [if_true, Function.update_same]
        omega
      · simp only [if_neg hk, Function.update_noteq hk]

theorem beatFrame_seq (i : Nat) : (beatFrame i)[8]? = some i := by
  simp [beatFrame, referenceFrame, littleEndian32]

/-- A command that is dequeued, written on the next tick and acknowledged. -/
theorem acked_quiet (i n : Nat) (s : UDPClient × Pending) (hi : i < 255) (h : Quiet i n s) :
    ∃ t, ProcessPendingPackets.run s (ackedCommand i) = some t ∧ Quiet (i + 1) n t ∧
      t.1.Err = s.1.Err ∧ t.1.online = s.1.online := by
  obtain ⟨u, w⟩ := s
  obtain ⟨hc, hp, hr, hf⟩ := h
  dsimp only at hc hp hr hf
  have e1 := caseOut_command u w NewBEClientCommand (by decide) (by omega)
  rw [hc] at e1
  have hmod : (i + 1) % 256 = i + 1 := Nat.mod_eq_of_lt (by omega)
  rw [hmod] at e1
  obtain ⟨t, e2, a1, a2, a3, a4, a5, a6⟩ := retry_ticks i (beatFrame i) (by omega) 1
    ({ u with cmdCounter := i + 1 },
      { w with pending := Function.update w.pending i (some (beatFrame i)) })
    (by simp) (fun j hj => by simp [Function.update_noteq hj, hp]) (by
      dsimp only
      rw [hr i (Nat.le_refl _)]
      omega)
  dsimp only at a1 a2 a3 a4 a5 a6
  obtain ⟨w', e3, p1, p2, r, f, -⟩ := chk_by_sequence t.1 t.2
    { NewBEServerCommand with Sequence := i }
    (by
      intro k g hg
      rw [a1] at hg
      by_cases hk : k = i
      · subst hk
        simp only [Function.update_same, Option.some.injEq] at hg
        subst hg
        exact beatFrame_seq k
      · rw [Function.update_noteq hk, hp] at hg
        cases hg)
    (by show i < 256; omega)
  refine ⟨(t.1, w'), ?_, ⟨a6, ?_, ?_, f.trans (a3.trans hf)⟩, a4, a5⟩
  · have q1 : ProcessPendingPackets.step (u, w) (.out (.ClientCommand NewBEClientCommand)) =
        some ({ u with cmdCounter := i + 1 },
          { w with pending := Function.update w.pending i (some (beatFrame i)) }) := e1
    have e2' : ProcessPendingPackets.run
        ({ u with cmdCounter := i + 1 },
          { w with pending := Function.update w.pending i (some (beatFrame i)) })
        [Input.tick 0] = some t := e2
    have q3 : ProcessPendingPackets.step t (.chk { NewBEServerCommand with Sequence := i }) =
        some (t.1, w') := e3
    have hsplit : ackedCommand i = Input.out (.ClientCommand NewBEClientCommand) ::
        ([Input.tick 0] ++ [Input.chk { NewBEServerCommand with Sequence := i }]) := rfl
    rw [hsplit, run_cons, q1, Option.some_bind, run_append, e2', Option.some_bind, run_cons, q3,
      Option.some_bind]
    rfl
  · intro k
    by_cases hk : k = i
    · subst hk; exact p1
    · rw [p2 k hk, a1, Function.update_noteq hk, hp]
  · intro k hk
    rw [r, a2 k, if_neg (by omega)]
    exact hr k (by omega)

/-- A command that is dequeued and never acknowledged: five ticks write it, the sixth
counts the send timeout. -/
theorem timeout_quiet (i n : Nat) (s : UDPClient × Pending) (hi : i < 255)
    (h : Quiet i n s) :
    ∃ t, ProcessPendingPackets.run s timedOutCommand = some t ∧
      Quiet (i + 1) (if n + 1 ≥ 5 then 0 else n + 1) t ∧
      t.1.Err = s.1.Err ++ [UDPError.sendTimeout (beatFrame i)] ++
        (if n + 1 ≥ 5 then [UDPError.tooManyFailed] else []) ∧
      t.1.online = (if n + 1 ≥ 5 then false else s.1.online) := by
  obtain ⟨u, w⟩ := s
  obtain ⟨hc, hp, hr, hf⟩ := h
  dsimp only at hc hp hr hf
  have e1 := caseOut_command u w NewBEClientCommand (by decide) (by omega)
  rw [hc] at e1
  have hmod : (i + 1) % 256 = i + 1 := Nat.mod_eq_of_lt (by omega)
  rw [hmod] at e1
  obtain ⟨t, e2, a1, a2, a3, a4, a5, a6⟩ := retry_ticks i (beatFrame i) (by omega) 5
    ({ u with cmdCounter := i + 1 },
      { w with pending := Function.update w.pending i (some (beatFrame i)) })
    (by simp) (fun j hj => by simp [Function.update_noteq hj, hp]) (by
      dsimp only
      rw [hr i (Nat.le_refl _)])
  dsimp only at a1 a2 a3 a4 a5 a6
  obtain ⟨tu, tw⟩ := t
  dsimp only at a1 a2 a3 a4 a5 a6
  have hfull : tw.pendingRetries i = 5 := by
    rw [a2 i, if_pos rfl, hr i (Nat.le_refl _)]
  have hpi : tw.pending i = some (beatFrame i) := by rw [a1]; simp
  have hpo : ∀ j, j ≠ i → tw.pending j = none := by
    intro j hj
    rw [a1, Function.update_noteq hj, hp]
  obtain ⟨-, t2, t3, t4, t5⟩ := tick_single tu tw 0 i (by omega) hpo
  have hrun : ProcessPendingPackets.run (u, w) timedOutCommand =
      some (ProcessPendingPackets.caseTick tu tw 0) := by
    unfold timedOutCommand
    rw [run_cons]
    have q1 : ProcessPendingPackets.step (u, w) (.out (.ClientCommand NewBEClientCommand)) =
        some ({ u with cmdCounter := i + 1 },
          { w with pending := Function.update w.pending i (some (beatFrame i)) }) := e1
    rw [q1, Option.some_bind]
    have hsplit : List.replicate 6 (Input.tick 0) =
        List.replicate 5 (Input.tick 0) ++ [Input.tick 0] := rfl
    rw [hsplit, run_append, e2, Option.some_bind, run_tick]
    rfl
  by_cases h5 : n + 1 ≥ 5
  · have hslot : ProcessPendingPackets.tickSlot (tu, tw) i =
        ({ tu with Err := tu.Err ++ [UDPError.sendTimeout (beatFrame i)] ++
              [UDPError.tooManyFailed], online := false },
          { tw with fails := 0,
                    pendingRetries := Function.update tw.pendingRetries i 0,
                    pending := Function.update tw.pending i none }) := by
      unfold ProcessPendingPackets.tickSlot
      have h1 : ¬ tw.pendingRetries i < 5 := by omega
      have h2 : tw.fails + 1 ≥ 5 := by rw [a3, hf]; exact h5
      simp only [hpi, h1, if_false, h2, if_true]
    rw [hslot] at t2 t3 t4 t5
    refine ⟨_, hrun, ⟨t3.trans a6, ?_, ?_, ?_⟩, ?_, ?_⟩
    · intro k
      rw [t5]
      by_cases hk : k = i
      · subst hk; simp
      · simp [Function.update_noteq hk, hpo k hk]
    · intro k hk
      rw [t5]
      have hki : k ≠ i := by omega
      simp only [Function.update_noteq hki]
      rw [a2 k, if_neg hki]
      exact hr k (by omega)
    · rw [t5, if_pos h5]
    · rw [t2, if_pos h5, a4]
    · rw [t4, if_pos h5]
  · have hslot : ProcessPendingPackets.tickSlot (tu, tw) i =
        ({ tu with Err := tu.Err ++ [UDPError.sendTimeout (beatFrame i)] },
          { tw with fails := tw.fails + 1,
                    pendingRetries := Function.update tw.pendingRetries i 0,
                    pending := Function.update tw.pending i none }) := by
      unfold ProcessPendingPackets.tickSlot
      have h1 : ¬ tw.pendingRetries i < 5 := by omega
      have h2 : ¬ tw.fails + 1 ≥ 5 := by rw [a3, hf]; exact h5
      simp only [hpi, h1, if_false, h2]
    rw [hslot] at t2 t3 t4 t5
    refine ⟨_, hrun, ⟨t3.trans a6, ?_, ?_, ?_⟩, ?_, ?_⟩
    · intro k
      rw [t5]
      by_cases hk : k = i
      · subst hk; simp
      · simp [Function.update_noteq hk, hpo k hk]
    · intro k hk
      rw [t5]
      have hki : k ≠ i := by omega
      simp only [Function.update_noteq hki]
      rw [a2 k, if_neg hki]
      exact hr k (by omega)
    · rw [t5, if_neg h5]
      show tw.fails + 1 = n + 1
      rw [a3, hf]
    · rw [t2, if_neg h5, a4]
      simp
    · rw [t4, if_neg h5]
      exact a5

/-! ## The writer: the failure counter -/

theorem Ledger.of_eq (s t : UDPClient × Pending) (hs : s.2.fails < 5)
    (h1 : t.1.Err = s.1.Err) (h2 : t.1.online = s.1.online) (h3 : t.2.fails = s.2.fails) :
    Ledger s t := by
  refine ⟨by omega, by rw [h1], by rw [h1, h3], fun _ => h2, fun h => ?_⟩
  rw [h1] at h
  omega

theorem Ledger.trans (s t r : UDPClient × Pending) (h1 : Ledger s t) (h2 : Ledger t r) :
    Ledger s r := by
  obtain ⟨a1, a2, a3, a4, a5⟩ := h1
  obtain ⟨b1, b2, b3, b4, b5⟩ := h2
  refine ⟨b1, by omega, by omega, fun h => ?_, fun h => ?_⟩
  · rw [b4 (by omega), a4 (by omega)]
  · by_cases hc : t.1.Err.count UDPError.tooManyFailed < r.1.Err.count UDPError.tooManyFailed
    · exact b5 hc
    · rw [b4 (by omega)]
      exact a5 (by omega)

theorem tickSlot_ledger (s : UDPClient × Pending) (k : Nat) (hs : s.2.fails < 5) :
    Ledger s (ProcessPendingPackets.tickSlot s k) := by
  cases hp : s.2.pending k with
  | none =>
    rw [tickSlot_empty s k hp]
    exact Ledger.of_eq _ _ hs rfl rfl rfl
  | some v =>
    unfold ProcessPendingPackets.tickSlot
    simp only [hp]
    split
    · exact Ledger.of_eq _ _ hs rfl rfl rfl
    · split
      · rename_i h5
        have h4 : s.2.fails = 4 := by omega
        refine ⟨by simp, ?_, ?_, ?_, ?_⟩
        · simp [List.count_append]
        · simp [List.count_append, List.countP_append, List.count_cons, List.countP_cons,
            UDPError.isSendTimeout, h4]
          omega
        · intro h
          simp [List.count_append, List.count_cons] at h
        · intro _; rfl
      · rename_i h5
        refine ⟨by show s.2.fails + 1 < 5; omega, ?_, ?_, ?_, ?_⟩
        · simp [List.count_append, List.count_cons]
        · simp [List.count_append, List.countP_append, List.count_cons, List.countP_cons,
            UDPError.isSendTimeout]
          omega
        · intro _; rfl
        · intro h
          simp [List.count_append, List.count_cons] at h

theorem tickFold_ledger (ks : List Nat) (s : UDPClient × Pending) (hs : s.2.fails < 5) :
    Ledger s (ks.foldl ProcessPendingPackets.tickSlot s) := by
  induction ks generalizing s with
  | nil => exact Ledger.of_eq _ _ hs rfl rfl rfl
  | cons k ks ih =>
    rw [List.foldl_cons]
    have h1 := tickSlot_ledger s k hs
    exact Ledger.trans _ _ _ h1 (ih _ h1.1)

theorem caseTick_ledger (u : UDPClient) (w : Pending) (now : Nat) (hs : w.fails < 5) :
    Ledger (u, w) (ProcessPendingPackets.caseTick u w now) := by
  have h := tickFold_ledger (List.range 256) (u, w) hs
  obtain ⟨-, h2, -, h4, h5⟩ := caseTick_parts u w now
  generalize List.foldl ProcessPendingPackets.tickSlot (u, w) (List.range 256) = r at h h2 h4 h5
  obtain ⟨a1, a2, a3, a4, a5⟩ := h
  refine ⟨?_, ?_, ?_, ?_, ?_⟩
  · rw [h5]; exact a1
  · rw [h2]; exact a2
  · rw [h2, h5]; exact a3
  · rw [h2, h4]; exact a4
  · rw [h2, h4]; exact a5

theorem step_ledger (s : UDPClient × Pending) (i : Input) (hi : i.Constructed)
    (hc : s.1.cmdCounter < 256) (hw : s.2.Indexable) (hs : s.2.fails < 5) :
    ∃ t, ProcessPendingPackets.step s i = some t ∧ t.2.Indexable ∧ t.1.cmdCounter < 256 ∧
      Ledger s t := by
  have hmod : ∀ n : Nat, n % 256 < 256 := fun n => Nat.mod_lt _ (by norm_num)
  cases i with
  | tick now =>
    obtain ⟨t, e, hw', hc'⟩ := step_counter s (.tick now) hi hc hw
    have h0 : ProcessPendingPackets.step s (.tick now) =
        some (ProcessPendingPackets.caseTick s.1 s.2 now) := congrArg some (Eq.refl _)
    refine ⟨t, e, hw', by rw [hc']; exact hmod _, ?_⟩
    rw [h0] at e
    have ht : ProcessPendingPackets.caseTick s.1 s.2 now = t := Option.some.inj e
    rw [← ht]
    exact caseTick_ledger s.1 s.2 now hs
  | chk x =>
    obtain ⟨t, e, hw', hc'⟩ := step_counter s (.chk x) hi hc hw
    refine ⟨t, e, hw', by rw [hc']; exact hmod _, ?_⟩
    obtain ⟨w', e', -, f, -, -, -⟩ := caseChk_spec s.1 s.2 x hw
    have h0 : ProcessPendingPackets.step s (.chk x) = some (s.1, w') := e'
    rw [h0] at e
    have ht : (s.1, w') = t := Option.some.inj e
    rw [← ht]
    exact Ledger.of_eq _ _ hs rfl rfl f
  | out q =>
    obtain ⟨t, e, hw', hc'⟩ := step_counter s (.out q) hi hc hw
    refine ⟨t, e, hw', by rw [hc']; exact hmod _, ?_⟩
    by_cases hq : q.constructorType = 1
    · cases q with
      | ClientCommand c =>
        have h0 : ProcessPendingPackets.step s (.out (.ClientCommand c)) = _ :=
          caseOut_command s.1 s.2 c hi hc
        rw [h0] at e
        have ht := Option.some.inj e
        rw [← ht]
        exact Ledger.of_eq _ _ hs rfl rfl rfl
      | _ => simp [BEPacket.constructorType] at hq
    · obtain ⟨out, -, e'⟩ := caseOut_other s.1 s.2 q hi hq
      have h0 : ProcessPendingPackets.step s (.out q) = _ := e'
      rw [h0] at e
      have ht := Option.some.inj e
      rw [← ht]
      exact Ledger.of_eq _ _ hs rfl rfl rfl

theorem run_ledger (ins : List Input) (s : UDPClient × Pending)
    (hi : ∀ i ∈ ins, i.Constructed) (hc : s.1.cmdCounter < 256) (hw : s.2.Indexable)
    (hs : s.2.fails < 5) :
    ∃ t, ProcessPendingPackets.run s ins = some t ∧ Ledger s t := by
  induction ins generalizing s with
  | nil => exact ⟨s, rfl, Ledger.of_eq _ _ hs rfl rfl rfl⟩
  | cons i ins ih =>
    obtain ⟨s1, e1, hw1, hc1, l1⟩ := step_ledger s i (hi i (List.mem_cons_self _ _)) hc hw hs
    obtain ⟨t, e, l⟩ := ih s1 (fun j hj => hi j (List.mem_cons_of_mem _ hj)) hc1 hw1 l1.1
    refine ⟨t, ?_, Ledger.trans _ _ _ l1 l⟩
    rw [run_cons, e1, Option.some_bind]
    exact e

/-! ## Claims about the failure counter -/

/-- C21, refuted as stated: five commands time out, each followed by a command that is
acknowledged before the next one is dequeued; the fifth timeout still makes the tick report
"too many failed send attempts" and clear the online flag. -/
theorem peer_dead_across_acknowledgements :
    ∃ s, ProcessPendingPackets.run (Listen.reset NewUDPClient 0, Pending.init)
        failuresBetweenAcks = some s ∧
      s.1.Err = [UDPError.sendTimeout (beatFrame 0), UDPError.sendTimeout (beatFrame 2),
        UDPError.sendTimeout (beatFrame 4), UDPError.sendTimeout (beatFrame 6),
        UDPError.sendTimeout (beatFrame 8), UDPError.tooManyFailed] ∧
      s.1.online = false ∧ s.2.fails = 0 := by
  have h0 : Quiet 0 0 (Listen.reset NewUDPClient 0, Pending.init) :=
    ⟨rfl, fun _ => rfl, fun _ _ => rfl, rfl⟩
  obtain ⟨s1, e1, q1, r1, o1⟩ := timeout_quiet 0 0 _ (by decide) h0
  obtain ⟨s2, e2, q2, r2, o2⟩ := acked_quiet 1 _ s1 (by decide) q1
  obtain ⟨s3, e3, q3, r3, o3⟩ := timeout_quiet 2 _ s2 (by decide) q2
  obtain ⟨s4, e4, q4, r4, o4⟩ := acked_quiet 3 _ s3 (by decide) q3
  obtain ⟨s5, e5, q5, r5, o5⟩ := timeout_quiet 4 _ s4 (by decide) q4
  obtain ⟨s6, e6, q6, r6, o6⟩ := acked_quiet 5 _ s5 (by decide) q5
  obtain ⟨s7, e7, q7, r7, o7⟩ := timeout_quiet 6 _ s6 (by decide) q6
  obtain ⟨s8, e8, q8, r8, o8⟩ := acked_quiet 7 _ s7 (by decide) q7
  obtain ⟨s9, e9, q9, r9, o9⟩ := timeout_quiet 8 _ s8 (by decide) q8
  refine ⟨s9, ?_, ?_, ?_, ?_⟩
  · unfold failuresBetweenAcks
    rw [run_append, run_append, run_append, run_append, run_append, run_append, run_append,
      run_append, e1, Option.some_bind, e2, Option.some_bind, e3, Option.some_bind, e4,
      Option.some_bind, e5, Option.some_bind, e6, Option.some_bind, e7, Option.some_bind, e8,
      Option.some_bind, e9]
  · rw [r9, r8, r7, r6, r5, r4, r3, r2, r1]
    rfl
  · rw [o9]
    rfl
  · exact q9.2.2.2

/-- C21, as the code has it: the counter `fails` counts the send timeouts since the writer
started or since the last "too many failed send attempts", whether or not commands were
acknowledged in between.  Through every run of writer steps the counter stays below 5 and
`fails` plus five times the number of "too many failed" errors grows by the number of send
timeouts, so that error is sent at every fifth send timeout and the counter is then back at
0; the online flag is cleared when the error is sent, and the writer does not change it
otherwise. -/
theorem peer_dead_on_fifth_timeout (s : UDPClient × Pending) (ins : List Input)
    (hins : ∀ i ∈ ins, i.Constructed) (hc : s.1.cmdCounter < 256) (hw : s.2.Indexable)
    (hs : s.2.fails < 5) :
    ∃ t, ProcessPendingPackets.run s ins = some t ∧ t.2.fails < 5 ∧
      t.2.fails + 5 * t.1.Err.count UDPError.tooManyFailed +
          s.1.Err.countP UDPError.isSendTimeout =
        s.2.fails + 5 * s.1.Err.count UDPError.tooManyFailed +
          t.1.Err.countP UDPError.isSendTimeout ∧
      (t.1.Err.count UDPError.tooManyFailed = s.1.Err.count UDPError.tooManyFailed →
        t.1.online = s.1.online) ∧
      (s.1.Err.count UDPError.tooManyFailed < t.1.Err.count UDPError.tooManyFailed →
        t.1.online = false) := by
  obtain ⟨t, e, a1, -, a3, a4, a5⟩ := run_ledger ins s hins hc hw hs
  exact ⟨t, e, a1, a3, a4, a5⟩

/-- Witness of `peer_dead_on_fifth_timeout`: a command that times out and a command that is
acknowledged, from the reset client. -/
theorem peer_dead_on_fifth_timeout_witness :
    ((∀ i ∈ timedOutCommand ++ ackedCommand 1, i.Constructed) ∧
      (Listen.reset NewUDPClient 0).cmdCounter < 256 ∧ Pending.init.Indexable ∧
      Pending.init.fails < 5) ∧
    (∃ t, ProcessPendingPackets.run (Listen.reset NewUDPClient 0, Pending.init)
        (timedOutCommand ++ ackedCommand 1) = some t ∧ t.2.fails < 5 ∧
      t.2.fails + 5 * t.1.Err.count UDPError.tooManyFailed +
          (Listen.reset NewUDPClient 0).Err.countP UDPError.isSendTimeout =
        Pending.init.fails + 5 * (Listen.reset NewUDPClient 0).Err.count UDPError.tooManyFailed +
          t.1.Err.countP UDPError.isSendTimeout ∧
      (t.1.Err.count UDPError.tooManyFailed =
          (Listen.reset NewUDPClient 0).Err.count UDPError.tooManyFailed →
        t.1.online = (Listen.reset NewUDPClient 0).online) ∧
      ((Listen.reset NewUDPClient 0).Err.count UDPError.tooManyFailed <
          t.1.Err.count UDPError.tooManyFailed →
        t.1.online = false)) :=
  ⟨⟨by decide, by decide, by intro k f hf; simp [Pending.init] at hf, by decide⟩,
    peer_dead_on_fifth_timeout (Listen.reset NewUDPClient 0, Pending.init)
      (timedOutCommand ++ ackedCommand 1) (by decide) (by decide)
      (by intro k f hf; simp [Pending.init] at hf) (by decide)⟩

/-! ## The writer: the frames in the table -/

/-- The frame the dequeue case builds from the marshalled bytes and the counter. -/
theorem patched_frame (bytes : List Nat) (c c0 c1 c2 c3 : Nat) (h7 : bytes[7]? = some 0x01)
    (h8 : 8 < bytes.length)
    (hcrc : littleEndian32 (crc32IEEE ((bytes.set 8 c).drop 6)) = [c0, c1, c2, c3]) :
    9 ≤ (((((bytes.set 8 c).set 2 c0).set 3 c1).set 4 c2).set 5 c3).length ∧
      (((((bytes.set 8 c).set 2 c0).set 3 c1).set 4 c2).set 5 c3)[7]? = some 0x01 ∧
      (((((bytes.set 8 c).set 2 c0).set 3 c1).set 4 c2).set 5 c3)[8]? = some c ∧
      ((((((bytes.set 8 c).set 2 c0).set 3 c1).set 4 c2).set 5 c3).drop 2).take 4 =
        littleEndian32 (crc32IEEE
          ((((((bytes.set 8 c).set 2 c0).set 3 c1).set 4 c2).set 5 c3).drop 6)) := by
  refine ⟨by simp; omega, ?_, ?_, ?_⟩
  · simp only [List.getElem?_set, List.length_set]
    simp [h7]
  · simp only [List.getElem?_set, List.length_set]
    simp [h8]
  · have hdrop : (((((bytes.set 8 c).set 2 c0).set 3 c1).set 4 c2).set 5 c3).drop 6 =
        (bytes.set 8 c).drop 6 := by
      apply List.ext_getElem?
      intro i
      simp only [List.getElem?_drop, List.getElem?_set, List.length_set]
      have h2 : ¬ 2 = 6 + i := by omega
      have h3 : ¬ 3 = 6 + i := by omega
      have h4 : ¬ 4 = 6 + i := by omega
      have h5 : ¬ 5 = 6 + i := by omega
      simp [h2, h3, h4, h5]
    rw [hdrop, hcrc]
    apply List.ext_getElem?
    intro i
    by_cases hi : i < 4
    · rw [List.getElem?_take_of_lt hi, List.getElem?_drop]
      simp only [List.getElem?_set, List.length_set]
      have hb : 5 < bytes.length := by omega
      have h0 : i = 0 ∨ i = 1 ∨ i = 2 ∨ i = 3 := by omega
      rcases h0 with rfl | rfl | rfl | rfl <;> simp [hb] <;> omega
    · rw [List.getElem?_eq_none (by simp; omega), List.getElem?_eq_none (by simp; omega)]

theorem caseOut_wellFormed (u : UDPClient) (w : Pending) (p : BEPacket)
    (s : UDPClient × Pending) (h : ProcessPendingPackets.caseOut u w p = some s)
    (hw : w.WellFormed) : s.2.WellFormed := by
  unfold ProcessPendingPackets.caseOut at h
  split at h
  · cases h; exact hw
  · rename_i bytes hm
    split at h
    · cases h
    · rename_i t h7
      split at h
      · rename_i ht
        subst ht
        simp only at h
        split at h
        · cases h
        · rename_i bytes' hset
          rw [CRC32_le] at h
          simp only at h
          split at h
          · rename_i c0 c1 c2 c3 sq e0 e1 e2 e3 e8
            cases h
            have hcle : (if u.cmdCounter > 255 then { u with cmdCounter := 0 } else u).cmdCounter
                < 256 := by
              split
              · exact Nat.zero_lt_succ _
              · omega
            generalize (if u.cmdCounter > 255 then { u with cmdCounter := 0 }
              else u).cmdCounter = c at hset hcle
            unfold setByte at hset
            split at hset
            · rename_i h8
              cases hset
              have hsq : sq = c := by
                rw [List.getElem?_set_self h8] at e8
                exact (Option.some.inj e8).symm
              subst hsq
              have hcrc : littleEndian32 (crc32IEEE ((bytes.set 8 sq).drop 6)) =
                  [c0, c1, c2, c3] := by
                simp only [List.flatten_cons, List.flatten_nil, List.append_nil] at e0 e1 e2 e3
                simp only [littleEndian32] at e0 e1 e2 e3 ⊢
                simp only [List.getElem?_cons_zero, List.getElem?_cons_succ,
                  Option.some.injEq] at e0 e1 e2 e3
                rw [e0, e1, e2, e3]
              obtain ⟨f1, f2, f3, f4⟩ := patched_frame bytes sq c0 c1 c2 c3 h7 h8 hcrc
              refine ⟨?_, hw.2⟩
              intro k f hf
              dsimp only at hf
              by_cases hk : k = sq
              · subst hk
                rw [Function.update_same] at hf
                cases hf
                exact ⟨hcle, f1, f2, f3, f4⟩
              · rw [Function.update_noteq hk] at hf
                exact hw.1 k f hf
            · cases hset
          · cases h
      · cases h; exact hw

theorem Pending.WellFormed.frames_indexable (w : Pending) (hw : w.WellFormed) : w.Indexable := by
  intro k f hf
  have := (hw.1 k f hf).2.1
  omega

theorem caseTick_wellFormed (u : UDPClient) (w : Pending) (now : Nat) (hw : w.WellFormed) :
    (ProcessPendingPackets.caseTick u w now).2.WellFormed := by
  rw [caseTick_pending]
  refine ⟨?_, ?_⟩
  · intro k f hf
    by_cases hk : k < 256
    · rw [(tickFold_self _ _ (List.nodup_range 256) k (List.mem_range.mpr hk)).1] at hf
      unfold slotSend at hf
      split at hf
      · exact hw.1 k f hf
      · cases hf
    · rw [(tickFold_other _ _ k (fun e => hk (List.mem_range.mp e))).1] at hf
      exact hw.1 k f hf
  · intro k
    by_cases hk : k < 256
    · rw [(tickFold_self _ _ (List.nodup_range 256) k (List.mem_range.mpr hk)).2]
      have := hw.2 k
      dsimp only at this ⊢
      split
      · exact this
      · split
        · rename_i h5
          exact Nat.succ_le_of_lt h5
        · exact Nat.zero_le _
    · rw [(tickFold_other _ _ k (fun e => hk (List.mem_range.mp e))).2]
      exact hw.2 k

theorem caseChk_wellFormed (u : UDPClient) (w : Pending) (x : BEServerCommand)
    (hw : w.WellFormed) :
    ∃ w', ProcessPendingPackets.caseChk u w x = some (u, w') ∧ w'.WellFormed := by
  obtain ⟨w', e, r, -, -, p, o⟩ := caseChk_spec u w x (Pending.WellFormed.frames_indexable w hw)
  refine ⟨w', e, ?_, ?_⟩
  · intro k f hf
    by_cases hk : k < 256
    · rw [p k hk] at hf
      exact hw.1 k f (slotAfterChk_some x _ f hf)
    · rw [o k hk] at hf
      exact hw.1 k f hf
  · intro k
    rw [r]
    exact hw.2 k

theorem step_wellFormed (s t : UDPClient × Pending) (i : Input)
    (h : ProcessPendingPackets.step s i = some t) (hw : s.2.WellFormed) : t.2.WellFormed := by
  cases i with
  | out p => exact caseOut_wellFormed s.1 s.2 p t h hw
  | chk x =>
    obtain ⟨w', e, hw'⟩ := caseChk_wellFormed s.1 s.2 x hw
    have h0 : ProcessPendingPackets.step s (.chk x) = some (s.1, w') := e
    rw [h0] at h
    rw [← Option.some.inj h]
    exact hw'
  | tick now =>
    have h0 : ProcessPendingPackets.step s (.tick now) =
        some (ProcessPendingPackets.caseTick s.1 s.2 now) := congrArg some (Eq.refl _)
    rw [h0] at h
    rw [← Option.some.inj h]
    exact caseTick_wellFormed s.1 s.2 now hw

theorem run_wellFormed (ins : List Input) (s t : UDPClient × Pending)
    (h : ProcessPendingPackets.run s ins = some t) (hw : s.2.WellFormed) : t.2.WellFormed := by
  induction ins generalizing s with
  | nil =>
    have h0 : ProcessPendingPackets.run s [] = some s := rfl
    rw [h0] at h
    rw [← Option.some.inj h]
    exact hw
  | cons i ins ih =>
    rw [run_cons] at h
    cases hs : ProcessPendingPackets.step s i with
    | none => rw [hs] at h; cases h
    | some s1 =>
      rw [hs, Option.some_bind] at h
      exact ih s1 h (step_wellFormed s s1 i hs hw)

/-! ## Claims about the pending table -/

/-- C26. Pending-table invariant: starting from an empty table, in every state the writer
reaches by a sequence of its steps (dequeue of any packet, reply notification, tick) every
non-empty pending slot `k` has `k < 256` and holds a frame of length at least 9 with byte 7
equal to `0x01`, byte 8 equal to `k` and bytes 2..5 equal to the little-endian CRC-32 of
the bytes from offset 6 on, and every retry count is at most 5.  Such states exist for every
sequence of steps whose packets are constructor-built: the run does not panic. -/
theorem pending_table_invariant (u : UDPClient) (ins : List Input) :
    (∀ s, ProcessPendingPackets.run (u, Pending.init) ins = some s →
      (∀ k f, s.2.pending k = some f →
        k < 256 ∧ 9 ≤ f.length ∧ f[7]? = some 0x01 ∧ f[8]? = some k ∧
          (f.drop 2).take 4 = littleEndian32 (crc32IEEE (f.drop 6))) ∧
      ∀ k, s.2.pendingRetries k ≤ 5) ∧
    ((∀ i ∈ ins, i.Constructed) → u.cmdCounter < 256 →
      ∃ s, ProcessPendingPackets.run (u, Pending.init) ins = some s) := by
  have h0 : Pending.init.WellFormed :=
    ⟨fun k f hf => by simp [Pending.init] at hf, fun k => by simp [Pending.init]⟩
  refine ⟨fun s hs => run_wellFormed ins (u, Pending.init) s hs h0, fun hi hc => ?_⟩
  obtain ⟨s, e, -⟩ := run_counter ins (u, Pending.init) hi hc
    (Pending.WellFormed.frames_indexable _ h0)
  exact ⟨s, e⟩

/-- Witness of `pending_table_invariant`: the run `failuresBetweenAcks` from the reset
client reaches a state, and the invariant holds in it. -/
theorem pending_table_invariant_witness :
    ∃ s, ProcessPendingPackets.run (Listen.reset NewUDPClient 0, Pending.init)
        failuresBetweenAcks = some s ∧
      (∀ k f, s.2.pending k = some f →
        k < 256 ∧ 9 ≤ f.length ∧ f[7]? = some 0x01 ∧ f[8]? = some k ∧
          (f.drop 2).take 4 = littleEndian32 (crc32IEEE (f.drop 6))) ∧
      ∀ k, s.2.pendingRetries k ≤ 5 :=
  (((pending_table_invariant (Listen.reset NewUDPClient 0) failuresBetweenAcks).2
      (by decide) (by decide)).elim
    (fun s hs => ⟨s, hs,
      (pending_table_invariant (Listen.reset NewUDPClient 0) failuresBetweenAcks).1 s hs⟩))

end udp

namespace main

open battleye

/-! ## `concatPackets`: each reply touches its own slot only -/

theorem concat_run_cons (s : List (List (List Nat)) × List (List Nat)) (p : BEServerCommand)
    (ps : List BEServerCommand) :
    concatPackets.run s (p :: ps) =
      (concatPackets.step s p).bind (fun s => concatPackets.run s ps) := rfl

/-- The case `p := <-c` reads and writes slot `p.Sequence` only, and what it sends depends
on that slot only. -/
theorem step_frame (b : List (List (List Nat))) (o : List (List Nat)) (p : BEServerCommand)
    (r : List (List (List Nat)) × List (List Nat))
    (h : concatPackets.step (b, o) p = .ok r) :
    ∃ e, r.2 = o ++ e ∧ (∀ s, s ≠ p.Sequence → r.1[s]? = b[s]?) ∧
      ∀ b2 o2, b2[p.Sequence]? = b[p.Sequence]? →
        ∃ r2, concatPackets.step (b2, o2) p = .ok r2 ∧ r2.2 = o2 ++ e ∧
          r2.1[p.Sequence]? = r.1[p.Sequence]? ∧ ∀ s, s ≠ p.Sequence → r2.1[s]? = b2[s]? := by
  unfold concatPackets.step at h ⊢
  cases hh : p.OptionalHeader with
  | none =>
    rw [hh] at h
    simp only at h
    cases h
    refine ⟨[p.Response], rfl, fun _ _ => rfl, ?_⟩
    intro b2 o2 hb
    simp only [concatPackets.step, hh]
    exact ⟨_, rfl, rfl, hb, fun _ _ => rfl⟩
  | some hd =>
    rw [hh] at h
    simp only at h
    cases hs : b[p.Sequence]? with
    | none => rw [hs] at h; cases h
    | some slot =>
      rw [hs] at h
      simp only [Run.ofOption, Run.bind] at h
      cases hf : concatPackets.fragment slot hd p.Response with
      | panic => rw [hf] at h; cases h
      | hang => rw [hf] at h; cases h
      | ok fr =>
        rw [hf] at h
        simp only at h
        cases h
        have hlt : p.Sequence < b.length := getElem?_lt_of_some b _ _ hs
        refine ⟨fr.2, rfl, fun s hne => List.getElem?_set_ne (fun e => hne e.symm), ?_⟩
        intro b2 o2 hb
        have hlt2 : p.Sequence < b2.length := getElem?_lt_of_some b2 _ _ hb
        simp only [hb, Run.ofOption, Run.bind, hf]
        refine ⟨_, rfl, rfl, ?_, fun s hne => List.getElem?_set_ne (fun e => hne e.symm)⟩
        simp only [List.getElem?_set_self hlt, List.getElem?_set_self hlt2]

/-- A run over replies to one sequence `s` reads and writes slot `s` only. -/
theorem single_run (s : Nat) (A : List BEServerCommand) (hA : ∀ p ∈ A, p.Sequence = s)
    (bA : List (List (List Nat))) (oA : List (List Nat))
    (rA : List (List (List Nat)) × List (List Nat))
    (h : concatPackets.run (bA, oA) A = .ok rA) :
    ∃ e, rA.2 = oA ++ e ∧ (∀ s', s' ≠ s → rA.1[s']? = bA[s']?) ∧
      ∀ b o, b[s]? = bA[s]? →
        ∃ r, concatPackets.run (b, o) A = .ok r ∧ r.2 = o ++ e ∧ r.1[s]? = rA.1[s]? ∧
          ∀ s', s' ≠ s → r.1[s']? = b[s']? := by
  induction A generalizing bA oA with
  | nil =>
    have h0 : concatPackets.run (bA, oA) [] = .ok (bA, oA) := rfl
    rw [h0] at h
    cases h
    refine ⟨[], by simp, fun _ _ => rfl, ?_⟩
    intro b o hb
    exact ⟨(b, o), rfl, by simp, hb, fun _ _ => rfl⟩
  | cons p ps ih =>
    have hp : p.Sequence = s := hA p (List.mem_cons_self _ _)
    rw [concat_run_cons] at h
    cases hs : concatPackets.step (bA, oA) p with
    | panic => rw [hs] at h; cases h
    | hang => rw [hs] at h; cases h
    | ok r1 =>
      rw [hs] at h
      simp only [Run.bind] at h
      obtain ⟨e1, he1, hf1, hdep1⟩ := step_frame bA oA p r1 hs
      rw [hp] at hf1 hdep1
      obtain ⟨e2, he2, hf2, hdep2⟩ := ih (fun q hq => hA q (List.mem_cons_of_mem _ hq))
        r1.1 r1.2 h
      refine ⟨e1 ++ e2, by rw [he2, he1, List.append_assoc],
        fun s' hs' => (hf2 s' hs').trans (hf1 s' hs'), ?_⟩
      intro b o hb
      obtain ⟨r2, hr2, ho2, hs2, hf2'⟩ := hdep1 b o hb
      obtain ⟨r3, hr3, ho3, hs3, hf3⟩ := hdep2 r2.1 r2.2 hs2
      refine ⟨r3, ?_, by rw [ho3, ho2, List.append_assoc], hs3,
        fun s' hs' => (hf3 s' hs').trans (hf2' s' hs')⟩
      rw [concat_run_cons, hr2]
      exact hr3

/-- Replies to two different sequences, interleaved: the run does what the two runs do on
their own slots, and sends what they send. -/
theorem interleave_run (s1 s2 : Nat) (hne : s1 ≠ s2) (cs : List Bool)
    (A B : List BEServerCommand) (hA : ∀ p ∈ A, p.Sequence = s1)
    (hB : ∀ p ∈ B, p.Sequence = s2)
    (b bA bB : List (List (List Nat))) (o oA oB : List (List Nat))
    (rA rB : List (List (List Nat)) × List (List Nat))
    (h1 : b[s1]? = bA[s1]?) (h2 : b[s2]? = bB[s2]?)
    (hrA : concatPackets.run (bA, oA) A = .ok rA)
    (hrB : concatPackets.run (bB, oB) B = .ok rB) :
    ∃ r eA eB, concatPackets.run (b, o) (interleave cs A B) = .ok r ∧
      rA.2 = oA ++ eA ∧ rB.2 = oB ++ eB ∧ r.2.Perm (o ++ (eA ++ eB)) ∧
      r.1[s1]? = rA.1[s1]? ∧ r.1[s2]? = rB.1[s2]? ∧
      ∀ s, s ≠ s1 → s ≠ s2 → r.1[s]? = b[s]? := by
  have hsingleB : ∀ (b : List (List (List Nat))) (o : List (List Nat)), b[s2]? = bB[s2]? →
      ∃ r eB, concatPackets.run (b, o) B = .ok r ∧ rB.2 = oB ++ eB ∧ r.2 = o ++ eB ∧
        r.1[s2]? = rB.1[s2]? ∧ ∀ s, s ≠ s2 → r.1[s]? = b[s]? := by
    intro b o hb
    obtain ⟨e, he, -, hdep⟩ := single_run s2 B hB bB oB rB hrB
    obtain ⟨r, hr, ho, hs, hf⟩ := hdep b o hb
    exact ⟨r, e, hr, he, ho, hs, hf⟩
  have hsingleA : ∀ (b : List (List (List Nat))) (o : List (List Nat)), b[s1]? = bA[s1]? →
      ∃ r eA, concatPackets.run (b, o) A = .ok r ∧ rA.2 = oA ++ eA ∧ r.2 = o ++ eA ∧
        r.1[s1]? = rA.1[s1]? ∧ ∀ s, s ≠ s1 → r.1[s]? = b[s]? := by
    intro b o hb
    obtain ⟨e, he, -, hdep⟩ := single_run s1 A hA bA oA rA hrA
    obtain ⟨r, hr, ho, hs, hf⟩ := hdep b o hb
    exact ⟨r, e, hr, he, ho, hs, hf⟩
  induction cs generalizing A B b bA bB o oA oB with
  | nil =>
    obtain ⟨r1, eA, hr1, heA, ho1, hs1, hf1⟩ := hsingleA b o h1
    obtain ⟨e, he, -, hdep⟩ := single_run s2 B hB bB oB rB hrB
    obtain ⟨r, hr, ho, hs, hf⟩ := hdep r1.1 r1.2 ((hf1 s2 (fun e => hne e.symm)).trans h2)
    refine ⟨r, eA, e, ?_, heA, he, ?_, ?_, hs, ?_⟩
    · show concatPackets.run (b, o) (A ++ B) = _
      rw [concat_run_append, hr1]
      exact hr
    · rw [ho, ho1, List.append_assoc]
    · rw [hf s1 hne, hs1]
    · intro s hs1' hs2'
      rw [hf s hs2', hf1 s hs1']
  | cons c cs ih =>
    cases c with
    | true =>
      cases A with
      | nil =>
        have h0 : concatPackets.run (bA, oA) [] = .ok (bA, oA) := rfl
        rw [h0] at hrA
        cases hrA
        obtain ⟨r, eB, hr, heB, ho, hs, hf⟩ := hsingleB b o h2
        refine ⟨r, [], eB, hr, by simp, heB, by rw [ho]; simp, ?_, hs,
          fun s _ hs2' => hf s hs2'⟩
        rw [hf s1 hne]
        exact h1
      | cons x xs =>
        have hx : x.Sequence = s1 := hA x (List.mem_cons_self _ _)
        rw [concat_run_cons] at hrA
        cases hsx : concatPackets.step (bA, oA) x with
        | panic => rw [hsx] at hrA; cases hrA
        | hang => rw [hsx] at hrA; cases hrA
        | ok rx =>
          rw [hsx] at hrA
          simp only [Run.bind] at hrA
          obtain ⟨e1, he1, -, hdep1⟩ := step_frame bA oA x rx hsx
          rw [hx] at hdep1
          obtain ⟨r2, hr2, ho2, hs2, hf2⟩ := hdep1 b o h1
          obtain ⟨r, eA, eB, hr, heA, heB, hperm, hr1, hr2', hfr⟩ :=
            ih xs B (fun q hq => hA q (List.mem_cons_of_mem _ hq)) hB r2.1 rx.1 bB r2.2 rx.2 oB
              hs2 ((hf2 s2 (fun e => hne e.symm)).trans h2) hrA hrB
              (fun b o hb => hsingleB b o hb)
              (fun b o hb => by
                obtain ⟨e, he, -, hdep⟩ := single_run s1 xs
                  (fun q hq => hA q (List.mem_cons_of_mem _ hq)) rx.1 rx.2 rA hrA
                obtain ⟨r, hr, ho, hs, hf⟩ := hdep b o hb
                exact ⟨r, e, hr, he, ho, hs, hf⟩)
          refine ⟨r, e1 ++ eA, eB, ?_, by rw [heA, he1, List.append_assoc], heB, ?_, hr1, hr2',
            ?_⟩
          · show concatPackets.run (b, o) (x :: interleave cs xs B) = _
            rw [concat_run_cons, hr2]
            exact hr
          · rw [ho2] at hperm
            simpa [List.append_assoc] using hperm
          · intro s hs1' hs2'
            rw [hfr s hs1' hs2', hf2 s hs1']
    | false =>
      cases B with
      | nil =>
        have h0 : concatPackets.run (bB, oB) [] = .ok (bB, oB) := rfl
        rw [h0] at hrB
        cases hrB
        obtain ⟨r, eA, hr, heA, ho, hs, hf⟩ := hsingleA b o h1
        refine ⟨r, eA, [], ?_, heA, by simp, by rw [ho]; simp, hs, ?_,
          fun s hs1' _ => hf s hs1'⟩
        · cases A <;> exact hr
        · rw [hf s2 (fun e => hne e.symm)]
          exact h2
      | cons y ys =>
        have hy : y.Sequence = s2 := hB y (List.mem_cons_self _ _)
        rw [concat_run_cons] at hrB
        cases hsy : concatPackets.step (bB, oB) y with
        | panic => rw [hsy] at hrB; cases hrB
        | hang => rw [hsy] at hrB; cases hrB
        | ok ry =>
          rw [hsy] at hrB
          simp only [Run.bind] at hrB
          obtain ⟨e1, he1, -, hdep1⟩ := step_frame bB oB y ry hsy
          rw [hy] at hdep1
          obtain ⟨r2, hr2, ho2, hs2, hf2⟩ := hdep1 b o h2
          obtain ⟨r, eA, eB, hr, heA, heB, hperm, hr1, hr2', hfr⟩ :=
            ih A ys hA (fun q hq => hB q (List.mem_cons_of_mem _ hq)) r2.1 bA ry.1 r2.2 oA ry.2
              ((hf2 s1 hne).trans h1) hs2 hrA hrB
              (fun b o hb => by
                obtain ⟨e, he, -, hdep⟩ := single_run s2 ys
                  (fun q hq => hB q (List.mem_cons_of_mem _ hq)) ry.1 ry.2 rB hrB
                obtain ⟨r, hr, ho, hs, hf⟩ := hdep b o hb
                exact ⟨r, e, hr, he, ho, hs, hf⟩)
              (fun b o hb => hsingleA b o hb)
          refine ⟨r, eA, e1 ++ eB, ?_, heA, by rw [heB, he1, List.append_assoc], ?_, hr1, hr2',
            ?_⟩
          · have hL : interleave (false :: cs) A (y :: ys) = y :: interleave cs A ys := by
              cases A <;> rfl
            rw [hL, concat_run_cons, hr2]
            exact hr
          · rw [ho2] at hperm
            refine hperm.trans ?_
            rw [List.append_assoc]
            refine List.Perm.append_left o ?_
            rw [← List.append_assoc, ← List.append_assoc]
            exact List.Perm.append_right eB List.perm_append_comm
          · intro s hs1' hs2'
            rw [hfr s hs1' hs2', hf2 s hs2']

/-! ## Claims about out-of-order and interleaved replies -/

/-- C23. Out-of-order reassembly without duplicates: for every sequence `seq` whose slot is
empty, every message of `N` fragments with `1 ≤ N ≤ 99` and every permutation `order` of
the indices `0..N-1`, the fragments delivered once each in that order make the reassembler
send nothing for the first `N - 1` of them and on the `N`-th send exactly
`payload_0 ++ ... ++ payload_{N-1}`, in index order; afterwards slot `seq` is empty again
(count `0`, the 99 fragment strings empty) and the other slots are as before. -/
theorem reassembly_out_of_order (b : List (List (List Nat))) (out : List (List Nat))
    (seq : Nat) (payloads : List (List Nat)) (order : List Nat) (c : List Nat)
    (hslot : b[seq]? = some (c :: List.replicate 99 [])) (hc : c = [] ∨ c = [0x30])
    (h1 : 1 ≤ payloads.length) (h99 : payloads.length ≤ 99)
    (hperm : order.Perm (List.range payloads.length)) :
    ∃ b', concatPackets.run (b, out) (fragmentsOf seq payloads order) =
        .ok (b', out ++ [payloads.flatten]) ∧
      b'[seq]? = some ([0x30] :: List.replicate 99 []) ∧
      (∀ s, s ≠ seq → b'[s]? = b[s]?) ∧
      ∀ j, j < payloads.length →
        ∃ b'', concatPackets.run (b, out) (fragmentsOf seq payloads (order.take j)) =
          .ok (b'', out) := by
  obtain ⟨hrun, hpre⟩ := run_each_once b out seq payloads order c hslot hc h99 hperm
  have hlt : seq < b.length := getElem?_lt_of_some b seq _ hslot
  exact ⟨_, hrun h1, List.getElem?_set_self hlt,
    fun s hs => List.getElem?_set_ne (fun e => hs e.symm), hpre⟩

set_option maxRecDepth 100000 in
/-- Witness of `reassembly_out_of_order`: sequence 5, the fragments `AAA` (index 0), `CCC`
(index 2), `BBB` (index 1) of three give `AAABBBCCC`. -/
theorem reassembly_out_of_order_witness :
    (packetbuffer[5]? = some ([] :: List.replicate 99 []) ∧
      (([] : List Nat) = [] ∨ ([] : List Nat) = [0x30]) ∧
      1 ≤ [[0x41, 0x41, 0x41], [0x42, 0x42, 0x42], [0x43, 0x43, 0x43]].length ∧
      [[0x41, 0x41, 0x41], [0x42, 0x42, 0x42], [0x43, 0x43, 0x43]].length ≤ 99 ∧
      [0, 2, 1].Perm
        (List.range [[0x41, 0x41, 0x41], [0x42, 0x42, 0x42], [0x43, 0x43, 0x43]].length)) ∧
    (∃ b', concatPackets.run (packetbuffer, [])
          (fragmentsOf 5 [[0x41, 0x41, 0x41], [0x42, 0x42, 0x42], [0x43, 0x43, 0x43]]
            [0, 2, 1]) =
        .ok (b', [[0x41, 0x41, 0x41, 0x42, 0x42, 0x42, 0x43, 0x43, 0x43]]) ∧
      b'[5]? = some ([0x30] :: List.replicate 99 []) ∧
      (∀ s, s ≠ 5 → b'[s]? = packetbuffer[s]?) ∧
      ∀ j, j < [[0x41, 0x41, 0x41], [0x42, 0x42, 0x42], [0x43, 0x43, 0x43]].length →
        ∃ b'', concatPackets.run (packetbuffer, [])
            (fragmentsOf 5 [[0x41, 0x41, 0x41], [0x42, 0x42, 0x42], [0x43, 0x43, 0x43]]
              ([0, 2, 1].take j)) = .ok (b'', [])) :=
  ⟨⟨rfl, Or.inl rfl, by decide, by decide, by decide⟩,
    reassembly_out_of_order packetbuffer [] 5
      [[0x41, 0x41, 0x41], [0x42, 0x42, 0x42], [0x43, 0x43, 0x43]] [0, 2, 1] []
      rfl (Or.inl rfl) (by decide) (by decide) (by decide)⟩

/-- C27. Reassembly slots are independent: a case `p := <-c` that returns leaves every slot
other than `p.Sequence` as it was; a reply without sub-header changes no slot and sends
exactly its `Response`; and when the replies `A` to sequence `s1` and the replies `B` to a
different sequence `s2` are each processed without a panic from a buffer `b`, every
interleaving of `A` and `B` is processed without a panic from `b` as well, sends the
outputs of the two runs (in some order), leaves slot `s1` as the run over `A` does, slot `s2`
as the run over `B` does, and the other slots as they were. -/
theorem reassembly_slots_independent :
    (∀ (b : List (List (List Nat))) (o : List (List Nat)) (p : BEServerCommand)
        (r : List (List (List Nat)) × List (List Nat)),
      concatPackets.step (b, o) p = .ok r → ∀ s, s ≠ p.Sequence → r.1[s]? = b[s]?) ∧
    (∀ (b : List (List (List Nat))) (o : List (List Nat)) (p : BEServerCommand),
      p.OptionalHeader = none → concatPackets.step (b, o) p = .ok (b, o ++ [p.Response])) ∧
    (∀ (s1 s2 : Nat) (cs : List Bool) (A B : List BEServerCommand)
        (b : List (List (List Nat))) (rA rB : List (List (List Nat)) × List (List Nat)),
      s1 ≠ s2 → (∀ p ∈ A, p.Sequence = s1) → (∀ p ∈ B, p.Sequence = s2) →
      concatPackets.run (b, []) A = .ok rA → concatPackets.run (b, []) B = .ok rB →
      ∃ r, concatPackets.run (b, []) (interleave cs A B) = .ok r ∧
        r.2.Perm (rA.2 ++ rB.2) ∧ r.1[s1]? = rA.1[s1]? ∧ r.1[s2]? = rB.1[s2]? ∧
        ∀ s, s ≠ s1 → s ≠ s2 → r.1[s]? = b[s]?) := by
  refine ⟨?_, ?_, ?_⟩
  · intro b o p r h
    obtain ⟨e, -, hf, -⟩ := step_frame b o p r h
    exact hf
  · intro b o p hp
    unfold concatPackets.step
    rw [hp]
  · intro s1 s2 cs A B b rA rB hne hA hB hrA hrB
    obtain ⟨r, eA, eB, hr, heA, heB, hperm, h1, h2, hf⟩ :=
      interleave_run s1 s2 hne cs A B hA hB b b b [] [] [] rA rB rfl rfl hrA hrB
    refine ⟨r, hr, ?_, h1, h2, hf⟩
    rw [heA, heB]
    simpa using hperm

set_option maxRecDepth 100000 in
/-- Witness of `reassembly_slots_independent`: the two fragments of a reply to sequence 5
and the two fragments of a reply to sequence 7, taken in turn. -/
theorem reassembly_slots_independent_witness :
    ∃ rA rB r,
      concatPackets.run (packetbuffer, []) (fragmentsOf 5 [[0x41], [0x42]] [0, 1]) = .ok rA ∧
      concatPackets.run (packetbuffer, []) (fragmentsOf 7 [[0x43], [0x44]] [1, 0]) = .ok rB ∧
      rA.2 = [[0x41, 0x42]] ∧ rB.2 = [[0x43, 0x44]] ∧
      concatPackets.run (packetbuffer, [])
        (interleave [true, false, true, false] (fragmentsOf 5 [[0x41], [0x42]] [0, 1])
          (fragmentsOf 7 [[0x43], [0x44]] [1, 0])) = .ok r ∧
      r.2.Perm (rA.2 ++ rB.2) ∧ r.1[5]? = rA.1[5]? ∧ r.1[7]? = rB.1[7]? ∧
      ∀ s, s ≠ 5 → s ≠ 7 → r.1[s]? = packetbuffer[s]? :=
  (reassembly_slots_independent.2.2 5 7 [true, false, true, false]
      (fragmentsOf 5 [[0x41], [0x42]] [0, 1]) (fragmentsOf 7 [[0x43], [0x44]] [1, 0])
      packetbuffer _ _ (by decide) (by decide) (by decide) rfl rfl).elim
    (fun r h => ⟨_, _, r, rfl, rfl, rfl, rfl, h⟩)

end main

namespace udp

open battleye

/-! ## The writer: between two ticks -/

/-- A dequeue or a reply notification changes no retry count and writes no command frame. -/
theorem step_between_ticks (s t : UDPClient × Pending) (i : Input) (hi : i.Constructed)
    (htick : i.isTick = false) (hc : s.1.cmdCounter < 256) (hw : s.2.Indexable)
    (h : ProcessPendingPackets.step s i = some t) :
    t.2.pendingRetries = s.2.pendingRetries ∧
      ∀ f : List Nat, f[7]? = some 1 → t.1.con.written.count f = s.1.con.written.count f := by
  cases i with
  | tick now => simp [Input.isTick] at htick
  | chk x =>
    obtain ⟨w', e, r, -, -, -, -⟩ := caseChk_spec s.1 s.2 x hw
    have h0 : ProcessPendingPackets.step s (.chk x) = some (s.1, w') := e
    rw [h0] at h
    rw [← Option.some.inj h]
    exact ⟨r, fun _ _ => rfl⟩
  | out q =>
    by_cases hq : q.constructorType = 1
    · cases q with
      | ClientCommand c =>
        have h0 : ProcessPendingPackets.step s (.out (.ClientCommand c)) = _ :=
          caseOut_command s.1 s.2 c hi hc
        rw [h0] at h
        rw [← Option.some.inj h]
        exact ⟨rfl, fun _ _ => rfl⟩
      | _ => simp [BEPacket.constructorType] at hq
    · obtain ⟨out, hm, e⟩ := caseOut_other s.1 s.2 q hi hq
      have h0 : ProcessPendingPackets.step s (.out q) = _ := e
      rw [h0] at h
      rw [← Option.some.inj h]
      refine ⟨rfl, fun f h7 => ?_⟩
      have h7o := marshal_type_byte q hi out hm
      have hne : out ≠ f := by
        intro e'
        rw [e', h7] at h7o
        exact hq (Option.some.inj h7o).symm
      simp [UDPClient.Write, List.count_append, List.count_cons, hne]

/-- The frame `f` of slot `k` through dequeues and reply notifications that neither
acknowledge it nor bring the counter round to `k`: it stays where it is, nothing is written
of it or of any other command frame, and no retry count changes. -/
theorem slot_wait_run (k : Nat) (f : List Nat) (ins : List Input) (s : UDPClient × Pending)
    (h : SlotInv k f s) (hslot : s.2.pending k = some f ∨ s.2.pending k = none)
    (hins : ∀ i ∈ ins, i.Constructed) (hnt : ∀ i ∈ ins, i.isTick = false)
    (hack : ∀ x, Input.chk x ∈ ins → x.Sequence ≠ k)
    (hreuse : ∀ n, n < (ins.filter Input.isCommand).length →
      (s.1.cmdCounter + n) % 256 ≠ k) :
    ∃ t, ProcessPendingPackets.run s ins = some t ∧ SlotInv k f t ∧
      t.1.cmdCounter = (s.1.cmdCounter + (ins.filter Input.isCommand).length) % 256 ∧
      t.2.pending k = s.2.pending k ∧ t.2.pendingRetries = s.2.pendingRetries ∧
      ∀ g : List Nat, g[7]? = some 1 → t.1.con.written.count g = s.1.con.written.count g := by
  induction ins generalizing s with
  | nil =>
    refine ⟨s, rfl, h, ?_, rfl, rfl, fun _ _ => rfl⟩
    simp only [List.filter_nil, List.length_nil, Nat.add_zero]
    exact (Nat.mod_eq_of_lt h.2.2.2.2).symm
  | cons i ins ih =>
    obtain ⟨hr0, hr1⟩ := reuse_head k s.1.cmdCounter i ins h.2.2.2.2 hreuse
    have hi := hins i (List.mem_cons_self _ _)
    have hti := hnt i (List.mem_cons_self _ _)
    obtain ⟨s1, e1, hI, hcnt, q1, -, -, -⟩ := slot_other_step k f s i h hslot hi hti
      (fun x hx => hack x (hx ▸ List.mem_cons_self _ _)) hr0
    obtain ⟨b1, b2⟩ := step_between_ticks s s1 i hi hti h.2.2.2.2
      (SlotInv.indexable k f s h) e1
    obtain ⟨t, e, a1, a2, a3, a4, a5⟩ := ih s1 hI (by rw [q1]; exact hslot)
      (fun j hj => hins j (List.mem_cons_of_mem _ hj))
      (fun j hj => hnt j (List.mem_cons_of_mem _ hj))
      (fun x hx => hack x (List.mem_cons_of_mem _ hx)) (by rw [hcnt]; exact hr1)
    refine ⟨t, ?_, a1, ?_, a3.trans q1, a4.trans b1, fun g hg => (a5 g hg).trans (b2 g hg)⟩
    · rw [run_cons, e1, Option.some_bind]
      exact e
    · rw [a2, hcnt]
      cases hic : i.isCommand with
      | true => simp [List.filter_cons, hic]; omega
      | false => simp [List.filter_cons, hic]

/-- A run of the writer only adds to what was written to the socket. -/
theorem run_written_prefix (ins : List Input) (s : UDPClient × Pending)
    (hi : ∀ i ∈ ins, i.Constructed) (hc : s.1.cmdCounter < 256) (hw : s.2.Indexable) :
    ∃ t e, ProcessPendingPackets.run s ins = some t ∧
      t.1.con.written = s.1.con.written ++ e ∧ t.1.cmdCounter < 256 := by
  induction ins generalizing s with
  | nil => exact ⟨s, [], rfl, by simp, hc⟩
  | cons i ins ih =>
    have hi0 := hi i (List.mem_cons_self _ _)
    obtain ⟨s1, e1, hw1, hc1⟩ := step_counter s i hi0 hc hw
    have hc1' : s1.1.cmdCounter < 256 := by rw [hc1]; exact Nat.mod_lt _ (by norm_num)
    have hpre : ∃ e, s1.1.con.written = s.1.con.written ++ e := by
      cases i with
      | tick now =>
        have h0 : ProcessPendingPackets.step s (.tick now) =
            some (ProcessPendingPackets.caseTick s.1 s.2 now) := congrArg some (Eq.refl _)
        rw [h0] at e1
        rw [← Option.some.inj e1]
        exact ⟨_, caseTick_written s.1 s.2 now⟩
      | chk x =>
        obtain ⟨w', e, -, -, -, -, -⟩ := caseChk_spec s.1 s.2 x hw
        have h0 : ProcessPendingPackets.step s (.chk x) = some (s.1, w') := e
        rw [h0] at e1
        rw [← Option.some.inj e1]
        exact ⟨[], by simp⟩
      | out q =>
        by_cases hq : q.constructorType = 1
        · cases q with
          | ClientCommand c =>
            have h0 : ProcessPendingPackets.step s (.out (.ClientCommand c)) = _ :=
              caseOut_command s.1 s.2 c hi0 hc
            rw [h0] at e1
            rw [← Option.some.inj e1]
            exact ⟨[], by simp⟩
          | _ => simp [BEPacket.constructorType] at hq
        · obtain ⟨out, -, e⟩ := caseOut_other s.1 s.2 q hi0 hq
          have h0 : ProcessPendingPackets.step s (.out q) = _ := e
          rw [h0] at e1
          rw [← Option.some.inj e1]
          exact ⟨[out], rfl⟩
    obtain ⟨e0, he0⟩ := hpre
    obtain ⟨t, e, ht, he, hct⟩ := ih s1 (fun j hj => hi j (List.mem_cons_of_mem _ hj)) hc1' hw1
    refine ⟨t, e0 ++ e, ?_, by rw [he, he0, List.append_assoc], hct⟩
    rw [run_cons, e1, Option.some_bind]
    exact ht

/-- In a list sorted by a key, an element with the smaller key stands before one with the
larger key. -/
theorem sorted_order (L : List (List Nat)) (x y : List Nat) (i j : Nat)
    (hs : L.Pairwise (fun f g => ∃ i j, f[8]? = some i ∧ g[8]? = some j ∧ i < j))
    (hx : x ∈ L) (hy : y ∈ L) (hxi : x[8]? = some i) (hyj : y[8]? = some j) (hij : i < j) :
    ∃ l1 l2 l3, L = l1 ++ x :: l2 ++ y :: l3 := by
  obtain ⟨l1, r, rfl⟩ := List.append_of_mem hx
  rw [List.pairwise_append] at hs
  obtain ⟨-, hr, hlr⟩ := hs
  rcases List.mem_append.mp hy with hy1 | hy2
  · obtain ⟨a, b, ha, hb, hab⟩ := hlr y hy1 x (List.mem_cons_self _ _)
    rw [hyj] at ha
    rw [hxi] at hb
    cases ha
    cases hb
    omega
  · rcases List.mem_cons.mp hy2 with e | hy3
    · subst e
      rw [hxi] at hyj
      cases hyj
      omega
    · obtain ⟨l2, l3, rfl⟩ := List.append_of_mem hy3
      exact ⟨l1, l2, l3, by simp⟩

/-! ## The writer: first transmissions -/

theorem commandFrame_type (c : Nat) (p : BEClientCommand) : (commandFrame c p)[7]? = some 1 := by
  simp [commandFrame, referenceFrame, littleEndian32]

theorem commandFrame_seq (c : Nat) (p : BEClientCommand) : (commandFrame c p)[8]? = some c := by
  simp [commandFrame, referenceFrame, littleEndian32]

/-- Dequeuing the command `p`: nothing is written, the frame is stored in the slot of the
counter, and the table keeps its frames indexed by their sequence byte. -/
theorem dequeue_stores (s : UDPClient × Pending) (p : BEClientCommand)
    (hp : (BEPacket.ClientCommand p).Constructed) (hc : s.1.cmdCounter < 256)
    (hinv : ∀ k f, s.2.pending k = some f → f[8]? = some k) :
    ∃ s1, ProcessPendingPackets.step s (.out (.ClientCommand p)) = some s1 ∧
      s1.1.con.written = s.1.con.written ∧
      s1.1.cmdCounter = (s.1.cmdCounter + 1) % 256 ∧
      s1.2.pending s.1.cmdCounter = some (commandFrame s.1.cmdCounter p) ∧
      s1.2.pendingRetries = s.2.pendingRetries ∧
      SlotInv s.1.cmdCounter (commandFrame s.1.cmdCounter p) s1 := by
  have e := caseOut_command s.1 s.2 p hp hc
  refine ⟨_, e, rfl, rfl, ?_, rfl, hc, commandFrame_type _ _, commandFrame_seq _ _, ?_, ?_⟩
  · simp [commandFrame]
  · intro j g hg
    dsimp only at hg
    by_cases hj : j = s.1.cmdCounter
    · subst hj
      rw [Function.update_same] at hg
      cases hg
      exact commandFrame_seq _ _
    · rw [Function.update_noteq hj] at hg
      exact hinv j g hg
  · exact Nat.mod_lt _ (by norm_num)

/-- A tick writes the frame of a slot that is pending with fewer than 5 retries. -/
theorem tick_writes_slot (s : UDPClient × Pending) (now k : Nat) (f : List Nat) (hk : k < 256)
    (hf : s.2.pending k = some f) (hr : s.2.pendingRetries k < 5) :
    (ProcessPendingPackets.caseTick s.1 s.2 now).1.con.written =
        s.1.con.written ++ (List.range 256).filterMap (slotSend s.2) ∧
      f ∈ (List.range 256).filterMap (slotSend s.2) := by
  refine ⟨caseTick_written s.1 s.2 now, ?_⟩
  rw [List.mem_filterMap]
  refine ⟨k, List.mem_range.mpr hk, ?_⟩
  unfold slotSend
  rw [if_pos hr]
  exact hf

/-- What one tick writes is sorted by sequence byte when the table is indexed by it. -/
theorem tick_sorted (w : Pending) (hinv : ∀ k f, w.pending k = some f → f[8]? = some k) :
    ((List.range 256).filterMap (slotSend w)).Pairwise
      (fun f g => ∃ i j, f[8]? = some i ∧ g[8]? = some j ∧ i < j) := by
  refine List.Pairwise.filterMap _ ?_ (List.pairwise_lt_range 256)
  intro a a' haa' b hb b' hb'
  have hb1 : w.pending a = some b := by
    unfold slotSend at hb
    by_cases h : w.pendingRetries a < 5
    · simpa [h] using hb
    · simp [h] at hb
  have hb2 : w.pending a' = some b' := by
    unfold slotSend at hb'
    by_cases h : w.pendingRetries a' < 5
    · simpa [h] using hb'
    · simp [h] at hb'
  exact ⟨a, a', hinv a b hb1, hinv a' b' hb2, haa'⟩

/-- C10, amended.  Command frames are not written to the socket when they are dequeued but
by the ticks that follow, so the first transmissions keep the dequeue order across ticks and
follow the slot order within one tick.  Let the command `a` be dequeued at counter `ca`,
followed by `mid`, and let `cb` be the counter after them; `mid` and `mid'` hold dequeues
and reply notifications but no tick, fewer than 255 commands between them, and no reply that
carries `ca` or `cb`; the packets are constructor-built, the table is indexed by sequence
byte, and the retry counts of the slots `ca` and `cb` are below 5.  Then:
* the dequeue of `a` writes nothing and stores the frame of `a` in slot `ca`;
* nothing of that frame is written during `mid`, and a tick after `mid` writes it; when a
  command `b` is dequeued after that tick, whatever constructor-built inputs `mid2` lie in
  between, the frame of `a` is already on the socket, and the dequeue of `b` again writes
  nothing and only stores the frame of `b`;
* when `b` is dequeued after `mid` instead of the tick (it gets sequence `cb`) and `mid'`
  follows, neither frame has been written, a tick then writes both, and what the tick writes
  is sorted by sequence byte as an integer: the frame of `a` comes before the frame of `b`
  when `ca < cb`, and the frame of `b` comes first when `cb < ca`, that is after the counter
  has wrapped. -/
theorem first_transmissions_follow_ticks (s0 : UDPClient × Pending) (a b : BEClientCommand)
    (mid mid' mid2 : List Input) (now : Nat)
    (ha : (BEPacket.ClientCommand a).Constructed) (hb : (BEPacket.ClientCommand b).Constructed)
    (hc : s0.1.cmdCounter < 256)
    (hinv : ∀ k f, s0.2.pending k = some f → f[8]? = some k)
    (hmid : ∀ i ∈ mid ++ mid', i.Constructed ∧ i.isTick = false)
    (hack : ∀ x, Input.chk x ∈ mid ++ mid' → x.Sequence ≠ s0.1.cmdCounter ∧
      x.Sequence ≠ (s0.1.cmdCounter + 1 + (mid.filter Input.isCommand).length) % 256)
    (hfew : ((mid ++ mid').filter Input.isCommand).length < 255)
    (hmid2 : ∀ i ∈ mid2, i.Constructed)
    (hra : s0.2.pendingRetries s0.1.cmdCounter < 5)
    (hrb : s0.2.pendingRetries
      ((s0.1.cmdCounter + 1 + (mid.filter Input.isCommand).length) % 256) < 5) :
    (∃ s1, ProcessPendingPackets.step s0 (.out (.ClientCommand a)) = some s1 ∧
      s1.1.con.written = s0.1.con.written ∧
      s1.2.pending s0.1.cmdCounter = some (commandFrame s0.1.cmdCounter a)) ∧
    (∃ s2 L e s4 s5,
      ProcessPendingPackets.run s0 (.out (.ClientCommand a) :: mid) = some s2 ∧
      s2.1.con.written.count (commandFrame s0.1.cmdCounter a) =
        s0.1.con.written.count (commandFrame s0.1.cmdCounter a) ∧
      (ProcessPendingPackets.caseTick s2.1 s2.2 now).1.con.written = s2.1.con.written ++ L ∧
      commandFrame s0.1.cmdCounter a ∈ L ∧
      ProcessPendingPackets.run s0
        ((.out (.ClientCommand a) :: mid) ++ (.tick now :: mid2)) = some s4 ∧
      s4.1.con.written = s2.1.con.written ++ L ++ e ∧
      ProcessPendingPackets.step s4 (.out (.ClientCommand b)) = some s5 ∧
      s5.1.con.written = s4.1.con.written ∧
      s5.2.pending s4.1.cmdCounter = some (commandFrame s4.1.cmdCounter b)) ∧
    (∃ s3 L,
      ProcessPendingPackets.run s0
        ((.out (.ClientCommand a) :: mid) ++ (.out (.ClientCommand b) :: mid')) = some s3 ∧
      s3.1.con.written.count (commandFrame s0.1.cmdCounter a) =
        s0.1.con.written.count (commandFrame s0.1.cmdCounter a) ∧
      s3.1.con.written.count (commandFrame
          ((s0.1.cmdCounter + 1 + (mid.filter Input.isCommand).length) % 256) b) =
        s0.1.con.written.count (commandFrame
          ((s0.1.cmdCounter + 1 + (mid.filter Input.isCommand).length) % 256) b) ∧
      (ProcessPendingPackets.caseTick s3.1 s3.2 now).1.con.written = s3.1.con.written ++ L ∧
      L.Pairwise (fun f g => ∃ i j, f[8]? = some i ∧ g[8]? = some j ∧ i < j) ∧
      commandFrame s0.1.cmdCounter a ∈ L ∧
      commandFrame ((s0.1.cmdCounter + 1 + (mid.filter Input.isCommand).length) % 256) b ∈ L ∧
      (s0.1.cmdCounter < (s0.1.cmdCounter + 1 + (mid.filter Input.isCommand).length) % 256 →
        ∃ l1 l2 l3, L = l1 ++ commandFrame s0.1.cmdCounter a :: l2 ++
          commandFrame ((s0.1.cmdCounter + 1 + (mid.filter Input.isCommand).length) % 256) b
            :: l3) ∧
      ((s0.1.cmdCounter + 1 + (mid.filter Input.isCommand).length) % 256 < s0.1.cmdCounter →
        ∃ l1 l2 l3, L = l1 ++
          commandFrame ((s0.1.cmdCounter + 1 + (mid.filter Input.isCommand).length) % 256) b
            :: l2 ++ commandFrame s0.1.cmdCounter a :: l3)) := by
  have hlen : ((mid ++ mid').filter Input.isCommand).length =
      (mid.filter Input.isCommand).length + (mid'.filter Input.isCommand).length := by
    rw [List.filter_append, List.length_append]
  rw [hlen] at hfew
  generalize hn1 : (mid.filter Input.isCommand).length = n1 at *
  generalize hn' : (mid'.filter Input.isCommand).length = n' at *
  obtain ⟨s1, e1, w1, c1, p1, r1, I1⟩ := dequeue_stores s0 a ha hc hinv
  generalize s0.1.cmdCounter = ca at *
  have hmidL : ∀ i ∈ mid, i.Constructed ∧ i.isTick = false :=
    fun i hi => hmid i (List.mem_append_left _ hi)
  have hmidR : ∀ i ∈ mid', i.Constructed ∧ i.isTick = false :=
    fun i hi => hmid i (List.mem_append_right _ hi)
  -- the dequeues and replies between `a` and the tick
  obtain ⟨s2, e2, I2, c2, p2, r2, cnt2⟩ := slot_wait_run ca (commandFrame ca a) mid s1 I1
    (Or.inl p1) (fun i hi => (hmidL i hi).1) (fun i hi => (hmidL i hi).2)
    (fun x hx => (hack x (List.mem_append_left _ hx)).1)
    (by
      intro n hn
      rw [c1]
      rw [hn1] at hn
      omega)
  rw [hn1, c1] at c2
  have hcb : s2.1.cmdCounter = (ca + 1 + n1) % 256 := by rw [c2]; omega
  have hrun2 : ProcessPendingPackets.run s0 (.out (.ClientCommand a) :: mid) = some s2 := by
    rw [run_cons, e1, Option.some_bind]
    exact e2
  have hcount2 : s2.1.con.written.count (commandFrame ca a) =
      s0.1.con.written.count (commandFrame ca a) := by
    rw [cnt2 _ (commandFrame_type _ _), w1]
  refine ⟨⟨s1, e1, w1, p1⟩, ?_, ?_⟩
  · obtain ⟨tw, hmem⟩ := tick_writes_slot s2 now ca (commandFrame ca a) I1.1 (p2.trans p1)
      (by rw [r2, r1]; exact hra)
    obtain ⟨s4, e, e4, he, hc4⟩ := run_written_prefix mid2
      (ProcessPendingPackets.caseTick s2.1 s2.2 now) hmid2
      (by rw [caseTick_cmdCounter]; exact I2.2.2.2.2)
      (caseTick_indexable s2.1 s2.2 now (SlotInv.indexable _ _ _ I2))
    obtain ⟨s5, e5, -, w5, -, p5⟩ := caseOut_command_facts s4.1 s4.2 b hb hc4
    refine ⟨s2, _, e, s4, s5, hrun2, hcount2, tw, hmem, ?_, by rw [he, tw], e5, w5, ?_⟩
    · rw [run_append, hrun2, Option.some_bind, run_tick]
      exact e4
    · rw [p5, Function.update_same]
      rfl
  · -- `b` is dequeued before the tick
    obtain ⟨sb, eb, wb, cbq, pb, rb, Ib⟩ := dequeue_stores s2 b hb I2.2.2.2.2 I2.2.2.2.1
    rw [hcb] at cbq pb Ib
    obtain ⟨t, et, It, ct, pt, rt, cntt⟩ := slot_wait_run ((ca + 1 + n1) % 256)
      (commandFrame ((ca + 1 + n1) % 256) b) mid' sb Ib (Or.inl pb)
      (fun i hi => (hmidR i hi).1) (fun i hi => (hmidR i hi).2)
      (fun x hx => (hack x (List.mem_append_right _ hx)).2)
      (by
        intro n hn
        rw [cbq]
        rw [hn'] at hn
        omega)
    -- the same run, seen from the slot of `a`
    obtain ⟨t', et', It', -, pt', rt', cntt'⟩ := slot_wait_run ca (commandFrame ca a)
      (mid ++ (.out (.ClientCommand b) :: mid')) s1 I1 (Or.inl p1)
      (by
        intro i hi
        rcases List.mem_append.mp hi with h | h
        · exact (hmidL i h).1
        · rcases List.mem_cons.mp h with h | h
          · subst h; exact hb
          · exact (hmidR i h).1)
      (by
        intro i hi
        rcases List.mem_append.mp hi with h | h
        · exact (hmidL i h).2
        · rcases List.mem_cons.mp h with h | h
          · subst h; rfl
          · exact (hmidR i h).2)
      (by
        intro x hx
        rcases List.mem_append.mp hx with h | h
        · exact (hack x (List.mem_append_left _ h)).1
        · rcases List.mem_cons.mp h with h | h
          · cases h
          · exact (hack x (List.mem_append_right _ h)).1)
      (by
        intro n hn
        rw [c1]
        simp only [List.filter_append, List.filter_cons, Input.isCommand, if_true,
          List.length_append, List.length_cons, hn1, hn'] at hn
        omega)
    have hsame : t' = t := by
      have h1 : ProcessPendingPackets.run s1 (mid ++ (.out (.ClientCommand b) :: mid')) =
          some t := by
        rw [run_append, e2, Option.some_bind, run_cons, eb, Option.some_bind]
        exact et
      rw [h1] at et'
      exact (Option.some.inj et').symm
    subst hsame
    have hrun3 : ProcessPendingPackets.run s0
        ((.out (.ClientCommand a) :: mid) ++ (.out (.ClientCommand b) :: mid')) = some t' := by
      rw [List.cons_append, run_cons, e1, Option.some_bind]
      exact et'
    have hretries : t'.2.pendingRetries = s0.2.pendingRetries := by rw [rt', r1]
    obtain ⟨tw, hmemA⟩ := tick_writes_slot t' now ca (commandFrame ca a) I1.1 (pt'.trans p1)
      (by rw [hretries]; exact hra)
    obtain ⟨-, hmemB⟩ := tick_writes_slot t' now ((ca + 1 + n1) % 256)
      (commandFrame ((ca + 1 + n1) % 256) b) Ib.1 (pt.trans pb) (by rw [hretries]; exact hrb)
    have hsorted := tick_sorted t'.2 It'.2.2.2.1
    refine ⟨t', _, hrun3, ?_, ?_, tw, hsorted, hmemA, hmemB, ?_, ?_⟩
    · rw [cntt' _ (commandFrame_type _ _), w1]
    · rw [cntt' _ (commandFrame_type _ _), w1]
    · intro hlt
      exact sorted_order _ _ _ _ _ hsorted hmemA hmemB (commandFrame_seq _ _)
        (commandFrame_seq _ _) hlt
    · intro hlt
      exact sorted_order _ _ _ _ _ hsorted hmemB hmemA (commandFrame_seq _ _)
        (commandFrame_seq _ _) hlt

/-- Witness of `first_transmissions_follow_ticks`: `wrapFirst` is dequeued at counter 255
and `wrapSecond` at counter 0, with nothing in between. -/
theorem first_transmissions_follow_ticks_witness :
    (∃ s1, ProcessPendingPackets.step wrapStart (.out (.ClientCommand wrapFirst)) = some s1 ∧
      s1.1.con.written = wrapStart.1.con.written ∧
      s1.2.pending 255 = some (commandFrame 255 wrapFirst)) ∧
    (∃ s2 L e s4 s5,
      ProcessPendingPackets.run wrapStart [.out (.ClientCommand wrapFirst)] = some s2 ∧
      s2.1.con.written.count (commandFrame 255 wrapFirst) =
        wrapStart.1.con.written.count (commandFrame 255 wrapFirst) ∧
      (ProcessPendingPackets.caseTick s2.1 s2.2 0).1.con.written = s2.1.con.written ++ L ∧
      commandFrame 255 wrapFirst ∈ L ∧
      ProcessPendingPackets.run wrapStart
        [.out (.ClientCommand wrapFirst), .tick 0] = some s4 ∧
      s4.1.con.written = s2.1.con.written ++ L ++ e ∧
      ProcessPendingPackets.step s4 (.out (.ClientCommand wrapSecond)) = some s5 ∧
      s5.1.con.written = s4.1.con.written ∧
      s5.2.pending s4.1.cmdCounter = some (commandFrame s4.1.cmdCounter wrapSecond)) ∧
    (∃ s3 L,
      ProcessPendingPackets.run wrapStart
        [.out (.ClientCommand wrapFirst), .out (.ClientCommand wrapSecond)] = some s3 ∧
      s3.1.con.written.count (commandFrame 255 wrapFirst) =
        wrapStart.1.con.written.count (commandFrame 255 wrapFirst) ∧
      s3.1.con.written.count (commandFrame 0 wrapSecond) =
        wrapStart.1.con.written.count (commandFrame 0 wrapSecond) ∧
      (ProcessPendingPackets.caseTick s3.1 s3.2 0).1.con.written = s3.1.con.written ++ L ∧
      L.Pairwise (fun f g => ∃ i j, f[8]? = some i ∧ g[8]? = some j ∧ i < j) ∧
      commandFrame 255 wrapFirst ∈ L ∧
      commandFrame 0 wrapSecond ∈ L ∧
      (255 < 0 →
        ∃ l1 l2 l3, L = l1 ++ commandFrame 255 wrapFirst :: l2 ++
          commandFrame 0 wrapSecond :: l3) ∧
      (0 < 255 →
        ∃ l1 l2 l3, L = l1 ++ commandFrame 0 wrapSecond :: l2 ++
          commandFrame 255 wrapFirst :: l3)) :=
  first_transmissions_follow_ticks wrapStart wrapFirst wrapSecond [] [] [] 0
    (by decide) (by decide) (by decide)
    (by intro k f hf; cases hf)
    (by intro i hi; cases hi)
    (by intro x hx; cases hx)
    (by decide) (by intro i hi; cases hi) (by decide) (by decide)

/-! ## The writer: a slot that is used again -/

/-- A tick on a table that does not hold the frame `f` neither writes nor reports `f`, and
the table still does not hold it. -/
theorem tick_absent (s : UDPClient × Pending) (now : Nat) (f : List Nat)
    (h : ∀ k, s.2.pending k ≠ some f) :
    (ProcessPendingPackets.caseTick s.1 s.2 now).1.con.written.count f =
        s.1.con.written.count f ∧
      (ProcessPendingPackets.caseTick s.1 s.2 now).1.Err.count (UDPError.sendTimeout f) =
        s.1.Err.count (UDPError.sendTimeout f) ∧
      ∀ k, (ProcessPendingPackets.caseTick s.1 s.2 now).2.pending k ≠ some f := by
  obtain ⟨hcon, herr, -, -, -⟩ := caseTick_parts s.1 s.2 now
  obtain ⟨c1, c2⟩ := tickFold_foreign (List.range 256) (s.1, s.2) 256 f (by simp)
    (fun j _ g hg e => h j (e ▸ hg)) (List.nodup_range 256)
  obtain ⟨t, et, -, -, hp, hq, -, -⟩ := tick_facts s now
  refine ⟨by rw [hcon]; exact c1, by rw [herr]; exact c2, ?_⟩
  intro k
  rw [et]
  by_cases hk : k < 256
  · rw [hp k hk]
    unfold slotSend
    split
    · exact h k
    · intro e; cases e
  · rw [hq k hk]
    exact h k

/-- Ticks on a table that does not hold the frame `f`. -/
theorem ticks_absent_run (n : Nat) (now : Nat) (f : List Nat) (s : UDPClient × Pending)
    (h : ∀ k, s.2.pending k ≠ some f) :
    ∃ t, ProcessPendingPackets.run s (List.replicate n (.tick now)) = some t ∧
      t.1.con.written.count f = s.1.con.written.count f ∧
      t.1.Err.count (UDPError.sendTimeout f) = s.1.Err.count (UDPError.sendTimeout f) ∧
      ∀ k, t.2.pending k ≠ some f := by
  induction n generalizing s with
  | zero => exact ⟨s, rfl, rfl, rfl, h⟩
  | succ n ih =>
    obtain ⟨a1, a2, a3⟩ := tick_absent s now f h
    obtain ⟨t, et, b1, b2, b3⟩ := ih _ a3
    refine ⟨t, ?_, by rw [b1, a1], by rw [b2, a2], b3⟩
    rw [List.replicate_succ, run_tick]
    exact et

/-- C11, counterexample.  From the reset client with an empty table, `wrapFirst` is dequeued
(sequence 0) and the next tick writes its frame; 256 commands are then dequeued before the
following tick, and the last of them, given sequence 0 again, replaces the frame of
`wrapFirst` in slot 0, which no reply had acknowledged.  After eight more ticks the frame of
`wrapFirst` has been written once, no send timeout has been reported for it, and no slot
holds it. -/
theorem overwritten_frame_counterexample :
    ∃ s, ProcessPendingPackets.run (Listen.reset NewUDPClient 0, Pending.init) overwriteRun =
        some s ∧
      s.1.con.written.count (commandFrame 0 wrapFirst) = 1 ∧
      s.1.Err.count (UDPError.sendTimeout (commandFrame 0 wrapFirst)) = 0 ∧
      ∀ k, s.2.pending k ≠ some (commandFrame 0 wrapFirst) := by
  have hb : (BEPacket.ClientCommand wrapSecond).Constructed := by decide
  -- the first command is dequeued and stored in slot 0
  obtain ⟨s1, e1, w1, c1, p1, r1, I1⟩ := dequeue_stores (Listen.reset NewUDPClient 0, Pending.init)
    wrapFirst (by decide) (by decide) (by intro k f hf; cases hf)
  have err1 : s1.1.Err = [] := by
    have h0 : ProcessPendingPackets.step (Listen.reset NewUDPClient 0, Pending.init)
        (.out (.ClientCommand wrapFirst)) = _ :=
      caseOut_command (Listen.reset NewUDPClient 0) Pending.init wrapFirst (by decide) (by decide)
    rw [h0] at e1
    rw [← Option.some.inj e1]
    rfl
  have hc0 : (Listen.reset NewUDPClient 0, Pending.init).1.cmdCounter = 0 := rfl
  rw [hc0] at c1 p1 I1
  -- the tick transmits it once
  obtain ⟨I2, c2, -, hretry, -⟩ := slot_tick 0 (commandFrame 0 wrapFirst) s1 0 I1
  obtain ⟨p2, r2, w2, err2⟩ := hretry p1 (by rw [r1]; decide)
  -- 255 more commands are dequeued: sequences 1 to 255
  have hins : ∀ i ∈ List.replicate 255 (Input.out (.ClientCommand wrapSecond)),
      i.Constructed := by
    intro i hi
    rw [List.eq_of_mem_replicate hi]
    exact hb
  have hnt : ∀ i ∈ List.replicate 255 (Input.out (.ClientCommand wrapSecond)),
      i.isTick = false := by
    intro i hi
    rw [List.eq_of_mem_replicate hi]
    rfl
  have hack : ∀ x, Input.chk x ∈ List.replicate 255 (Input.out (.ClientCommand wrapSecond)) →
      x.Sequence ≠ 0 := by
    intro x hx
    cases List.eq_of_mem_replicate hx
  have hflen : ((List.replicate 255 (Input.out (.ClientCommand wrapSecond))).filter
      Input.isCommand).length = 255 := by
    rw [List.filter_eq_self.mpr, List.length_replicate]
    intro i hi
    rw [List.eq_of_mem_replicate hi]
    rfl
  have hftick : ((List.replicate 255 (Input.out (.ClientCommand wrapSecond))).filter
      Input.isTick).length = 0 := by
    rw [List.filter_eq_nil_iff.mpr, List.length_nil]
    intro i hi
    rw [List.eq_of_mem_replicate hi]
    simp [Input.isTick]
  have hreuse : ∀ n, n < ((List.replicate 255 (Input.out (.ClientCommand wrapSecond))).filter
      Input.isCommand).length →
      ((ProcessPendingPackets.caseTick s1.1 s1.2 0).1.cmdCounter + n) % 256 ≠ 0 := by
    intro n hn
    rw [hflen] at hn
    rw [c2, c1]
    omega
  obtain ⟨s3, e3, I3, c3, p3, -, -⟩ := slot_wait_run 0 (commandFrame 0 wrapFirst) _ _ I2
    (Or.inl p2) hins hnt hack hreuse
  obtain ⟨s3', e3', w3, err3, -⟩ := slot_pending_run 0 (commandFrame 0 wrapFirst) _ _ I2 p2
    hins hack hreuse
  rw [e3] at e3'
  cases e3'
  rw [hftick] at w3 err3
  rw [hflen, c2, c1] at c3
  have c3' : s3.1.cmdCounter = 0 := by rw [c3]
  -- the 256th is given sequence 0 again and replaces the frame in slot 0
  have e4 := caseOut_command s3.1 s3.2 wrapSecond hb I3.2.2.2.2
  rw [c3'] at e4
  have hne : commandFrame 0 wrapSecond ≠ commandFrame 0 wrapFirst := by
    intro e
    have e9 := congrArg (fun l : List Nat => l[9]?) e
    simp [commandFrame, referenceFrame, littleEndian32, wrapFirst, wrapSecond] at e9
  obtain ⟨s5, e5, w5, err5, p5⟩ := ticks_absent_run 8 0 (commandFrame 0 wrapFirst)
    ({ s3.1 with cmdCounter := (0 + 1) % 256 },
      { s3.2 with pending := Function.update s3.2.pending 0 (some
        (referenceFrame [0x42, 0x45] ([0xFF, 0x01, 0] ++ wrapSecond.Command))) })
    (by
      intro k hk
      dsimp only at hk
      by_cases h0 : k = 0
      · subst h0
        rw [Function.update_same] at hk
        exact hne (Option.some.inj hk)
      · rw [Function.update_noteq h0] at hk
        have h8 := I3.2.2.2.1 k _ hk
        rw [commandFrame_seq] at h8
        exact h0 (Option.some.inj h8).symm)
  refine ⟨s5, ?_, ?_, ?_, p5⟩
  · unfold overwriteRun
    have hsplit : List.replicate 256 (Input.out (.ClientCommand wrapSecond)) =
        List.replicate 255 (Input.out (.ClientCommand wrapSecond)) ++
          [Input.out (.ClientCommand wrapSecond)] := List.replicate_succ' 255 _
    have hA : ProcessPendingPackets.run (Listen.reset NewUDPClient 0, Pending.init)
        [.out (.ClientCommand wrapFirst), .tick 0] =
        some (ProcessPendingPackets.caseTick s1.1 s1.2 0) := by
      rw [run_cons, e1, Option.some_bind, run_tick]
      rfl
    have hstep : ProcessPendingPackets.step s3 (.out (.ClientCommand wrapSecond)) =
        ProcessPendingPackets.caseOut s3.1 s3.2 (.ClientCommand wrapSecond) := rfl
    rw [run_append, run_append, hA, Option.some_bind, hsplit, run_append, e3, Option.some_bind,
      run_cons, hstep, e4, Option.some_bind,
      show ∀ t : UDPClient × Pending, ProcessPendingPackets.run t [] = some t from fun _ => rfl,
      Option.some_bind]
    exact e5
  · rw [w5]
    show s3.1.con.written.count _ = 1
    rw [w3, w2, w1]
    simp
    rfl
  · rw [err5]
    show s3.1.Err.count _ = 0
    rw [err3, err2, err1]
    simp

end udp
